import Mathlib

/-! Buffer cache of xv6 (kernel/bio.c), sharded variant.

A shallow embedding of `kernel/bio.c`.  The C heap is modelled field by field:
every field of `struct buf` is a map from nodes (addresses of `struct buf`
objects) to values, and every C statement is one update of one such map.
The lists are the real pointer structure (`next` / `prev`), not Lean lists;
the Lean list of a shard is *computed* from the pointers by `bucket`.
-/

namespace Bio

/-! ## Data model -/

/-- Addresses of `struct buf` objects: the null pointer, `&bcache.head[i]`
and `&bcache.buf[j]`. -/
inductive Node where
  | null
  | head (i : Nat)
  | buf (j : Nat)
deriving DecidableEq, Repr

/-- Payload `uchar data[BSIZE]` of a buffer. -/
abbrev Data := List Nat

/-- Calls that leave the cache and are recorded, newest first, in `State.log`. -/
inductive Event where
  | acquire (i : Nat)
  | release (i : Nat)
  | acquiresleep (b : Node)
  | releasesleep (b : Node)
  | disk_rw (dev : Nat) (b : Node) (write : Nat)
deriving DecidableEq, Repr

/-- The event is a spin lock call. -/
def Event.isSpin : Event → Bool
  | Event.acquire _ => true
  | Event.release _ => true
  | _ => false

/-- The event is a call of the storage driver. -/
def Event.isDisk : Event → Bool
  | Event.disk_rw _ _ _ => true
  | _ => false

/-- Build-time constants: `NBUF` comes from `param.h`, which is not among the
sources, and is a parameter; the number of shards is a parameter too so that
the small configurations of the specification can be stated. -/
structure Param where
  nbuf : Nat
  nbuckets : Nat
deriving DecidableEq, Repr

/-- Value of `#define NBUCKETS 13` in `bio.c`. -/
def NBUCKETS : Nat := 13

/-- Configuration of the kernel: `NBUCKETS` of `bio.c` and xv6's `NBUF = 30`. -/
def xv6 : Param := ⟨30, NBUCKETS⟩

/-- Modelled from the spec: the declaration of `struct buf` (`buf.h`) and the
sleep lock (`sleeplock.c`) are not among the sources.  `refcnt` is a
non-negative integer, `valid` a boolean (`b->valid = 0` is `false`,
`b->valid = 1` is `true`), and the content lock is either free (`none`) or
held by one process (`some pid`).
Each field is a map from nodes to values; `disk` is the storage behind
`virtio_disk_rw`, addressed by device and block number. -/
@[ext]
structure State where
  valid : Node → Bool
  dev : Node → Nat
  blockno : Node → Nat
  lock : Node → Option Nat
  refcnt : Node → Nat
  prev : Node → Node
  next : Node → Node
  data : Node → Data
  disk : Nat → Nat → Data
  log : List Event

/-- Assignment `f[b] = v` to one cell of a field map. -/
def upd {α : Type} (f : Node → α) (b : Node) (v : α) : Node → α :=
  fun n => if n = b then v else f n

/-- How a kernel call ends: it returns, it panics, it is suspended inside
`acquiresleep` on buffer `b`, or a list scan of the model ran out of fuel. -/
inductive Result (α : Type) where
  | ok (a : α) (s : State)
  | panic (msg : String) (s : State)
  | blocked (b : Node) (s : State)
  | timeout (s : State)

/-- Memory in which a call ends. -/
def Result.state {α : Type} : Result α → State
  | Result.ok _ s => s
  | Result.panic _ s => s
  | Result.blocked _ s => s
  | Result.timeout s => s

/-! ## Primitives that are not defined in `bio.c` -/

/-- Modelled from the spec: `acquire(&bcache.lock[i])` of `spinlock.c`, a
mutual-exclusion lock that leaves the cache memory alone; the call is
recorded in the log. -/
def acquire (i : Nat) (s : State) : State :=
  { s with log := Event.acquire i :: s.log }

/-- Modelled from the spec: `release(&bcache.lock[i])` of `spinlock.c`; the
call is recorded in the log. -/
def release (i : Nat) (s : State) : State :=
  { s with log := Event.release i :: s.log }

/-- The moment a sleeper is given the content lock of `b`. -/
def grantsleep (pid : Nat) (b : Node) (s : State) : State :=
  { s with lock := upd s.lock b (some pid) }

/-- Modelled from the spec: `acquiresleep(&b->lock)` of `sleeplock.c`.  The
caller gets the lock when it is free and is suspended otherwise. -/
def acquiresleep (pid : Nat) (b : Node) (s : State) : Result Node :=
  let s := { s with log := Event.acquiresleep b :: s.log }
  match s.lock b with
  | none => Result.ok b (grantsleep pid b s)
  | some _ => Result.blocked b s

/-- Modelled from the spec: `releasesleep(&b->lock)` of `sleeplock.c`. -/
def releasesleep (b : Node) (s : State) : State :=
  { s with lock := upd s.lock b none, log := Event.releasesleep b :: s.log }

/-- Modelled from the spec: `holdingsleep(&b->lock)` of `sleeplock.c`: the
lock is held, and held by the calling process. -/
def holdingsleep (pid : Nat) (b : Node) (s : State) : Bool :=
  decide (s.lock b = some pid)

/-- Modelled from the spec: `virtio_disk_rw(dev, b, write)` of the storage
driver.  A read fills the payload of `b` from block `b->blockno` of the
device, a write persists the payload there. -/
def virtio_disk_rw (dev : Nat) (b : Node) (write : Nat) (s : State) : State :=
  let s := { s with log := Event.disk_rw dev b write :: s.log }
  if write = 0 then
    { s with data := upd s.data b (s.disk dev (s.blockno b)) }
  else
    { s with disk := fun d n =>
        if d = dev ∧ n = s.blockno b then s.data b else s.disk d n }

/-- Modelled from the spec: `initsleeplock(&b->lock, "buffer")`. -/
def initsleeplock (b : Node) (s : State) : State :=
  { s with lock := upd s.lock b none }

/-! ## `binit` -/

/-- Body of both inner loops of `binit`: thread `b` in behind `head[i]`. -/
def binit_link (i : Nat) (b : Node) (s : State) : State :=
  let s := { s with next := upd s.next b (s.next (Node.head i)) }
  let s := { s with prev := upd s.prev b (Node.head i) }
  let s := initsleeplock b s
  let s := { s with prev := upd s.prev (s.next (Node.head i)) b }
  { s with next := upd s.next (Node.head i) b }

/-- Statements `head[i].prev = &head[i]; head[i].next = &head[i];`. -/
def binit_head (i : Nat) (s : State) : State :=
  let s := { s with prev := upd s.prev (Node.head i) (Node.head i) }
  { s with next := upd s.next (Node.head i) (Node.head i) }

/-- Loop `for(b = &buf[lo]; b < &buf[hi]; b++)` of `binit`, inserting into
shard `i`. -/
def binit_fill (i lo hi : Nat) (s : State) : State :=
  (List.range' lo (hi - lo)).foldl (fun s j => binit_link i (Node.buf j) s) s

/-- One round of the loop `for(int i=0;i<NBUCKETS-1;i++)` of `binit`; the
triple is the memory, the pointer `b` (an index into `bcache.buf`, unset
before the first round) and `cur`. -/
def binit_round (n : Nat) (acc : State × Option Nat × Nat) (i : Nat) :
    State × Option Nat × Nat :=
  let s := binit_head i acc.1
  let s := binit_fill i (i * n) ((i + 1) * n) s
  (s, some (max (i * n) ((i + 1) * n)), i + 1)

/-- Function `binit`.  `initlock` only sets up the spin locks, of which the
model keeps the calls in the log.  The local `b` is uninitialised when the third loop runs
no round (`NBUCKETS < 2`); the last loop then has no defined behaviour and
the model returns `none`. -/
def binit (P : Param) (s : State) : Option State :=
  let n := P.nbuf / P.nbuckets
  let s := (List.range P.nbuckets).foldl (fun s i => binit_head i s) s
  let acc := (List.range (P.nbuckets - 1)).foldl (binit_round n) (s, none, 0)
  match acc.2.1 with
  | none => none
  | some b => some (binit_fill acc.2.2 b P.nbuf acc.1)

/-- Memory before `binit`: the zero-initialised `bcache`, over a given disk. -/
def State.zero (disk : Nat → Nat → Data) : State where
  valid := fun _ => false
  dev := fun _ => 0
  blockno := fun _ => 0
  lock := fun _ => none
  refcnt := fun _ => 0
  prev := fun _ => Node.null
  next := fun _ => Node.null
  data := fun _ => []
  disk := disk
  log := []

/-! ## `bget`, `bread`, `bwrite`, `brelse`, `bpin`, `bunpin` -/

/-- Loop `for(b = start; b != stop; b = step b) if(p b) return b;`.
`none`: out of fuel; `some none`: the loop ended at `stop`;
`some (some b)`: the body returned at `b`. -/
def scan (step : Node → Node) (p : Node → Bool) (stop : Node) :
    Nat → Node → Option (Option Node)
  | 0, _ => none
  | fuel + 1, b =>
    if b = stop then some none
    else if p b then some (some b)
    else scan step p stop fuel (step b)

/-- Statements of the two recycling branches of `bget`:
`b->dev = dev; b->blockno = blockno; b->valid = 0; b->refcnt = 1;`. -/
def bget_claim (dev blockno : Nat) (b : Node) (s : State) : State :=
  let s := { s with dev := upd s.dev b dev }
  let s := { s with blockno := upd s.blockno b blockno }
  let s := { s with valid := upd s.valid b false }
  { s with refcnt := upd s.refcnt b 1 }

/-- Statements of the steal branch of `bget` from the claim of `b`, found in
shard `i`, up to the release of the home lock. -/
def bget_take (dev blockno key i : Nat) (b : Node) (s : State) : State :=
  let s := bget_claim dev blockno b s
  let s := { s with next := upd s.next (s.prev b) (s.next b) }
  let s := { s with prev := upd s.prev (s.next b) (s.prev b) }
  let s := release i s
  let s := { s with prev := upd s.prev b (Node.head key) }
  let s := { s with next := upd s.next b (s.next (Node.head key)) }
  let s := { s with prev := upd s.prev (s.next (Node.head key)) b }
  let s := { s with next := upd s.next (Node.head key) b }
  release key s

/-- Steal loop of `bget`,
`for(int i = (key+1) % NBUCKETS; i != key; i = (i+1) % NBUCKETS)`,
followed by the final `release` and `panic`.  The first argument bounds the
number of rounds of the model. -/
def bget_steal (P : Param) (pid dev blockno key : Nat) :
    Nat → Nat → State → Result Node
  | 0, _, s => Result.timeout s
  | fuel + 1, i, s =>
    if i = key then
      let s := release key s
      Result.panic "bget: no buffers" s
    else
      let s := acquire i s
      match scan s.prev (fun b => decide (s.refcnt b = 0)) (Node.head i) (P.nbuf + 1)
          (s.prev (Node.head i)) with
      | none => Result.timeout s
      | some (some b) => acquiresleep pid b (bget_take dev blockno key i b s)
      | some none =>
        let s := release i s
        bget_steal P pid dev blockno key fuel ((i + 1) % P.nbuckets) s

/-- Function `bget`, called by process `pid`.  The list scans run with fuel
`NBUF + 1`, the steal loop with fuel `NBUCKETS`. -/
def bget (P : Param) (pid dev blockno : Nat) (s : State) : Result Node :=
  let key := blockno % P.nbuckets
  let s := acquire key s
  match scan s.next (fun b => decide (s.dev b = dev ∧ s.blockno b = blockno))
      (Node.head key) (P.nbuf + 1) (s.next (Node.head key)) with
  | none => Result.timeout s
  | some (some b) =>
    let s := { s with refcnt := upd s.refcnt b (s.refcnt b + 1) }
    let s := release key s
    acquiresleep pid b s
  | some none =>
    match scan s.prev (fun b => decide (s.refcnt b = 0)) (Node.head key) (P.nbuf + 1)
        (s.prev (Node.head key)) with
    | none => Result.timeout s
    | some (some b) =>
      let s := bget_claim dev blockno b s
      let s := release key s
      acquiresleep pid b s
    | some none =>
      bget_steal P pid dev blockno key P.nbuckets ((key + 1) % P.nbuckets) s

/-- Statements of `bread` after `bget` has returned `b`. -/
def bread_fill (b : Node) (s : State) : State :=
  if s.valid b = false then
    let s := virtio_disk_rw (s.dev b) b 0 s
    { s with valid := upd s.valid b true }
  else s

/-- Function `bread`. -/
def bread (P : Param) (pid dev blockno : Nat) (s : State) : Result Node :=
  match bget P pid dev blockno s with
  | Result.ok b s => Result.ok b (bread_fill b s)
  | r => r

/-- Function `bwrite`. -/
def bwrite (pid : Nat) (b : Node) (s : State) : Result Unit :=
  if holdingsleep pid b s = false then Result.panic "bwrite" s
  else Result.ok () (virtio_disk_rw (s.dev b) b 1 s)

/-- Statements of `brelse` under `if (b->refcnt == 0)`: unlink `b` and put it
behind `head[key]`. -/
def brelse_move (key : Nat) (b : Node) (s : State) : State :=
  let s := { s with prev := upd s.prev (s.next b) (s.prev b) }
  let s := { s with next := upd s.next (s.prev b) (s.next b) }
  let s := { s with next := upd s.next b (s.next (Node.head key)) }
  let s := { s with prev := upd s.prev b (Node.head key) }
  let s := { s with prev := upd s.prev (s.next (Node.head key)) b }
  { s with next := upd s.next (Node.head key) b }

/-- Function `brelse`.  `b->refcnt--` is subtraction on the natural numbers;
every statement below about it is made where `refcnt >= 1`. -/
def brelse (P : Param) (pid : Nat) (b : Node) (s : State) : Result Unit :=
  if holdingsleep pid b s = false then Result.panic "brelse" s
  else
    let s := releasesleep b s
    let key := s.blockno b % P.nbuckets
    let s := acquire key s
    let s := { s with refcnt := upd s.refcnt b (s.refcnt b - 1) }
    let s := if s.refcnt b = 0 then brelse_move key b s else s
    Result.ok () (release key s)

/-- Function `bpin`. -/
def bpin (P : Param) (b : Node) (s : State) : State :=
  let key := s.blockno b % P.nbuckets
  let s := acquire key s
  let s := { s with refcnt := upd s.refcnt b (s.refcnt b + 1) }
  release key s

/-- Function `bunpin`.  `b->refcnt--` is subtraction on the natural numbers;
every statement below about it is made where `refcnt >= 1`. -/
def bunpin (P : Param) (b : Node) (s : State) : State :=
  let key := s.blockno b % P.nbuckets
  let s := acquire key s
  let s := { s with refcnt := upd s.refcnt b (s.refcnt b - 1) }
  release key s

/-! ## Reading the lists off the pointers -/

/-- Nodes met following `step` from a node up to `stop` (excluded). -/
def walk (step : Node → Node) (stop : Node) : Nat → Node → List Node
  | 0, _ => []
  | fuel + 1, b => if b = stop then [] else b :: walk step stop fuel (step b)

/-- Shard `i` in `head.next` order (most recently used first). -/
def bucket (P : Param) (s : State) (i : Nat) : List Node :=
  walk s.next (Node.head i) (P.nbuf + 1) (s.next (Node.head i))

/-! ## Well-formed pointer structure -/

/-- From `a`, the map `f` runs through the nodes of `l` in order and then
reaches `z`: `f a = l₀`, `f l₀ = l₁`, ..., `f lₙ = z`. -/
def Path (f : Node → Node) : Node → List Node → Node → Prop
  | a, [], z => f a = z
  | a, x :: l, z => f a = x ∧ Path f x l z

/-- Decision procedure for `Path`. -/
def Path.dec (f : Node → Node) :
    (a : Node) → (l : List Node) → (z : Node) → Decidable (Path f a l z)
  | a, [], z => inferInstanceAs (Decidable (f a = z))
  | a, x :: l, z =>
    @instDecidableAnd _ _ (inferInstanceAs (Decidable (f a = x))) (Path.dec f x l z)

instance (f : Node → Node) (a : Node) (l : List Node) (z : Node) :
    Decidable (Path f a l z) := Path.dec f a l z

/-- The nodes `l` form a circular doubly linked list through the sentinel
`h`: `next` runs `h, l, h` and `prev` runs it backwards. -/
def Ring (nx pv : Node → Node) (h : Node) (l : List Node) : Prop :=
  Path nx h l h ∧ Path pv h l.reverse h

instance (nx pv : Node → Node) (h : Node) (l : List Node) :
    Decidable (Ring nx pv h l) := by
  unfold Ring; infer_instance

/-- The pointers `nx`, `pv` thread the lists `L i` through the sentinels
`head[i]`: every list is a ring of pool buffers without repetition, and no
buffer is in two lists. -/
def Rings (P : Param) (nx pv : Node → Node) (L : Nat → List Node) : Prop :=
  (∀ i, i < P.nbuckets → Ring nx pv (Node.head i) (L i)) ∧
  (∀ i, i < P.nbuckets → ∀ x ∈ L i, ∃ j, j < P.nbuf ∧ x = Node.buf j) ∧
  (∀ i, i < P.nbuckets → (L i).Nodup) ∧
  (∀ i, i < P.nbuckets → ∀ k, k < P.nbuckets → ∀ x ∈ L i, x ∈ L k → i = k)

instance (P : Param) (nx pv : Node → Node) (L : Nat → List Node) :
    Decidable (Rings P nx pv L) := by
  unfold Rings; infer_instance

/-- Every pool buffer is in some list. -/
def Covers (P : Param) (L : Nat → List Node) : Prop :=
  ∀ j, j < P.nbuf → ∃ i, i < P.nbuckets ∧ Node.buf j ∈ L i

instance (P : Param) (L : Nat → List Node) : Decidable (Covers P L) := by
  unfold Covers; infer_instance

/-- Structural invariant of the pool: there is at least one shard, the
shard lists read off the pointers are rings, and every one of the `NBUF`
buffers is in exactly one of them. -/
def ListsOk (P : Param) (s : State) : Prop :=
  0 < P.nbuckets ∧ Rings P s.next s.prev (bucket P s) ∧ Covers P (bucket P s)

instance (P : Param) (s : State) : Decidable (ListsOk P s) := by
  unfold ListsOk; infer_instance

/-- Well-formed cache state: the lists are well formed and a buffer that
nobody references (`refcnt == 0`) has a free content lock. -/
def WellFormed (P : Param) (s : State) : Prop :=
  ListsOk P s ∧ ∀ j, j < P.nbuf → s.refcnt (Node.buf j) = 0 → s.lock (Node.buf j) = none

instance (P : Param) (s : State) : Decidable (WellFormed P s) := by
  unfold WellFormed; infer_instance

/-- Forward pointers after `b->prev->next = b->next`. -/
def unlinkNx (nx pv : Node → Node) (b : Node) : Node → Node :=
  upd nx (pv b) (nx b)

/-- Backward pointers after `b->next->prev = b->prev`. -/
def unlinkPv (nx pv : Node → Node) (b : Node) : Node → Node :=
  upd pv (nx b) (pv b)

/-- Forward pointers after `b->next = h->next; h->next = b`. -/
def insertNx (nx : Node → Node) (h b : Node) : Node → Node :=
  upd (upd nx b (nx h)) h b

/-- Backward pointers after `b->prev = h; h->next->prev = b` (with the old
`h->next`). -/
def insertPv (nx pv : Node → Node) (h b : Node) : Node → Node :=
  upd (upd pv b h) (nx h) b

/-- Buffer `x` carries the key `(dev, blockno)`. -/
def hasKey (s : State) (dev blockno : Nat) (x : Node) : Prop :=
  s.dev x = dev ∧ s.blockno x = blockno

instance (s : State) (dev blockno : Nat) (x : Node) : Decidable (hasKey s dev blockno x) := by
  unfold hasKey; infer_instance

/-- The lists `L` are rings that hold exactly the buffers below index `c`. -/
def Filled (P : Param) (nx pv : Node → Node) (L : Nat → List Node) (c : Nat) : Prop :=
  Rings P nx pv L ∧
  (∀ i, i < P.nbuckets → ∀ x ∈ L i, ∃ j, j < c ∧ x = Node.buf j) ∧
  (∀ j, j < c → ∃ i, i < P.nbuckets ∧ Node.buf j ∈ L i)

/-- No buffer is referenced and no content lock is held. -/
def Quiet (s : State) : Prop :=
  (∀ x, s.refcnt x = 0) ∧ (∀ x, s.lock x = none) ∧ s.log = []

/-! ## What the scans of `bget` find, and the memory it leaves -/

/-- First buffer of the home shard, in `head.next` order, with the key. -/
def hitOf (P : Param) (s : State) (dev blockno : Nat) : Option Node :=
  (bucket P s (blockno % P.nbuckets)).find?
    (fun b => decide (s.dev b = dev ∧ s.blockno b = blockno))

/-- First buffer of shard `i`, in `head.prev` order (from the least recently
used end), whose `refcnt` is `0`. -/
def freeIn (P : Param) (s : State) (i : Nat) : Option Node :=
  (bucket P s i).reverse.find? (fun b => decide (s.refcnt b = 0))

/-- Lists after `b` has been taken out of its list and put first in list `k`. -/
def moved (L : Nat → List Node) (b : Node) (k : Nat) : Nat → List Node :=
  fun i => if i = k then b :: (L i).erase b else (L i).erase b

/-- Memory after a cache hit on `b`, before the content lock is taken. -/
def hitMem (s : State) (b : Node) (lg : List Event) : State :=
  { s with refcnt := upd s.refcnt b (s.refcnt b + 1), log := lg }

/-- Memory after `b` has been claimed for `(dev, blockno)` in place, before
the content lock is taken. -/
def claimMem (s : State) (dev blockno : Nat) (b : Node) (lg : List Event) : State :=
  { s with dev := upd s.dev b dev, blockno := upd s.blockno b blockno,
           valid := upd s.valid b false, refcnt := upd s.refcnt b 1, log := lg }

/-- Memory after `b` has been claimed for `(dev, blockno)` and moved to the
front of shard `key`, before the content lock is taken. -/
def stealMem (s : State) (dev blockno key : Nat) (b : Node) (lg : List Event) : State :=
  { claimMem s dev blockno b lg with
    next := insertNx (unlinkNx s.next s.prev b) (Node.head key) b,
    prev := insertPv (unlinkNx s.next s.prev b) (unlinkPv s.next s.prev b) (Node.head key) b }

/-- Memory after `brelse(b)` by the holder of the content lock of `b`. -/
def relMem (P : Param) (s : State) (b : Node) : State :=
  { s with
    lock := upd s.lock b none,
    refcnt := upd s.refcnt b (s.refcnt b - 1),
    next := if s.refcnt b - 1 = 0 then
        insertNx (unlinkNx s.next s.prev b) (Node.head (s.blockno b % P.nbuckets)) b
      else s.next,
    prev := if s.refcnt b - 1 = 0 then
        insertPv (unlinkNx s.next s.prev b) (unlinkPv s.next s.prev b)
          (Node.head (s.blockno b % P.nbuckets)) b
      else s.prev,
    log := Event.release (s.blockno b % P.nbuckets) ::
      Event.acquire (s.blockno b % P.nbuckets) :: Event.releasesleep b :: s.log }

/-- The three ways in which `bget` settles on a buffer `b`, with the memory
`M` it has built when it calls `acquiresleep`: a cache hit, a recycled buffer
of the home shard, a buffer stolen from the shard at cyclic distance `d`. -/
inductive BgetMem (P : Param) (s : State) (dev blockno : Nat) (lg : List Event) :
    Node → State → Prop where
  | hit (b : Node) (h : hitOf P s dev blockno = some b) :
      BgetMem P s dev blockno lg b (hitMem s b lg)
  | recycle (b : Node) (h1 : hitOf P s dev blockno = none)
      (h2 : freeIn P s (blockno % P.nbuckets) = some b) :
      BgetMem P s dev blockno lg b (claimMem s dev blockno b lg)
  | steal (b : Node) (d : Nat) (h1 : hitOf P s dev blockno = none)
      (h2 : freeIn P s (blockno % P.nbuckets) = none) (hd1 : 1 ≤ d) (hd2 : d < P.nbuckets)
      (h3 : freeIn P s ((blockno % P.nbuckets + d) % P.nbuckets) = some b)
      (h4 : ∀ e, 1 ≤ e → e < d →
        freeIn P s ((blockno % P.nbuckets + e) % P.nbuckets) = none) :
      BgetMem P s dev blockno lg b (stealMem s dev blockno (blockno % P.nbuckets) b lg)

/-- A sequence of `bget` calls `(pid, dev, blockno)`, each made in the memory
the previous one ended in. -/
def bgets (P : Param) : List (Nat × Nat × Nat) → State → State
  | [], s => s
  | r :: rs, s => bgets P rs (bget P r.1 r.2.1 r.2.2 s).state

/-! ## Reachable states -/

/-- Memory together with the bookkeeping of the calling protocol: for every
buffer the number of `bpin` calls not yet undone by `bunpin`, and the number
of processes suspended in `acquiresleep` on its content lock. -/
structure Sys where
  st : State
  pins : Node → Nat
  waits : Node → Nat

/-- States reached from `binit` by calls that follow the protocol. Every
call is one step; a `bget` or `bread` that has to wait for the content lock is
two steps, the call up to `acquiresleep` and the later grant of the lock
(followed, for `bread`, by the rest of `bread`). `brelse` and `bwrite` are
called by the holder of the content lock (otherwise they panic), `bpin` on a
buffer with `refcnt > 0`, and `bunpin` undoes an earlier `bpin`. -/
inductive Reachable (P : Param) : Sys → Prop where
  | init (disk : Nat → Nat → Data) (s : State) (h : binit P (State.zero disk) = some s) :
      Reachable P ⟨s, fun _ => 0, fun _ => 0⟩
  | bget_ok (y : Sys) (pid dev blockno : Nat) (b : Node) (s1 : State) (hy : Reachable P y)
      (h : bget P pid dev blockno y.st = Result.ok b s1) :
      Reachable P { y with st := s1 }
  | bget_blocked (y : Sys) (pid dev blockno : Nat) (b : Node) (s1 : State)
      (hy : Reachable P y) (h : bget P pid dev blockno y.st = Result.blocked b s1) :
      Reachable P { y with st := s1, waits := upd y.waits b (y.waits b + 1) }
  | bget_panic (y : Sys) (pid dev blockno : Nat) (msg : String) (s1 : State)
      (hy : Reachable P y) (h : bget P pid dev blockno y.st = Result.panic msg s1) :
      Reachable P { y with st := s1 }
  | bread_ok (y : Sys) (pid dev blockno : Nat) (b : Node) (s1 : State) (hy : Reachable P y)
      (h : bread P pid dev blockno y.st = Result.ok b s1) :
      Reachable P { y with st := s1 }
  | wake (y : Sys) (pid : Nat) (b : Node) (fill : Bool) (hy : Reachable P y)
      (hw : 0 < y.waits b) (hl : y.st.lock b = none) :
      Reachable P
        { y with
          st := if fill then bread_fill b (grantsleep pid b y.st) else grantsleep pid b y.st,
          waits := upd y.waits b (y.waits b - 1) }
  | bwrite (y : Sys) (pid : Nat) (b : Node) (s1 : State) (hy : Reachable P y)
      (h : bwrite pid b y.st = Result.ok () s1) :
      Reachable P { y with st := s1 }
  | brelse (y : Sys) (pid : Nat) (b : Node) (s1 : State) (hy : Reachable P y)
      (h : brelse P pid b y.st = Result.ok () s1) :
      Reachable P { y with st := s1 }
  | bpin (y : Sys) (b : Node) (hy : Reachable P y) (h : 0 < y.st.refcnt b) :
      Reachable P { y with st := bpin P b y.st, pins := upd y.pins b (y.pins b + 1) }
  | bunpin (y : Sys) (b : Node) (hy : Reachable P y) (h : 0 < y.pins b) :
      Reachable P { y with st := bunpin P b y.st, pins := upd y.pins b (y.pins b - 1) }

/-- Every referenced buffer is the one the hit scan finds for its key. -/
def FirstMatch (P : Param) (s : State) : Prop :=
  ∀ x, 0 < s.refcnt x → hitOf P s (s.dev x) (s.blockno x) = some x

/-- The reference count of a buffer counts the holder of its content lock,
the processes waiting for that lock and the pins. -/
def Counted (y : Sys) : Prop :=
  ∀ x, y.st.refcnt x = (if y.st.lock x = none then 0 else 1) + y.waits x + y.pins x

/-- Invariant of the reachable states. -/
def Inv (P : Param) (y : Sys) : Prop :=
  ListsOk P y.st ∧ Counted y ∧ FirstMatch P y.st

/-! ## A small configuration: 2 shards, 4 buffers -/

/-- Two shards and a pool of four buffers. -/
def small : Param := ⟨4, 2⟩

/-- The small pool right after `binit`, over an empty disk. -/
def small0 : State :=
  (binit small (State.zero (fun _ _ => []))).getD (State.zero (fun _ _ => []))

/-- The small pool after process 1 has read block 0 of device 0. -/
def small1 : State := (bread small 1 0 0 small0).state

/-- The small pool after process 1 has also read block 2 of device 0. -/
def small2 : State := (bread small 1 0 2 small1).state

/-- The small pool after process 1 has also read block 4 of device 0, which
steals a buffer from shard 1. -/
def small3 : State := (bread small 1 0 4 small2).state

/-- The small pool with all four buffers referenced: process 1 has also read
block 6 of device 0. -/
def small4 : State := (bread small 1 0 6 small3).state

/-! ## The configuration of the kernel: 13 shards, 30 buffers -/

/-- The pool of the kernel right after `binit`, over an empty disk. -/
def kern0 : State :=
  (binit xv6 (State.zero (fun _ _ => []))).getD (State.zero (fun _ _ => []))

/-- Then process 1 has read block 13 of device 7 (shard 0, buffer 0). -/
def kern1 : State := (bread xv6 1 7 13 kern0).state

/-- Then block 26 of device 7 (shard 0, buffer 1). -/
def kern2 : State := (bread xv6 1 7 26 kern1).state

/-- Then buffer 1 (block 26) has been released. -/
def kern3 : State := (brelse xv6 1 (Node.buf 1) kern2).state

/-- Then buffer 0 (block 13) has been released as well. -/
def kern4 : State := (brelse xv6 1 (Node.buf 0) kern3).state

/-- The state `kern1`, with no pins and no waiters. -/
def kernSys1 : Sys := ⟨kern1, fun _ => 0, fun _ => 0⟩

/-- The state `kern3`, with no pins and no waiters. -/
def kernSys3 : Sys := ⟨kern3, fun _ => 0, fun _ => 0⟩

/-! ## Counting, the lists of `binit`, lock discipline -/

/-- Number of buffers over all shard lists. -/
def poolCount (P : Param) (s : State) : Nat :=
  ((List.range P.nbuckets).map (fun i => (bucket P s i).length)).sum

/-- List of shard `i` right after `binit`, in `head.next` order: the shards
before the last get `NBUF / NBUCKETS` consecutive buffers each, the last
shard gets the rest; each buffer is put in front of the earlier ones. -/
def binitList (P : Param) (i : Nat) : List Node :=
  if i + 1 < P.nbuckets then
    ((List.range' (i * (P.nbuf / P.nbuckets)) (P.nbuf / P.nbuckets)).map Node.buf).reverse
  else if i + 1 = P.nbuckets then
    ((List.range' (i * (P.nbuf / P.nbuckets))
      (P.nbuf - i * (P.nbuf / P.nbuckets))).map Node.buf).reverse
  else []

/-- Run of the lock discipline over a trace in the order of the calls.
`held` are the spin locks held so far. `release` of a lock that is not held,
and `acquiresleep` or `virtio_disk_rw` while a spin lock is held, are
violations (`none`); otherwise the spin locks held at the end are returned. -/
def lockrun : List Nat → List Event → Option (List Nat)
  | held, [] => some held
  | held, Event.acquire i :: es => lockrun (i :: held) es
  | held, Event.release i :: es => if i ∈ held then lockrun (held.erase i) es else none
  | held, Event.acquiresleep _ :: es => if held = [] then lockrun held es else none
  | held, Event.disk_rw _ _ _ :: es => if held = [] then lockrun held es else none
  | held, Event.releasesleep _ :: es => lockrun held es

/-- The calls logged between the memories `s` and `s1` (the log is kept
newest first) respect the lock discipline and leave no spin lock held. -/
def Disciplined (s s1 : State) : Prop :=
  ∃ evs, s1.log = evs ++ s.log ∧ lockrun [] evs.reverse = some []

/-- The calls logged on top of the log `lg0` respect the lock discipline so
far and leave the spin locks `held` held. -/
def Held (lg0 : List Event) (s : State) (held : List Nat) : Prop :=
  ∃ evs, s.log = evs ++ lg0 ∧ lockrun [] evs.reverse = some held

end Bio

namespace Bio

/-! ## Field maps -/

@[simp] theorem upd_same {α : Type} (f : Node → α) (b : Node) (v : α) : upd f b v b = v := by
  simp [upd]

theorem upd_other {α : Type} (f : Node → α) (b : Node) (v : α) (n : Node) (h : n ≠ b) :
    upd f b v n = f n := by
  simp [upd, h]

theorem upd_apply {α : Type} (f : Node → α) (b : Node) (v : α) (n : Node) :
    upd f b v n = if n = b then v else f n := rfl

/-! ## Paths through a pointer map -/

theorem Path.agree {f g : Node → Node} {l : List Node} {a z : Node}
    (hp : Path f a l z) (hfg : ∀ x ∈ a :: l, g x = f x) : Path g a l z := by
  induction l generalizing a with
  | nil =>
    simp only [Path] at hp ⊢
    rw [hfg a (by simp)]; exact hp
  | cons x l ih =>
    simp only [Path] at hp ⊢
    refine ⟨by rw [hfg a (by simp)]; exact hp.1, ih hp.2 ?_⟩
    intro y hy
    exact hfg y (List.mem_cons_of_mem _ hy)

/-- The first step of a path is its first node. -/
theorem Path.first {f : Node → Node} {l : List Node} {a z : Node}
    (hp : Path f a l z) : f a = l.headD z := by
  cases l with
  | nil => exact hp
  | cons x l => exact hp.1

/-- A path only depends on its start through the first step. -/
theorem Path.restart {f g : Node → Node} {l : List Node} {a b z : Node}
    (hp : Path f b l z) (hab : g a = f b) (hfg : ∀ x ∈ l, g x = f x) : Path g a l z := by
  cases l with
  | nil =>
    simp only [Path] at hp ⊢
    rw [hab]; exact hp
  | cons x l =>
    simp only [Path] at hp ⊢
    refine ⟨by rw [hab]; exact hp.1, hp.2.agree ?_⟩
    intro y hy
    exact hfg y hy

theorem Path.append {f : Node → Node} {l₁ l₂ : List Node} {a x z : Node} :
    Path f a (l₁ ++ x :: l₂) z ↔ Path f a l₁ x ∧ Path f x l₂ z := by
  induction l₁ generalizing a with
  | nil => simp [Path]
  | cons y l₁ ih => simp [Path, ih, and_assoc]

/-- Last node of `a :: l`. -/
theorem getLastD_mem (l : List Node) (a : Node) : l.getLastD a ∈ a :: l := by
  induction l generalizing a with
  | nil => simp
  | cons x l ih =>
    have := ih x
    simp only [List.getLastD_cons]
    exact List.mem_cons_of_mem _ this

theorem headD_reverse (l : List Node) (a : Node) : l.reverse.headD a = l.getLastD a := by
  induction l generalizing a with
  | nil => rfl
  | cons x l ih =>
    simp only [List.reverse_cons, List.getLastD_cons]
    rw [← ih x]
    cases l.reverse <;> rfl

theorem getLastD_reverse (l : List Node) (a : Node) : l.reverse.getLastD a = l.headD a := by
  have := headD_reverse l.reverse a
  rw [List.reverse_reverse] at this
  exact this.symm

/-- Redirecting the last step of a path. -/
theorem Path.retarget {f : Node → Node} {l : List Node} {a z : Node} (z1 : Node)
    (hp : Path f a l z) (hnd : (a :: l).Nodup) :
    Path (upd f (l.getLastD a) z1) a l z1 := by
  induction l generalizing a with
  | nil => simp [Path]
  | cons x l ih =>
    simp only [Path] at hp ⊢
    have hnd1 : (x :: l).Nodup := (List.nodup_cons.mp hnd).2
    refine ⟨?_, ?_⟩
    · rw [upd_other]; exact hp.1
      intro h
      have hm := getLastD_mem l x
      rw [List.getLastD_cons] at h
      rw [← h] at hm
      exact (List.nodup_cons.mp hnd).1 hm
    · rw [List.getLastD_cons]; exact ih hp.2 hnd1

/-- Unlinking `b`: its predecessor is made to step over it. -/
theorem Path.skip {f : Node → Node} {l₁ l₂ : List Node} {a b z : Node}
    (hp : Path f a (l₁ ++ b :: l₂) z) (hnd : (a :: (l₁ ++ b :: l₂)).Nodup) :
    Path (upd f (l₁.getLastD a) (f b)) a (l₁ ++ l₂) z := by
  induction l₁ generalizing a with
  | nil =>
    simp only [List.nil_append, Path] at hp ⊢
    simp only [List.getLastD_nil]
    refine hp.2.restart (by simp) ?_
    intro y hy
    rw [upd_other]
    intro h
    subst h
    simp at hnd
    exact hnd.1.2 hy
  | cons x l₁ ih =>
    simp only [List.cons_append, Path] at hp ⊢
    have hnd1 : (x :: (l₁ ++ b :: l₂)).Nodup := (List.nodup_cons.mp hnd).2
    rw [List.getLastD_cons]
    refine ⟨?_, ih hp.2 hnd1⟩
    rw [upd_other]; exact hp.1
    intro h
    have hm := getLastD_mem l₁ x
    rw [← h] at hm
    have : a ∈ x :: (l₁ ++ b :: l₂) := by
      rcases List.mem_cons.mp hm with h1 | h1
      · simp [h1]
      · simp [h1]
    exact (List.nodup_cons.mp hnd).1 this

/-- A scan along a path is `find?` on the list of its nodes. -/
theorem scan_path {f : Node → Node} (p : Node → Bool) {l : List Node} {a z : Node}
    (hp : Path f a l z) (hz : z ∉ l) (fuel : Nat) (hfuel : l.length < fuel) :
    scan f p z fuel (f a) = some (l.find? p) := by
  induction l generalizing a fuel with
  | nil =>
    cases fuel with
    | zero => simp at hfuel
    | succ fuel =>
      simp only [Path] at hp
      simp [scan, hp]
  | cons x l ih =>
    cases fuel with
    | zero => simp at hfuel
    | succ fuel =>
      simp only [Path] at hp
      have hxz : x ≠ z := fun h => hz (by simp [h])
      have hz1 : z ∉ l := fun h => hz (List.mem_cons_of_mem _ h)
      rw [hp.1]
      simp only [scan, hxz, if_false, List.find?_cons]
      cases hpx : p x with
      | true => simp
      | false =>
        simp only [Bool.false_eq_true, if_false]
        exact ih hp.2 hz1 fuel (by simpa using hfuel)

/-- A walk along a path returns the list of its nodes. -/
theorem walk_path {f : Node → Node} {l : List Node} {a z : Node}
    (hp : Path f a l z) (hz : z ∉ l) (fuel : Nat) (hfuel : l.length < fuel) :
    walk f z fuel (f a) = l := by
  induction l generalizing a fuel with
  | nil =>
    cases fuel with
    | zero => simp at hfuel
    | succ fuel =>
      simp only [Path] at hp
      simp [walk, hp]
  | cons x l ih =>
    cases fuel with
    | zero => simp at hfuel
    | succ fuel =>
      simp only [Path] at hp
      have hxz : x ≠ z := fun h => hz (by simp [h])
      have hz1 : z ∉ l := fun h => hz (List.mem_cons_of_mem _ h)
      rw [hp.1]
      simp only [walk, hxz, if_false]
      rw [ih hp.2 hz1 fuel (by simpa using hfuel)]

end Bio

namespace Bio

/-! ## Rings -/

theorem Ring.ring_frame {nx pv nx1 pv1 : Node → Node} {h : Node} {l : List Node}
    (hr : Ring nx pv h l) (hnx : ∀ x ∈ h :: l, nx1 x = nx x)
    (hpv : ∀ x ∈ h :: l, pv1 x = pv x) : Ring nx1 pv1 h l := by
  refine ⟨hr.1.agree hnx, hr.2.agree ?_⟩
  intro x hx
  apply hpv
  simpa using hx

/-- In a ring the neighbours of `b` are its neighbours in the list. -/
theorem Ring.neighbours {nx pv : Node → Node} {h b : Node} {l₁ l₂ : List Node}
    (hr : Ring nx pv h (l₁ ++ b :: l₂)) :
    nx b = l₂.headD h ∧ pv b = l₁.getLastD h := by
  obtain ⟨h1, h2⟩ := hr
  have h1b := (Path.append.mp h1).2
  rw [List.reverse_append, List.reverse_cons, List.append_assoc, List.singleton_append] at h2
  have h2b := (Path.append.mp h2).2
  exact ⟨h1b.first, by rw [h2b.first, headD_reverse]⟩

theorem Ring.ring_unlink {nx pv : Node → Node} {h b : Node} {l₁ l₂ : List Node}
    (hr : Ring nx pv h (l₁ ++ b :: l₂)) (hnd : (h :: (l₁ ++ b :: l₂)).Nodup) :
    Ring (unlinkNx nx pv b) (unlinkPv nx pv b) h (l₁ ++ l₂) := by
  obtain ⟨hn, hp⟩ := hr.neighbours
  obtain ⟨h1, h2⟩ := hr
  refine ⟨?_, ?_⟩
  · unfold unlinkNx
    rw [hp]
    exact h1.skip hnd
  · unfold unlinkPv
    rw [List.reverse_append, List.reverse_cons, List.append_assoc, List.singleton_append] at h2
    rw [List.reverse_append, hn, ← getLastD_reverse]
    apply h2.skip
    have : (h :: (l₂.reverse ++ b :: l₁.reverse)).Perm (h :: (l₁ ++ b :: l₂)) := by
      apply List.Perm.cons
      have e : l₂.reverse ++ b :: l₁.reverse = (l₁ ++ b :: l₂).reverse := by simp
      rw [e]
      exact List.reverse_perm _
    exact this.nodup_iff.mpr hnd

theorem Ring.ring_insert {nx pv : Node → Node} {h b : Node} {l : List Node}
    (hr : Ring nx pv h l) (hnd : (h :: l).Nodup) (hb : b ∉ h :: l) :
    Ring (insertNx nx h b) (insertPv nx pv h b) h (b :: l) := by
  obtain ⟨h1, h2⟩ := hr
  have hbh : b ≠ h := fun e => hb (by simp [e])
  have hbl : b ∉ l := fun e => hb (List.mem_cons_of_mem _ e)
  have hhl : h ∉ l := (List.nodup_cons.mp hnd).1
  refine ⟨?_, ?_⟩
  · unfold insertNx
    simp only [Path, upd_same, true_and]
    refine h1.restart ?_ ?_
    · rw [upd_other _ _ _ _ hbh, upd_same]
    · intro y hy
      have hyh : y ≠ h := fun e => hhl (e ▸ hy)
      have hyb : y ≠ b := fun e => hbl (e ▸ hy)
      rw [upd_other _ _ _ _ hyh, upd_other _ _ _ _ hyb]
  · unfold insertPv
    rw [List.reverse_cons]
    have hq : nx h = l.reverse.getLastD h := by rw [h1.first, getLastD_reverse]
    have hqm : nx h ∈ h :: l := by
      rw [hq]
      have := getLastD_mem l.reverse h
      simpa using this
    have hbq : b ≠ nx h := fun e => hb (e ▸ hqm)
    have hndr : (h :: l.reverse).Nodup := by
      have : (h :: l.reverse).Perm (h :: l) := List.Perm.cons _ (List.reverse_perm _)
      exact this.nodup_iff.mpr hnd
    have hp0 : Path (upd pv b h) h l.reverse h := by
      apply h2.agree
      intro y hy
      rw [upd_other]
      intro e
      apply hb
      rw [← e]
      simpa using hy
    have hp1 := hp0.retarget b hndr
    have : Path (upd (upd pv b h) (nx h) b) h (l.reverse ++ b :: []) h := by
      rw [Path.append]
      refine ⟨by rw [hq]; exact hp1, ?_⟩
      simp only [Path]
      rw [upd_other _ _ _ _ hbq, upd_same]
    exact this

/-! ## Families of rings -/

theorem Rings.head_not_mem {P : Param} {nx pv : Node → Node} {L : Nat → List Node}
    (hR : Rings P nx pv L) {i : Nat} (hi : i < P.nbuckets) (k : Nat) :
    Node.head k ∉ L i := by
  intro hm
  obtain ⟨j, _, hj⟩ := hR.2.1 i hi _ hm
  cases hj

theorem Rings.length_le {P : Param} {nx pv : Node → Node} {L : Nat → List Node}
    (hR : Rings P nx pv L) {i : Nat} (hi : i < P.nbuckets) :
    (L i).length ≤ P.nbuf := by
  have hsub : L i ⊆ (List.range P.nbuf).map Node.buf := by
    intro x hx
    obtain ⟨j, hj, rfl⟩ := hR.2.1 i hi x hx
    exact List.mem_map.mpr ⟨j, List.mem_range.mpr hj, rfl⟩
  have := ((hR.2.2.1 i hi).subperm hsub).length_le
  simpa using this

/-- The list read off the pointers is the list that the pointers thread. -/
theorem Rings.walk_eq {P : Param} {nx pv : Node → Node} {L : Nat → List Node}
    (hR : Rings P nx pv L) {i : Nat} (hi : i < P.nbuckets) :
    walk nx (Node.head i) (P.nbuf + 1) (nx (Node.head i)) = L i :=
  walk_path (hR.1 i hi).1 (hR.head_not_mem hi i) _ (Nat.lt_succ_of_le (hR.length_le hi))

theorem Rings.rings_congr {P : Param} {nx pv : Node → Node} {L L1 : Nat → List Node}
    (hR : Rings P nx pv L) (hL : ∀ i, i < P.nbuckets → L1 i = L i) : Rings P nx pv L1 := by
  obtain ⟨h1, h2, h3, h4⟩ := hR
  refine ⟨?_, ?_, ?_, ?_⟩
  · intro i hi; rw [hL i hi]; exact h1 i hi
  · intro i hi; rw [hL i hi]; exact h2 i hi
  · intro i hi; rw [hL i hi]; exact h3 i hi
  · intro i hi k hk; rw [hL i hi, hL k hk]; exact h4 i hi k hk

theorem Rings.nodup_cons {P : Param} {nx pv : Node → Node} {L : Nat → List Node}
    (hR : Rings P nx pv L) {i : Nat} (hi : i < P.nbuckets) :
    (Node.head i :: L i).Nodup :=
  List.nodup_cons.mpr ⟨hR.head_not_mem hi i, hR.2.2.1 i hi⟩

theorem Rings.rings_unlink {P : Param} {nx pv : Node → Node} {L : Nat → List Node}
    (hR : Rings P nx pv L) {b : Node} {i0 : Nat} (hi0 : i0 < P.nbuckets) (hb : b ∈ L i0) :
    Rings P (unlinkNx nx pv b) (unlinkPv nx pv b) (fun i => (L i).erase b) := by
  obtain ⟨l₁, l₂, hsplit⟩ := List.append_of_mem hb
  have hnd0 := hR.nodup_cons hi0
  have hr0 := hR.1 i0 hi0
  rw [hsplit] at hnd0 hr0
  obtain ⟨hn, hp⟩ := hr0.neighbours
  have hpm : pv b ∈ Node.head i0 :: L i0 := by
    rw [hp, hsplit]
    have := getLastD_mem l₁ (Node.head i0)
    rcases List.mem_cons.mp this with e | e
    · rw [e]; exact List.mem_cons_self _ _
    · exact List.mem_cons_of_mem _ (List.mem_append_left _ e)
  have hnm : nx b ∈ Node.head i0 :: L i0 := by
    rw [hn, hsplit]
    cases l₂ with
    | nil => simp
    | cons y l₂ => simp
  have hbl1 : b ∉ l₁ := by
    intro h
    have := (List.nodup_cons.mp hnd0).2
    rw [List.nodup_append] at this
    exact this.2.2 h (by simp)
  refine ⟨?_, ?_, ?_, ?_⟩
  · intro i hi
    by_cases hii : i = i0
    · subst hii
      have e : (L i).erase b = l₁ ++ l₂ := by
        rw [hsplit, List.erase_append_right _ hbl1, List.erase_cons_head]
      simp only [e]
      exact hr0.ring_unlink hnd0
    · have hbi : b ∉ L i := fun h => hii (hR.2.2.2 i hi i0 hi0 b h hb)
      simp only [List.erase_of_not_mem hbi]
      have hout : ∀ y ∈ Node.head i0 :: L i0, ∀ x ∈ Node.head i :: L i, x ≠ y := by
        intro y hy x hx e
        subst e
        rcases List.mem_cons.mp hx with e1 | e1 <;> rcases List.mem_cons.mp hy with e2 | e2
        · rw [e1] at e2; cases e2; exact hii rfl
        · rw [e1] at e2; exact hR.head_not_mem hi0 i e2
        · rw [e2] at e1; exact hR.head_not_mem hi i0 e1
        · exact hii (hR.2.2.2 i hi i0 hi0 x e1 e2)
      refine (hR.1 i hi).ring_frame ?_ ?_
      · intro x hx
        exact upd_other _ _ _ _ (hout _ hpm x hx)
      · intro x hx
        exact upd_other _ _ _ _ (hout _ hnm x hx)
  · intro i hi x hx
    exact hR.2.1 i hi x (List.mem_of_mem_erase hx)
  · intro i hi
    exact (hR.2.2.1 i hi).erase b
  · intro i hi k hk x hx hxk
    exact hR.2.2.2 i hi k hk x (List.mem_of_mem_erase hx) (List.mem_of_mem_erase hxk)

theorem Rings.rings_insert {P : Param} {nx pv : Node → Node} {L : Nat → List Node}
    (hR : Rings P nx pv L) {j k : Nat} (hj : j < P.nbuf) (hk : k < P.nbuckets)
    (hb : ∀ i, i < P.nbuckets → Node.buf j ∉ L i) :
    Rings P (insertNx nx (Node.head k) (Node.buf j)) (insertPv nx pv (Node.head k) (Node.buf j))
      (fun i => if i = k then Node.buf j :: L i else L i) := by
  have hnxm : nx (Node.head k) ∈ Node.head k :: L k := by
    rw [(hR.1 k hk).1.first]
    cases L k with
    | nil => simp
    | cons y l => simp
  refine ⟨?_, ?_, ?_, ?_⟩
  · intro i hi
    by_cases hik : i = k
    · subst hik
      simp only [if_true]
      refine (hR.1 i hi).ring_insert (hR.nodup_cons hi) ?_
      intro h
      rcases List.mem_cons.mp h with e | e
      · cases e
      · exact hb i hi e
    · simp only [hik, if_false]
      have hx1 : ∀ x ∈ Node.head i :: L i, x ≠ Node.buf j := by
        intro x hx e
        subst e
        rcases List.mem_cons.mp hx with e1 | e1
        · cases e1
        · exact hb i hi e1
      have hx2 : ∀ x ∈ Node.head i :: L i, ∀ y ∈ Node.head k :: L k, x ≠ y := by
        intro x hx y hy e
        subst e
        rcases List.mem_cons.mp hx with e1 | e1 <;> rcases List.mem_cons.mp hy with e2 | e2
        · rw [e1] at e2; cases e2; exact hik rfl
        · rw [e1] at e2; exact hR.head_not_mem hk i e2
        · rw [e2] at e1; exact hR.head_not_mem hi k e1
        · exact hik (hR.2.2.2 i hi k hk x e1 e2)
      refine (hR.1 i hi).ring_frame ?_ ?_
      · intro x hx
        unfold insertNx
        rw [upd_other _ _ _ _ (hx2 x hx _ (by simp)), upd_other _ _ _ _ (hx1 x hx)]
      · intro x hx
        unfold insertPv
        rw [upd_other _ _ _ _ (hx2 x hx _ hnxm), upd_other _ _ _ _ (hx1 x hx)]
  · intro i hi x hx
    by_cases hik : i = k
    · simp only [hik, if_true] at hx
      rcases List.mem_cons.mp hx with e | e
      · exact ⟨j, hj, e⟩
      · exact hR.2.1 k hk x e
    · simp only [hik, if_false] at hx
      exact hR.2.1 i hi x hx
  · intro i hi
    by_cases hik : i = k
    · simp only [hik, if_true]
      exact List.nodup_cons.mpr ⟨hb k hk, hR.2.2.1 k hk⟩
    · simp only [hik, if_false]
      exact hR.2.2.1 i hi
  · intro i hi m hm x hx hxm
    by_cases hik : i = k <;> by_cases hmk : m = k
    · rw [hik, hmk]
    · simp only [hik, if_true] at hx
      simp only [hmk, if_false] at hxm
      rcases List.mem_cons.mp hx with e | e
      · rw [e] at hxm; exact absurd hxm (hb m hm)
      · rw [hik]; exact hR.2.2.2 k hk m hm x e hxm
    · simp only [hik, if_false] at hx
      simp only [hmk, if_true] at hxm
      rcases List.mem_cons.mp hxm with e | e
      · rw [e] at hx; exact absurd hx (hb i hi)
      · rw [hmk]; exact hR.2.2.2 i hi k hk x hx e
    · simp only [hik, if_false] at hx
      simp only [hmk, if_false] at hxm
      exact hR.2.2.2 i hi m hm x hx hxm

end Bio

namespace Bio

/-! ## Moving a buffer to the front of a shard -/

theorem Rings.self_ne {P : Param} {nx pv : Node → Node} {L : Nat → List Node}
    (hR : Rings P nx pv L) {b : Node} {i0 : Nat} (hi0 : i0 < P.nbuckets) (hb : b ∈ L i0) :
    nx b ≠ b ∧ pv b ≠ b := by
  obtain ⟨l₁, l₂, hsplit⟩ := List.append_of_mem hb
  have hnd0 := hR.nodup_cons hi0
  have hr0 := hR.1 i0 hi0
  rw [hsplit] at hnd0 hr0
  obtain ⟨hn, hp⟩ := hr0.neighbours
  have hbh : b ≠ Node.head i0 := by
    intro e
    rw [e] at hb
    exact hR.head_not_mem hi0 i0 hb
  have hnd1 : (l₁ ++ b :: l₂).Nodup := (List.nodup_cons.mp hnd0).2
  rw [List.nodup_append] at hnd1
  constructor
  · rw [hn]
    cases l₂ with
    | nil => exact fun e => hbh e.symm
    | cons y l₂ =>
      intro e
      simp only [List.headD_cons] at e
      have := (List.nodup_cons.mp hnd1.2.1).1
      exact this (by rw [e]; simp)
  · rw [hp]
    intro e
    have hm := getLastD_mem l₁ (Node.head i0)
    rw [e] at hm
    rcases List.mem_cons.mp hm with e1 | e1
    · exact hbh e1
    · exact hnd1.2.2 e1 (by simp)

theorem Rings.rings_move {P : Param} {nx pv : Node → Node} {L : Nat → List Node}
    (hR : Rings P nx pv L) {b : Node} {i0 k : Nat} (hi0 : i0 < P.nbuckets)
    (hb : b ∈ L i0) (hk : k < P.nbuckets) :
    Rings P (insertNx (unlinkNx nx pv b) (Node.head k) b)
      (insertPv (unlinkNx nx pv b) (unlinkPv nx pv b) (Node.head k) b) (moved L b k) := by
  obtain ⟨j, hj, rfl⟩ := hR.2.1 i0 hi0 b hb
  have h1 := hR.rings_unlink hi0 hb
  have h2 := h1.rings_insert hj hk (by
    intro i hi hm
    exact ((hR.2.2.1 i hi).mem_erase_iff.mp hm).1 rfl)
  exact h2

theorem Covers.covers_move {P : Param} {L : Nat → List Node} (hC : Covers P L) (b : Node) {k : Nat}
    (hk : k < P.nbuckets) : Covers P (moved L b k) := by
  intro j hj
  obtain ⟨i, hi, hm⟩ := hC j hj
  by_cases e : Node.buf j = b
  · exact ⟨k, hk, by simp [moved, e]⟩
  · refine ⟨i, hi, ?_⟩
    have : Node.buf j ∈ (L i).erase b := (List.mem_erase_of_ne e).mpr hm
    unfold moved
    by_cases hik : i = k
    · simp only [hik, if_true]
      rw [hik] at this
      exact List.mem_cons_of_mem _ this
    · simp only [hik, if_false]
      exact this

/-! ## Lists of a state -/

theorem ListsOk.of_rings {P : Param} {s : State} {L : Nat → List Node}
    (hpos : 0 < P.nbuckets) (hR : Rings P s.next s.prev L) (hC : Covers P L) :
    ListsOk P s ∧ ∀ i, i < P.nbuckets → bucket P s i = L i := by
  have hb : ∀ i, i < P.nbuckets → bucket P s i = L i := fun i hi => hR.walk_eq hi
  refine ⟨⟨hpos, hR.rings_congr hb, ?_⟩, hb⟩
  intro j hj
  obtain ⟨i, hi, hm⟩ := hC j hj
  exact ⟨i, hi, by rw [hb i hi]; exact hm⟩

theorem bucket_congr (P : Param) {s s1 : State} (h : s1.next = s.next) (i : Nat) :
    bucket P s1 i = bucket P s i := by
  unfold bucket
  rw [h]

theorem ListsOk.lists_congr {P : Param} {s s1 : State} (hL : ListsOk P s)
    (hn : s1.next = s.next) (hp : s1.prev = s.prev) : ListsOk P s1 := by
  unfold ListsOk at hL ⊢
  have hb : bucket P s1 = bucket P s := funext (bucket_congr P hn)
  rw [hb, hn, hp]
  exact hL

theorem ListsOk.lt_nbuf {P : Param} {s : State} (hL : ListsOk P s) {i : Nat}
    (hi : i < P.nbuckets) {x : Node} (hx : x ∈ bucket P s i) : ∃ j, j < P.nbuf ∧ x = Node.buf j :=
  hL.2.1.2.1 i hi x hx

theorem ListsOk.home_lt {P : Param} {s : State} (hL : ListsOk P s) (blockno : Nat) :
    blockno % P.nbuckets < P.nbuckets :=
  Nat.mod_lt _ hL.1

/-- After a move the lists of the state are the moved lists. -/
theorem ListsOk.lists_move {P : Param} {s : State} (hL : ListsOk P s) (s1 : State) {b : Node}
    {i0 k : Nat}
    (hi0 : i0 < P.nbuckets) (hb : b ∈ bucket P s i0) (hk : k < P.nbuckets)
    (hn : s1.next = insertNx (unlinkNx s.next s.prev b) (Node.head k) b)
    (hp : s1.prev = insertPv (unlinkNx s.next s.prev b) (unlinkPv s.next s.prev b)
      (Node.head k) b) :
    ListsOk P s1 ∧ ∀ i, i < P.nbuckets → bucket P s1 i = moved (bucket P s) b k i := by
  have hR := hL.2.1.rings_move hi0 hb hk
  rw [← hn, ← hp] at hR
  exact ListsOk.of_rings hL.1 hR (hL.2.2.covers_move b hk)

/-- The scans of `bget` are searches in the shard lists. -/
theorem ListsOk.scan_next {P : Param} {s : State} (hL : ListsOk P s) (p : Node → Bool)
    {i : Nat} (hi : i < P.nbuckets) :
    scan s.next p (Node.head i) (P.nbuf + 1) (s.next (Node.head i)) =
      some ((bucket P s i).find? p) :=
  scan_path p (hL.2.1.1 i hi).1 (hL.2.1.head_not_mem hi i) _
    (Nat.lt_succ_of_le (hL.2.1.length_le hi))

theorem ListsOk.scan_prev {P : Param} {s : State} (hL : ListsOk P s) (p : Node → Bool)
    {i : Nat} (hi : i < P.nbuckets) :
    scan s.prev p (Node.head i) (P.nbuf + 1) (s.prev (Node.head i)) =
      some ((bucket P s i).reverse.find? p) := by
  refine scan_path p (hL.2.1.1 i hi).2 ?_ _ ?_
  · intro h
    exact hL.2.1.head_not_mem hi i (List.mem_reverse.mp h)
  · rw [List.length_reverse]
    exact Nat.lt_succ_of_le (hL.2.1.length_le hi)

end Bio

namespace Bio

/-! ## The steal branch, statement by statement -/

theorem bget_take_eq (s : State) (dev blockno key i : Nat) (b : Node) (lg : List Event)
    (h1 : s.prev b ≠ b) (h2 : b ≠ Node.head key) :
    bget_take dev blockno key i b { s with log := lg } =
      stealMem s dev blockno key b (Event.release key :: Event.release i :: lg) := by
  have h3 : upd s.next (s.prev b) (s.next b) b = s.next b := upd_other _ _ _ _ (Ne.symm h1)
  have h4 : upd (upd s.next (s.prev b) (s.next b)) b
      (upd s.next (s.prev b) (s.next b) (Node.head key)) (Node.head key) =
      upd s.next (s.prev b) (s.next b) (Node.head key) := upd_other _ _ _ _ (Ne.symm h2)
  ext1 <;> simp [bget_take, bget_claim, release, stealMem, claimMem, insertNx, insertPv,
    unlinkNx, unlinkPv, h3, h4]

theorem brelse_move_ptrs (s : State) (key : Nat) (b : Node)
    (h1 : s.next b ≠ b) (h2 : b ≠ Node.head key) :
    brelse_move key b s =
      { s with
        next := insertNx (unlinkNx s.next s.prev b) (Node.head key) b,
        prev := insertPv (unlinkNx s.next s.prev b) (unlinkPv s.next s.prev b)
          (Node.head key) b } := by
  have h3 : upd s.prev (s.next b) (s.prev b) b = s.prev b := upd_other _ _ _ _ (Ne.symm h1)
  have h4 : upd (upd s.next (s.prev b) (s.next b)) b
      (upd s.next (s.prev b) (s.next b) (Node.head key)) (Node.head key) =
      upd s.next (s.prev b) (s.next b) (Node.head key) := upd_other _ _ _ _ (Ne.symm h2)
  ext1 <;> simp [brelse_move, insertNx, insertPv, unlinkNx, unlinkPv, h3, h4]

/-! ## Arithmetic of the cyclic visiting order -/

theorem cyc_ne {nb key d : Nat} (h1 : 1 ≤ d) (h2 : d < nb) : (key + d) % nb ≠ key := by
  intro h
  have hk : key % nb = key := by
    rw [← h]; exact Nat.mod_mod _ _
  have hm : (key + d) % nb = (key + 0) % nb := by rw [h, Nat.add_zero, hk]
  have hd : d % nb = 0 % nb := Nat.ModEq.add_left_cancel' key hm
  rw [Nat.mod_eq_of_lt h2] at hd
  simp at hd
  omega

theorem cyc_full {nb key : Nat} (hk : key < nb) : (key + nb) % nb = key := by
  rw [Nat.add_mod_right, Nat.mod_eq_of_lt hk]

theorem cyc_succ (nb key d : Nat) : ((key + d) % nb + 1) % nb = (key + (d + 1)) % nb := by
  rw [Nat.mod_add_mod, Nat.add_assoc]

theorem cyc_cover {nb key i : Nat} (hk : key < nb) (hi : i < nb) (hne : i ≠ key) :
    ∃ d, 1 ≤ d ∧ d < nb ∧ (key + d) % nb = i := by
  by_cases h : key < i
  · refine ⟨i - key, by omega, by omega, ?_⟩
    have : key + (i - key) = i := by omega
    rw [this, Nat.mod_eq_of_lt hi]
  · refine ⟨i + nb - key, by omega, by omega, ?_⟩
    have : key + (i + nb - key) = i + nb := by omega
    rw [this, Nat.add_mod_right, Nat.mod_eq_of_lt hi]

/-! ## `bget` on well-formed lists -/

theorem bget_hit_eq {P : Param} {s : State} (hL : ListsOk P s) (pid dev blockno : Nat)
    {b : Node} (h : hitOf P s dev blockno = some b) :
    bget P pid dev blockno s = acquiresleep pid b (hitMem s b
      (Event.release (blockno % P.nbuckets) :: Event.acquire (blockno % P.nbuckets) :: s.log)) := by
  have hs := hL.scan_next (fun b => decide (s.dev b = dev ∧ s.blockno b = blockno))
    (hL.home_lt blockno)
  unfold hitOf at h
  rw [h] at hs
  simp only [bget, acquire, hs]
  rfl

theorem bget_local_eq {P : Param} {s : State} (hL : ListsOk P s) (pid dev blockno : Nat)
    {b : Node} (h1 : hitOf P s dev blockno = none)
    (h2 : freeIn P s (blockno % P.nbuckets) = some b) :
    bget P pid dev blockno s = acquiresleep pid b (claimMem s dev blockno b
      (Event.release (blockno % P.nbuckets) :: Event.acquire (blockno % P.nbuckets) :: s.log)) := by
  have hs := hL.scan_next (fun b => decide (s.dev b = dev ∧ s.blockno b = blockno))
    (hL.home_lt blockno)
  have hs2 := hL.scan_prev (fun b => decide (s.refcnt b = 0)) (hL.home_lt blockno)
  unfold hitOf at h1
  unfold freeIn at h2
  rw [h1] at hs
  rw [h2] at hs2
  simp only [bget, acquire, hs, hs2]
  rfl

theorem bget_miss_eq {P : Param} {s : State} (hL : ListsOk P s) (pid dev blockno : Nat)
    (h1 : hitOf P s dev blockno = none)
    (h2 : freeIn P s (blockno % P.nbuckets) = none) :
    bget P pid dev blockno s =
      bget_steal P pid dev blockno (blockno % P.nbuckets) P.nbuckets
        ((blockno % P.nbuckets + 1) % P.nbuckets)
        { s with log := Event.acquire (blockno % P.nbuckets) :: s.log } := by
  have hs := hL.scan_next (fun b => decide (s.dev b = dev ∧ s.blockno b = blockno))
    (hL.home_lt blockno)
  have hs2 := hL.scan_prev (fun b => decide (s.refcnt b = 0)) (hL.home_lt blockno)
  unfold hitOf at h1
  unfold freeIn at h2
  rw [h1] at hs
  rw [h2] at hs2
  simp only [bget, acquire, hs, hs2]

theorem bget_steal_found {P : Param} {s : State} (hL : ListsOk P s) (pid dev blockno : Nat)
    {key : Nat} {d : Nat} (hd : d < P.nbuckets) {b : Node}
    (hb : freeIn P s ((key + d) % P.nbuckets) = some b) :
    ∀ (fuel d0 : Nat) (lg : List Event), 1 ≤ d0 → d0 ≤ d → d0 + fuel = P.nbuckets + 1 →
      (∀ e, d0 ≤ e → e < d → freeIn P s ((key + e) % P.nbuckets) = none) →
      ∃ evs, (∀ e ∈ evs, Event.isSpin e = true) ∧
        bget_steal P pid dev blockno key fuel ((key + d0) % P.nbuckets)
          { s with log := lg } = acquiresleep pid b (stealMem s dev blockno key b (evs ++ lg)) := by
  intro fuel
  induction fuel with
  | zero => intro d0 lg h1 h2 h3; omega
  | succ fuel ih =>
    intro d0 lg h1 h2 h3 hnone
    have hi : (key + d0) % P.nbuckets < P.nbuckets := Nat.mod_lt _ hL.1
    have hne : (key + d0) % P.nbuckets ≠ key := cyc_ne h1 (by omega)
    have hs := hL.scan_prev (fun b => decide (s.refcnt b = 0)) hi
    by_cases hdd : d0 = d
    · subst hdd
      unfold freeIn at hb
      rw [hb] at hs
      simp only [bget_steal, hne, if_false, acquire, hs]
      have hbm : b ∈ bucket P s ((key + d0) % P.nbuckets) :=
        List.mem_reverse.mp (List.mem_of_find?_eq_some hb)
      have hself := hL.2.1.self_ne hi hbm
      have hbh : b ≠ Node.head key := by
        intro e
        rw [e] at hbm
        exact hL.2.1.head_not_mem hi key hbm
      refine ⟨[Event.release key, Event.release ((key + d0) % P.nbuckets),
        Event.acquire ((key + d0) % P.nbuckets)], by simp [Event.isSpin], ?_⟩
      rw [bget_take_eq s dev blockno key _ b _ hself.2 hbh]
      rfl
    · have hn := hnone d0 (le_refl _) (by omega)
      unfold freeIn at hn
      rw [hn] at hs
      simp only [bget_steal, hne, if_false, acquire, hs, release, cyc_succ]
      obtain ⟨evs, hevs, hres⟩ := ih (d0 + 1)
        (Event.release ((key + d0) % P.nbuckets) :: Event.acquire ((key + d0) % P.nbuckets) :: lg)
        (by omega) (by omega) (by omega) (fun e he1 he2 => hnone e (by omega) he2)
      refine ⟨evs ++ [Event.release ((key + d0) % P.nbuckets),
        Event.acquire ((key + d0) % P.nbuckets)], ?_, ?_⟩
      · intro e he
        rcases List.mem_append.mp he with h | h
        · exact hevs e h
        · simp at h
          rcases h with h | h <;> simp [h, Event.isSpin]
      · rw [hres]
        simp

theorem bget_steal_none {P : Param} {s : State} (hL : ListsOk P s) (pid dev blockno : Nat)
    {key : Nat} (hkey : key < P.nbuckets) :
    ∀ (fuel d0 : Nat) (lg : List Event), 1 ≤ d0 → d0 ≤ P.nbuckets →
      d0 + fuel = P.nbuckets + 1 →
      (∀ e, d0 ≤ e → e < P.nbuckets → freeIn P s ((key + e) % P.nbuckets) = none) →
      ∃ evs, (∀ e ∈ evs, Event.isSpin e = true) ∧
        bget_steal P pid dev blockno key fuel ((key + d0) % P.nbuckets)
          { s with log := lg } = Result.panic "bget: no buffers" { s with log := evs ++ lg } := by
  intro fuel
  induction fuel with
  | zero => intro d0 lg h1 h2 h3; omega
  | succ fuel ih =>
    intro d0 lg h1 h2 h3 hnone
    by_cases hdd : d0 = P.nbuckets
    · subst hdd
      simp only [bget_steal, cyc_full hkey, if_true, release]
      exact ⟨[Event.release key], by simp [Event.isSpin], rfl⟩
    · have hi : (key + d0) % P.nbuckets < P.nbuckets := Nat.mod_lt _ hL.1
      have hne : (key + d0) % P.nbuckets ≠ key := cyc_ne h1 (by omega)
      have hs := hL.scan_prev (fun b => decide (s.refcnt b = 0)) hi
      have hn := hnone d0 (le_refl _) (by omega)
      unfold freeIn at hn
      rw [hn] at hs
      simp only [bget_steal, hne, if_false, acquire, hs, release, cyc_succ]
      obtain ⟨evs, hevs, hres⟩ := ih (d0 + 1)
        (Event.release ((key + d0) % P.nbuckets) :: Event.acquire ((key + d0) % P.nbuckets) :: lg)
        (by omega) (by omega) (by omega) (fun e he1 he2 => hnone e (by omega) he2)
      refine ⟨evs ++ [Event.release ((key + d0) % P.nbuckets),
        Event.acquire ((key + d0) % P.nbuckets)], ?_, ?_⟩
      · intro e he
        rcases List.mem_append.mp he with h | h
        · exact hevs e h
        · simp at h
          rcases h with h | h <;> simp [h, Event.isSpin]
      · rw [hres]
        simp

/-- The outcome of `bget` on well-formed lists: it settles on a buffer and
calls `acquiresleep`, or no shard has a free buffer and it panics. -/
theorem bget_cases {P : Param} {s : State} (hL : ListsOk P s) (pid dev blockno : Nat) :
    (∃ b M evs, (∀ e ∈ evs, Event.isSpin e = true) ∧
        BgetMem P s dev blockno (evs ++ s.log) b M ∧
        bget P pid dev blockno s = acquiresleep pid b M) ∨
    (hitOf P s dev blockno = none ∧ (∀ i, i < P.nbuckets → freeIn P s i = none) ∧
      ∃ evs, (∀ e ∈ evs, Event.isSpin e = true) ∧
        bget P pid dev blockno s =
          Result.panic "bget: no buffers" { s with log := evs ++ s.log }) := by
  have hkey := hL.home_lt blockno
  cases hh : hitOf P s dev blockno with
  | some b =>
    left
    refine ⟨b, _, [Event.release (blockno % P.nbuckets), Event.acquire (blockno % P.nbuckets)],
      by simp [Event.isSpin], BgetMem.hit b hh, ?_⟩
    rw [bget_hit_eq hL pid dev blockno hh]
    rfl
  | none =>
    cases hf : freeIn P s (blockno % P.nbuckets) with
    | some b =>
      left
      refine ⟨b, _, [Event.release (blockno % P.nbuckets),
        Event.acquire (blockno % P.nbuckets)], by simp [Event.isSpin],
        BgetMem.recycle b hh hf, ?_⟩
      rw [bget_local_eq hL pid dev blockno hh hf]
      rfl
    | none =>
      rw [bget_miss_eq hL pid dev blockno hh hf]
      by_cases hex : ∃ d, (1 ≤ d ∧ d < P.nbuckets) ∧
          freeIn P s ((blockno % P.nbuckets + d) % P.nbuckets) ≠ none
      · left
        classical
        have hd := Nat.find_spec hex
        have hmin := fun e => Nat.find_min (m := e) hex
        generalize Nat.find hex = d at hd hmin
        obtain ⟨b, hb⟩ := Option.ne_none_iff_exists'.mp hd.2
        have hnone : ∀ e, 1 ≤ e → e < d →
            freeIn P s ((blockno % P.nbuckets + e) % P.nbuckets) = none := by
          intro e he1 he2
          by_contra hc
          exact hmin e he2 ⟨⟨he1, by omega⟩, hc⟩
        obtain ⟨evs, hevs, hres⟩ := bget_steal_found hL pid dev blockno hd.1.2 hb
          P.nbuckets 1 (Event.acquire (blockno % P.nbuckets) :: s.log) (le_refl _) hd.1.1
          (by omega) hnone
        refine ⟨b, _, evs ++ [Event.acquire (blockno % P.nbuckets)], ?_,
          BgetMem.steal b d hh hf hd.1.1 hd.1.2 hb hnone, ?_⟩
        · intro e he
          rcases List.mem_append.mp he with h | h
          · exact hevs e h
          · simp at h
            simp [h, Event.isSpin]
        · rw [hres]
          simp
      · right
        have hnone : ∀ e, 1 ≤ e → e < P.nbuckets →
            freeIn P s ((blockno % P.nbuckets + e) % P.nbuckets) = none := by
          intro e he1 he2
          by_contra hc
          exact hex ⟨e, ⟨he1, he2⟩, hc⟩
        refine ⟨rfl, ?_, ?_⟩
        · intro i hi
          by_cases hik : i = blockno % P.nbuckets
          · rw [hik]; exact hf
          · obtain ⟨d, hd1, hd2, hd3⟩ := cyc_cover hkey hi hik
            rw [← hd3]
            exact hnone d hd1 hd2
        · obtain ⟨evs, hevs, hres⟩ := bget_steal_none hL pid dev blockno hkey
            P.nbuckets 1 (Event.acquire (blockno % P.nbuckets) :: s.log) (le_refl _)
            (by have := hL.1; omega) (by omega) hnone
          refine ⟨evs ++ [Event.acquire (blockno % P.nbuckets)], ?_, ?_⟩
          · intro e he
            rcases List.mem_append.mp he with h | h
            · exact hevs e h
            · simp at h
              simp [h, Event.isSpin]
          · rw [hres]
            simp

end Bio

namespace Bio

/-! ## What the scans find -/

theorem hitOf_some {P : Param} {s : State} {dev blockno : Nat} {b : Node}
    (h : hitOf P s dev blockno = some b) :
    b ∈ bucket P s (blockno % P.nbuckets) ∧ s.dev b = dev ∧ s.blockno b = blockno := by
  unfold hitOf at h
  have h1 := List.mem_of_find?_eq_some h
  have h2 := List.find?_some h
  simp only [decide_eq_true_eq] at h2
  exact ⟨h1, h2⟩

theorem hitOf_none {P : Param} {s : State} {dev blockno : Nat} :
    hitOf P s dev blockno = none ↔
      ∀ x ∈ bucket P s (blockno % P.nbuckets), ¬ hasKey s dev blockno x := by
  unfold hitOf hasKey
  simp [List.find?_eq_none]

theorem freeIn_some {P : Param} {s : State} {i : Nat} {b : Node}
    (h : freeIn P s i = some b) : b ∈ bucket P s i ∧ s.refcnt b = 0 := by
  unfold freeIn at h
  have h1 := List.mem_of_find?_eq_some h
  have h2 := List.find?_some h
  simp only [decide_eq_true_eq] at h2
  exact ⟨List.mem_reverse.mp h1, h2⟩

theorem freeIn_none {P : Param} {s : State} {i : Nat} :
    freeIn P s i = none ↔ ∀ x ∈ bucket P s i, s.refcnt x ≠ 0 := by
  unfold freeIn
  simp [List.find?_eq_none]

/-! ## The memory `bget` builds -/

theorem BgetMem.mem {P : Param} {s M : State} {dev blockno : Nat} {lg : List Event} {b : Node}
    (h : BgetMem P s dev blockno lg b M) (hL : ListsOk P s) :
    ∃ i, i < P.nbuckets ∧ b ∈ bucket P s i := by
  cases h with
  | hit h => exact ⟨_, hL.home_lt blockno, (hitOf_some h).1⟩
  | recycle h1 h2 => exact ⟨_, hL.home_lt blockno, (freeIn_some h2).1⟩
  | steal d h1 h2 hd1 hd2 h3 h4 => exact ⟨_, Nat.mod_lt _ hL.1, (freeIn_some h3).1⟩

theorem BgetMem.key {P : Param} {s M : State} {dev blockno : Nat} {lg : List Event} {b : Node}
    (h : BgetMem P s dev blockno lg b M) : M.dev b = dev ∧ M.blockno b = blockno := by
  cases h with
  | hit h => exact (hitOf_some h).2
  | recycle h1 h2 => simp [claimMem]
  | steal d h1 h2 hd1 hd2 h3 h4 => simp [stealMem, claimMem]

theorem BgetMem.refcnt {P : Param} {s M : State} {dev blockno : Nat} {lg : List Event}
    {b : Node} (h : BgetMem P s dev blockno lg b M) :
    M.refcnt = upd s.refcnt b (s.refcnt b + 1) := by
  cases h with
  | hit h => rfl
  | recycle h1 h2 => simp [claimMem, (freeIn_some h2).2]
  | steal d h1 h2 hd1 hd2 h3 h4 => simp [stealMem, claimMem, (freeIn_some h3).2]

theorem BgetMem.same {P : Param} {s M : State} {dev blockno : Nat} {lg : List Event}
    {b : Node} (h : BgetMem P s dev blockno lg b M) :
    M.lock = s.lock ∧ M.data = s.data ∧ M.disk = s.disk ∧ M.log = lg := by
  cases h <;> simp [hitMem, stealMem, claimMem]

theorem BgetMem.others {P : Param} {s M : State} {dev blockno : Nat} {lg : List Event}
    {b : Node} (h : BgetMem P s dev blockno lg b M) (x : Node) (hx : x ≠ b) :
    M.dev x = s.dev x ∧ M.blockno x = s.blockno x ∧ M.valid x = s.valid x := by
  cases h <;> simp [hitMem, stealMem, claimMem, upd_other _ _ _ _ hx]

/-- A buffer that is not the cache hit was free and is claimed afresh. -/
theorem BgetMem.fresh {P : Param} {s M : State} {dev blockno : Nat} {lg : List Event}
    {b : Node} (h : BgetMem P s dev blockno lg b M) (hn : hitOf P s dev blockno = none) :
    s.refcnt b = 0 ∧ M.valid b = false ∧ M.refcnt b = 1 := by
  cases h with
  | hit h => rw [hn] at h; cases h
  | recycle h1 h2 => simp [claimMem, (freeIn_some h2).2]
  | steal d h1 h2 hd1 hd2 h3 h4 => simp [stealMem, claimMem, (freeIn_some h3).2]

/-- A cache hit changes nothing but the reference count. -/
theorem BgetMem.of_hit {P : Param} {s M : State} {dev blockno : Nat} {lg : List Event}
    {b c : Node} (h : BgetMem P s dev blockno lg b M) (hc : hitOf P s dev blockno = some c) :
    b = c ∧ M = hitMem s c lg := by
  cases h with
  | hit h => rw [hc] at h; cases h; exact ⟨rfl, rfl⟩
  | recycle h1 h2 => rw [hc] at h1; cases h1
  | steal d h1 h2 hd1 hd2 h3 h4 => rw [hc] at h1; cases h1

/-- The lists after `bget` has settled on `b`: nothing moves, or (steal) `b`
moves to the front of the home shard. -/
theorem BgetMem.lists {P : Param} {s M : State} {dev blockno : Nat} {lg : List Event}
    {b : Node} (h : BgetMem P s dev blockno lg b M) (hL : ListsOk P s) :
    ListsOk P M ∧
      ((∀ i, bucket P M i = bucket P s i) ∨
        (hitOf P s dev blockno = none ∧ freeIn P s (blockno % P.nbuckets) = none ∧
          ∀ i, i < P.nbuckets →
            bucket P M i = moved (bucket P s) b (blockno % P.nbuckets) i)) := by
  cases h with
  | hit h =>
    exact ⟨hL.lists_congr rfl rfl, Or.inl (fun i => bucket_congr P rfl i)⟩
  | recycle h1 h2 =>
    exact ⟨hL.lists_congr rfl rfl, Or.inl (fun i => bucket_congr P rfl i)⟩
  | steal d h1 h2 hd1 hd2 h3 h4 =>
    have hm := hL.lists_move (stealMem s dev blockno (blockno % P.nbuckets) b lg)
      (Nat.mod_lt _ hL.1) (freeIn_some h3).1 (hL.home_lt blockno) rfl rfl
    exact ⟨hm.1, Or.inr ⟨h1, h2, hm.2⟩⟩

theorem mem_moved {L : Nat → List Node} {b x : Node} {k i : Nat} (hx : x ≠ b) :
    x ∈ moved L b k i ↔ x ∈ L i := by
  unfold moved
  by_cases hik : i = k
  · simp only [hik, if_true, List.mem_cons, hx, false_or]
    exact List.mem_erase_of_ne hx
  · simp only [hik, if_false]
    exact List.mem_erase_of_ne hx

/-- Buffers other than the chosen one stay in their shard. -/
theorem BgetMem.shard {P : Param} {s M : State} {dev blockno : Nat} {lg : List Event}
    {b : Node} (h : BgetMem P s dev blockno lg b M) (hL : ListsOk P s) {x : Node}
    (hx : x ≠ b) {i : Nat} (hi : i < P.nbuckets) :
    x ∈ bucket P M i ↔ x ∈ bucket P s i := by
  rcases (h.lists hL).2 with h1 | ⟨_, _, h1⟩
  · rw [h1 i]
  · rw [h1 i hi]
    exact mem_moved hx

/-! ## `acquiresleep` -/

theorem acquiresleep_ok {pid : Nat} {b c : Node} {M s1 : State}
    (h : acquiresleep pid b M = Result.ok c s1) :
    c = b ∧ M.lock b = none ∧
      s1 = grantsleep pid b { M with log := Event.acquiresleep b :: M.log } := by
  unfold acquiresleep at h
  simp only at h
  split at h
  · rename_i hl
    cases h
    exact ⟨rfl, hl, rfl⟩
  · cases h

theorem acquiresleep_free {pid : Nat} {b : Node} {M : State} (h : M.lock b = none) :
    acquiresleep pid b M =
      Result.ok b (grantsleep pid b { M with log := Event.acquiresleep b :: M.log }) := by
  unfold acquiresleep
  simp only [h]

theorem acquiresleep_state (pid : Nat) (b : Node) (M : State) :
    (acquiresleep pid b M).state.dev = M.dev ∧ (acquiresleep pid b M).state.blockno = M.blockno ∧
    (acquiresleep pid b M).state.valid = M.valid ∧ (acquiresleep pid b M).state.refcnt = M.refcnt ∧
    (acquiresleep pid b M).state.next = M.next ∧ (acquiresleep pid b M).state.prev = M.prev ∧
    (acquiresleep pid b M).state.data = M.data ∧ (acquiresleep pid b M).state.disk = M.disk ∧
    (acquiresleep pid b M).state.log = Event.acquiresleep b :: M.log ∧
    (∀ x, x ≠ b → (acquiresleep pid b M).state.lock x = M.lock x) ∧
    ((acquiresleep pid b M).state.lock b = M.lock b ∨
      (M.lock b = none ∧ (acquiresleep pid b M).state.lock b = some pid)) := by
  unfold acquiresleep
  simp only
  split
  · rename_i hl
    simp [Result.state, grantsleep, hl]
    intro x hx
    exact upd_other _ _ _ _ hx
  · simp [Result.state]

end Bio

namespace Bio

/-! ## The memory in which `bget` ends -/

theorem acquiresleep_not_panic (pid : Nat) (b : Node) (M : State) (msg : String) (s1 : State) :
    acquiresleep pid b M ≠ Result.panic msg s1 := by
  unfold acquiresleep
  simp only
  split <;> simp

/-- Whatever the outcome, the memory `bget` ends in is the memory `M` it built
up to the content lock, or the unchanged memory when it panics. -/
theorem bget_state {P : Param} {s : State} (hL : ListsOk P s) (pid dev blockno : Nat) :
    (∃ b M evs, (∀ e ∈ evs, Event.isSpin e = true) ∧
        BgetMem P s dev blockno (evs ++ s.log) b M ∧
        bget P pid dev blockno s = acquiresleep pid b M) ∨
    (∃ evs, bget P pid dev blockno s =
        Result.panic "bget: no buffers" { s with log := evs ++ s.log }) := by
  rcases bget_cases hL pid dev blockno with h | ⟨_, _, evs, _, h⟩
  · exact Or.inl h
  · exact Or.inr ⟨evs, h⟩

/-- A buffer that is referenced keeps its key, valid flag, payload and shard
through any call of `bget`, and reference counts never go down. -/
theorem bget_frame {P : Param} {s : State} (hL : ListsOk P s) (pid dev blockno : Nat)
    (x : Node) (hx : 0 < s.refcnt x) :
    (bget P pid dev blockno s).state.dev x = s.dev x ∧
    (bget P pid dev blockno s).state.blockno x = s.blockno x ∧
    (bget P pid dev blockno s).state.valid x = s.valid x ∧
    (bget P pid dev blockno s).state.data x = s.data x ∧
    (∀ i, i < P.nbuckets →
      (x ∈ bucket P (bget P pid dev blockno s).state i ↔ x ∈ bucket P s i)) ∧
    0 < (bget P pid dev blockno s).state.refcnt x := by
  rcases bget_state hL pid dev blockno with ⟨b, M, evs, _, hM, hres⟩ | ⟨evs, hres⟩
  · rw [hres]
    obtain ⟨h1, h2, h3, h4, h5, h6, h7, h8, h9, h10, h11⟩ := acquiresleep_state pid b M
    have hb : ∀ i, bucket P (acquiresleep pid b M).state i = bucket P M i :=
      fun i => bucket_congr P h5 i
    rw [h1, h2, h3, h4, h7, hM.same.2.1, hM.refcnt]
    by_cases hxb : x = b
    · subst hxb
      cases hh : hitOf P s dev blockno with
      | none =>
        have := (hM.fresh hh).1
        omega
      | some c =>
        obtain ⟨rfl, rfl⟩ := hM.of_hit hh
        refine ⟨rfl, rfl, rfl, rfl, ?_, by simp⟩
        intro i _
        rw [hb i]
        exact Iff.of_eq (congrArg (fun l => x ∈ l) (bucket_congr P rfl i))
    · obtain ⟨f1, f2, f3⟩ := hM.others x hxb
      refine ⟨f1, f2, f3, rfl, ?_, by rw [upd_other _ _ _ _ hxb]; exact hx⟩
      intro i hi
      rw [hb i]
      exact hM.shard hL hxb hi
  · rw [hres]
    refine ⟨rfl, rfl, rfl, rfl, ?_, hx⟩
    intro i _
    exact Iff.of_eq (congrArg (fun l => x ∈ l) (bucket_congr P rfl i))

/-- Calls of `bget` keep the cache state well formed. -/
theorem bget_wf {P : Param} {s : State} (hW : WellFormed P s) (pid dev blockno : Nat) :
    WellFormed P (bget P pid dev blockno s).state := by
  rcases bget_state hW.1 pid dev blockno with ⟨b, M, evs, _, hM, hres⟩ | ⟨evs, hres⟩
  · rw [hres]
    obtain ⟨h1, h2, h3, h4, h5, h6, h7, h8, h9, h10, h11⟩ := acquiresleep_state pid b M
    refine ⟨(hM.lists hW.1).1.lists_congr h5 h6, ?_⟩
    intro j hj
    rw [h4, hM.refcnt]
    by_cases hjb : Node.buf j = b
    · rw [hjb]
      simp
    · rw [upd_other _ _ _ _ hjb, h10 _ hjb, hM.same.1]
      exact hW.2 j hj
  · rw [hres]
    exact ⟨hW.1.lists_congr rfl rfl, hW.2⟩

theorem bgets_wf {P : Param} (reqs : List (Nat × Nat × Nat)) {s : State}
    (hW : WellFormed P s) : WellFormed P (bgets P reqs s) := by
  induction reqs generalizing s with
  | nil => exact hW
  | cons r rs ih => exact ih (bget_wf hW r.1 r.2.1 r.2.2)

theorem bgets_frame {P : Param} (reqs : List (Nat × Nat × Nat)) {s : State}
    (hW : WellFormed P s) (x : Node) (hx : 0 < s.refcnt x) :
    (bgets P reqs s).dev x = s.dev x ∧ (bgets P reqs s).blockno x = s.blockno x ∧
    (bgets P reqs s).valid x = s.valid x ∧ (bgets P reqs s).data x = s.data x ∧
    (∀ i, i < P.nbuckets → (x ∈ bucket P (bgets P reqs s) i ↔ x ∈ bucket P s i)) ∧
    0 < (bgets P reqs s).refcnt x := by
  induction reqs generalizing s with
  | nil => exact ⟨rfl, rfl, rfl, rfl, fun _ _ => Iff.rfl, hx⟩
  | cons r rs ih =>
    obtain ⟨f1, f2, f3, f4, f5, f6⟩ := bget_frame hW.1 r.1 r.2.1 r.2.2 x hx
    obtain ⟨g1, g2, g3, g4, g5, g6⟩ := ih (bget_wf hW r.1 r.2.1 r.2.2) f6
    refine ⟨g1.trans f1, g2.trans f2, g3.trans f3, g4.trans f4, ?_, g6⟩
    intro i hi
    exact (g5 i hi).trans (f5 i hi)

/-! ## `bpin`, `bunpin` -/

theorem bpin_wf {P : Param} {s : State} (hW : WellFormed P s) (b : Node) :
    WellFormed P (bpin P b s) := by
  refine ⟨hW.1.lists_congr rfl rfl, ?_⟩
  intro j hj h
  have hl : (bpin P b s).lock = s.lock := rfl
  rw [hl]
  apply hW.2 j hj
  by_cases hjb : Node.buf j = b
  · rw [hjb] at h
    simp [bpin, acquire, release] at h
  · simpa [bpin, acquire, release, upd_other _ _ _ _ hjb] using h

end Bio

namespace Bio

/-! ## Looking a key up again -/

theorem find?_unique {p : Node → Bool} {l : List Node} {b : Node} (hb : b ∈ l)
    (hp : p b = true) (hq : ∀ x ∈ l, x ≠ b → p x = false) : l.find? p = some b := by
  induction l with
  | nil => cases hb
  | cons y l ih =>
    by_cases hyb : y = b
    · subst hyb
      simp [List.find?_cons, hp]
    · have hy : p y = false := hq y (by simp) hyb
      simp only [List.find?_cons, hy]
      apply ih
      · rcases List.mem_cons.mp hb with e | e
        · exact absurd e.symm hyb
        · exact e
      · intro x hx
        exact hq x (List.mem_cons_of_mem _ hx)

theorem hitOf_congr {P : Param} {s s1 : State} (dev blockno : Nat) (hd : s1.dev = s.dev)
    (hb : s1.blockno = s.blockno)
    (hl : bucket P s1 (blockno % P.nbuckets) = bucket P s (blockno % P.nbuckets)) :
    hitOf P s1 dev blockno = hitOf P s dev blockno := by
  unfold hitOf
  rw [hd, hb, hl]

theorem hitOf_front {P : Param} {s : State} {dev blockno : Nat} {b : Node} {l : List Node}
    (hl : bucket P s (blockno % P.nbuckets) = b :: l) (hd : s.dev b = dev)
    (hb : s.blockno b = blockno) : hitOf P s dev blockno = some b := by
  unfold hitOf
  rw [hl]
  simp [List.find?_cons, hd, hb]

/-- The buffer `bget` settles on is the one a lookup of the same key finds
afterwards. -/
theorem BgetMem.hit_after {P : Param} {s M : State} {dev blockno : Nat} {lg : List Event}
    {b : Node} (h : BgetMem P s dev blockno lg b M) (hL : ListsOk P s) :
    hitOf P M dev blockno = some b := by
  cases h with
  | hit h => exact h
  | recycle h1 h2 =>
    have hno := hitOf_none.mp h1
    have hbm := (freeIn_some h2).1
    unfold hitOf
    have hl : bucket P (claimMem s dev blockno b lg) (blockno % P.nbuckets) =
        bucket P s (blockno % P.nbuckets) := bucket_congr P rfl _
    rw [hl]
    apply find?_unique hbm
    · simp [claimMem]
    · intro x hx hxb
      have := hno x hx
      unfold hasKey at this
      simpa [claimMem, upd_other _ _ _ _ hxb] using this
  | steal d h1 h2 hd1 hd2 h3 h4 =>
    have hm := hL.lists_move (stealMem s dev blockno (blockno % P.nbuckets) b lg)
      (Nat.mod_lt _ hL.1) (freeIn_some h3).1 (hL.home_lt blockno) rfl rfl
    have hl := hm.2 _ (hL.home_lt blockno)
    unfold moved at hl
    rw [if_pos rfl] at hl
    exact hitOf_front hl (by simp [stealMem, claimMem]) (by simp [stealMem, claimMem])

/-- What a returning `bread` leaves. -/
theorem bread_ok {P : Param} {s s1 : State} {pid dev blockno : Nat} {b : Node}
    (hW : WellFormed P s) (h : bread P pid dev blockno s = Result.ok b s1) :
    WellFormed P s1 ∧ hitOf P s1 dev blockno = some b ∧ s1.lock b = some pid ∧
      s1.valid b = true ∧ s1.dev b = dev ∧ s1.blockno b = blockno ∧ 0 < s1.refcnt b ∧
      ∃ i, i < P.nbuckets ∧ b ∈ bucket P s1 i := by
  unfold bread at h
  rcases bget_cases hW.1 pid dev blockno with ⟨c, M, evs, _, hM, hres⟩ | ⟨_, _, evs, _, hres⟩
  · rw [hres] at h
    cases hacq : acquiresleep pid c M with
    | ok c1 sb =>
      rw [hacq] at h
      simp only at h
      cases h
      obtain ⟨rfl, hfree, rfl⟩ := acquiresleep_ok hacq
      have hwf := bget_wf hW pid dev blockno
      rw [hres, hacq] at hwf
      simp only [Result.state] at hwf
      have hha := hM.hit_after hW.1
      have hk := hM.key
      have hr := hM.refcnt
      obtain ⟨i, hi, hbi⟩ := hM.mem hW.1
      have hshard := (hM.lists hW.1).1
      have hbm : ∃ i, i < P.nbuckets ∧ b ∈ bucket P M i := by
        obtain ⟨j, hj, rfl⟩ := hW.1.lt_nbuf hi hbi
        exact hshard.2.2 j hj
      refine ⟨⟨hwf.1.lists_congr ?_ ?_, ?_⟩, ?_, ?_, ?_, ?_, ?_, ?_, ?_⟩
      · unfold bread_fill; split <;> rfl
      · unfold bread_fill; split <;> rfl
      · intro j hj
        have := hwf.2 j hj
        unfold bread_fill
        split
        · exact this
        · exact this
      · rw [← hha]
        apply hitOf_congr
        · unfold bread_fill; split <;> rfl
        · unfold bread_fill; split <;> rfl
        · apply bucket_congr
          unfold bread_fill; split <;> rfl
      · unfold bread_fill
        split <;> simp [virtio_disk_rw, grantsleep]
      · unfold bread_fill
        split
        · simp
        · rename_i hv
          simpa using hv
      · unfold bread_fill
        split <;> simp [virtio_disk_rw, grantsleep, hk.1]
      · unfold bread_fill
        split <;> simp [virtio_disk_rw, grantsleep, hk.2]
      · unfold bread_fill
        split <;> simp [virtio_disk_rw, grantsleep, hr]
      · obtain ⟨i1, hi1, hb1⟩ := hbm
        refine ⟨i1, hi1, ?_⟩
        have : bucket P (bread_fill b (grantsleep pid b
            { M with log := Event.acquiresleep b :: M.log })) i1 = bucket P M i1 := by
          apply bucket_congr
          unfold bread_fill; split <;> rfl
        rw [this]
        exact hb1
    | panic msg sb => rw [hacq] at h; cases h
    | blocked c1 sb => rw [hacq] at h; cases h
    | timeout sb => rw [hacq] at h; cases h
  · rw [hres] at h
    cases h

/-! ## `brelse` -/

/-- What `brelse` does when the caller holds the content lock of a buffer
that is in a list. -/
theorem brelse_eq {P : Param} {s : State} (hL : ListsOk P s) {pid : Nat} {b : Node}
    (hold : s.lock b = some pid) {i0 : Nat} (hi0 : i0 < P.nbuckets)
    (hb : b ∈ bucket P s i0) :
    brelse P pid b s = Result.ok () (relMem P s b) := by
  have hh : holdingsleep pid b s = true := by simp [holdingsleep, hold]
  have hself := hL.2.1.self_ne hi0 hb
  have hbh : b ≠ Node.head (s.blockno b % P.nbuckets) := by
    intro e
    rw [e] at hb
    exact hL.2.1.head_not_mem hi0 _ hb
  by_cases hz : s.refcnt b - 1 = 0
  · simp only [brelse, hh, releasesleep, acquire, release, upd_same, hz, if_true]
    simp only [Bool.true_eq_false, if_false]
    rw [brelse_move_ptrs]
    · simp [relMem, hz]
    · exact hself.1
    · exact hbh
  · simp only [brelse, hh, releasesleep, acquire, release, upd_same, hz, if_false]
    simp [relMem, hz]

/-- The lists after `brelse`: `b` moves to the front of the shard of its
block number when its `refcnt` drops to zero, and nothing moves otherwise. -/
theorem relMem_lists {P : Param} {s : State} (hL : ListsOk P s) {b : Node} {i0 : Nat}
    (hi0 : i0 < P.nbuckets) (hb : b ∈ bucket P s i0) :
    ListsOk P (relMem P s b) ∧
      (s.refcnt b - 1 = 0 → ∀ i, i < P.nbuckets →
        bucket P (relMem P s b) i = moved (bucket P s) b (s.blockno b % P.nbuckets) i) ∧
      (s.refcnt b - 1 ≠ 0 → ∀ i, bucket P (relMem P s b) i = bucket P s i) := by
  have hkey : s.blockno b % P.nbuckets < P.nbuckets := Nat.mod_lt _ hL.1
  by_cases hz : s.refcnt b - 1 = 0
  · have hm := hL.lists_move (relMem P s b) hi0 hb hkey
      (by simp [relMem, hz]) (by simp [relMem, hz])
    exact ⟨hm.1, fun _ => hm.2, fun hc => absurd hz hc⟩
  · have hn : (relMem P s b).next = s.next := by simp [relMem, hz]
    have hp : (relMem P s b).prev = s.prev := by simp [relMem, hz]
    exact ⟨hL.lists_congr hn hp, fun hc => absurd hc hz, fun _ i => bucket_congr P hn i⟩

end Bio

namespace Bio

/-! ## `binit` builds well-formed lists -/

theorem binit_head_quiet {s : State} (i : Nat) (h : Quiet s) : Quiet (binit_head i s) := h

theorem binit_link_quiet {s : State} (i : Nat) (b : Node) (h : Quiet s) :
    Quiet (binit_link i b s) := by
  refine ⟨h.1, ?_, h.2.2⟩
  intro x
  simp only [binit_link, initsleeplock, upd_apply]
  split
  · rfl
  · exact h.2.1 x

theorem binit_link_ptrs (s : State) (i j : Nat) :
    (binit_link i (Node.buf j) s).next = insertNx s.next (Node.head i) (Node.buf j) ∧
    (binit_link i (Node.buf j) s).prev = insertPv s.next s.prev (Node.head i) (Node.buf j) := by
  have h : upd s.next (Node.buf j) (s.next (Node.head i)) (Node.head i) = s.next (Node.head i) :=
    upd_other _ _ _ _ (by simp)
  constructor
  · simp [binit_link, initsleeplock, insertNx]
  · simp [binit_link, initsleeplock, insertPv, h]

theorem Filled.link {P : Param} {s : State} {L : Nat → List Node} {c k : Nat}
    (hF : Filled P s.next s.prev L c) (hc : c < P.nbuf) (hk : k < P.nbuckets) :
    Filled P (binit_link k (Node.buf c) s).next (binit_link k (Node.buf c) s).prev
      (fun i => if i = k then Node.buf c :: L i else L i) (c + 1) := by
  obtain ⟨hR, hlt, hcov⟩ := hF
  have hnot : ∀ i, i < P.nbuckets → Node.buf c ∉ L i := by
    intro i hi hm
    obtain ⟨j, hj, e⟩ := hlt i hi _ hm
    cases e
    omega
  obtain ⟨e1, e2⟩ := binit_link_ptrs s k c
  rw [e1, e2]
  refine ⟨hR.rings_insert hc hk hnot, ?_, ?_⟩
  · intro i hi x hx
    by_cases hik : i = k
    · simp only [hik, if_true] at hx
      rcases List.mem_cons.mp hx with e | e
      · exact ⟨c, by omega, e⟩
      · obtain ⟨j, hj, e3⟩ := hlt k hk x e
        exact ⟨j, by omega, e3⟩
    · simp only [hik, if_false] at hx
      obtain ⟨j, hj, e3⟩ := hlt i hi x hx
      exact ⟨j, by omega, e3⟩
  · intro j hj
    by_cases hjc : j = c
    · subst hjc
      exact ⟨k, hk, by simp⟩
    · obtain ⟨i, hi, hm⟩ := hcov j (by omega)
      refine ⟨i, hi, ?_⟩
      by_cases hik : i = k
      · simp only [hik, if_true]
        rw [hik] at hm
        exact List.mem_cons_of_mem _ hm
      · simp only [hik, if_false]
        exact hm

/-- The loop `for(b = &buf[lo]; b < &buf[hi]; b++)` of `binit`. -/
theorem Filled.fill {P : Param} {k : Nat} (hk : k < P.nbuckets) :
    ∀ (m lo : Nat) (s : State) (L : Nat → List Node), Filled P s.next s.prev L lo →
      lo + m ≤ P.nbuf → Quiet s →
      ∃ L1, Filled P
          ((List.range' lo m).foldl (fun s j => binit_link k (Node.buf j) s) s).next
          ((List.range' lo m).foldl (fun s j => binit_link k (Node.buf j) s) s).prev
          L1 (lo + m) ∧
        (∀ i, i ≠ k → L1 i = L i) ∧
        Quiet ((List.range' lo m).foldl (fun s j => binit_link k (Node.buf j) s) s) := by
  intro m
  induction m with
  | zero =>
    intro lo s L hF _ hQ
    exact ⟨L, by simpa using hF, fun _ _ => rfl, by simpa using hQ⟩
  | succ m ih =>
    intro lo s L hF hle hQ
    have h1 := hF.link (k := k) (by omega) hk
    obtain ⟨L1, hF1, hL1, hQ1⟩ := ih (lo + 1) (binit_link k (Node.buf lo) s) _ h1 (by omega)
      (binit_link_quiet k _ hQ)
    refine ⟨L1, ?_, ?_, ?_⟩
    · simp only [List.range'_succ, List.foldl_cons]
      have e : lo + (m + 1) = lo + 1 + m := by omega
      rw [e]
      exact hF1
    · intro i hik
      rw [hL1 i hik]
      simp [hik]
    · simp only [List.range'_succ, List.foldl_cons]
      exact hQ1

theorem binit_fill_filled {P : Param} {k lo hi : Nat} {s : State} {L : Nat → List Node}
    (hk : k < P.nbuckets) (hF : Filled P s.next s.prev L lo) (hlo : lo ≤ hi)
    (hhi : hi ≤ P.nbuf) (hQ : Quiet s) :
    ∃ L1, Filled P (binit_fill k lo hi s).next (binit_fill k lo hi s).prev L1 hi ∧
      (∀ i, i ≠ k → L1 i = L i) ∧ Quiet (binit_fill k lo hi s) := by
  have := Filled.fill hk (hi - lo) lo s L hF (by omega) hQ
  have e : lo + (hi - lo) = hi := by omega
  rw [e] at this
  exact this

/-- Re-initialising the sentinel of an empty list changes nothing. -/
theorem binit_head_empty {s : State} {i : Nat} (h1 : s.next (Node.head i) = Node.head i)
    (h2 : s.prev (Node.head i) = Node.head i) :
    (binit_head i s).next = s.next ∧ (binit_head i s).prev = s.prev := by
  constructor
  · funext x
    simp only [binit_head, upd_apply]
    split
    · rename_i e; rw [e, h1]
    · rfl
  · funext x
    simp only [binit_head, upd_apply]
    split
    · rename_i e; rw [e, h2]
    · rfl

/-- First loop over the sentinels of `binit`. -/
theorem binit_heads (m : Nat) (s : State) (hQ : Quiet s) :
    (∀ i, i < m →
      ((List.range m).foldl (fun s i => binit_head i s) s).next (Node.head i) = Node.head i ∧
      ((List.range m).foldl (fun s i => binit_head i s) s).prev (Node.head i) = Node.head i) ∧
    Quiet ((List.range m).foldl (fun s i => binit_head i s) s) := by
  induction m with
  | zero => exact ⟨fun i hi => absurd hi (Nat.not_lt_zero i), by simpa using hQ⟩
  | succ m ih =>
    rw [List.range_succ, List.foldl_append]
    simp only [List.foldl_cons, List.foldl_nil]
    refine ⟨?_, binit_head_quiet m ih.2⟩
    intro i hi
    by_cases him : i = m
    · subst him
      simp [binit_head]
    · have := ih.1 i (by omega)
      have hne : Node.head i ≠ Node.head m := by
        intro e; cases e; exact him rfl
      simp only [binit_head, upd_other _ _ _ _ hne]
      exact this

/-- The rounds of the loop over the shards of `binit`. -/
theorem binit_rounds {P : Param} (n : Nat) (hn : (P.nbuckets - 1) * n ≤ P.nbuf) (s : State)
    (hQ : Quiet s)
    (hh : ∀ i, i < P.nbuckets →
      s.next (Node.head i) = Node.head i ∧ s.prev (Node.head i) = Node.head i) :
    ∀ m, m ≤ P.nbuckets - 1 →
      ∃ L, Filled P ((List.range m).foldl (binit_round n) (s, none, 0)).1.next
          ((List.range m).foldl (binit_round n) (s, none, 0)).1.prev L (m * n) ∧
        (∀ i, m ≤ i → L i = []) ∧
        Quiet ((List.range m).foldl (binit_round n) (s, none, 0)).1 ∧
        ((List.range m).foldl (binit_round n) (s, none, 0)).2.2 = m ∧
        (1 ≤ m → ((List.range m).foldl (binit_round n) (s, none, 0)).2.1 = some (m * n)) ∧
        (m = 0 → ((List.range m).foldl (binit_round n) (s, none, 0)).2.1 = none) := by
  intro m
  induction m with
  | zero =>
    intro _
    refine ⟨fun _ => [], ⟨⟨?_, ?_, ?_, ?_⟩, ?_, ?_⟩, fun _ _ => rfl, by simpa using hQ, rfl, ?_,
      fun _ => rfl⟩
    · intro i hi
      exact ⟨(hh i hi).1, (hh i hi).2⟩
    · intro i _ x hx; cases hx
    · intro i _; exact List.nodup_nil
    · intro i _ k _ x hx; cases hx
    · intro i _ x hx; cases hx
    · intro j hj; simp at hj
    · intro h; omega
  | succ m ih =>
    intro hm
    obtain ⟨L, hF, hE, hQ1, hcur, hb, _⟩ := ih (by omega)
    rw [List.range_succ, List.foldl_append]
    simp only [List.foldl_cons, List.foldl_nil]
    generalize (List.range m).foldl (binit_round n) (s, none, 0) = acc at hF hE hQ1 hcur hb
    have hmk : m < P.nbuckets := by omega
    have hring := hF.1.1 m hmk
    rw [hE m (le_refl _)] at hring
    obtain ⟨e1, e2⟩ := binit_head_empty (s := acc.1) hring.1 hring.2
    have hF0 : Filled P (binit_head m acc.1).next (binit_head m acc.1).prev L (m * n) := by
      rw [e1, e2]; exact hF
    have hle : (m + 1) * n ≤ P.nbuf := by
      have : (m + 1) * n ≤ (P.nbuckets - 1) * n := Nat.mul_le_mul_right n (by omega)
      omega
    obtain ⟨L1, hF1, hL1, hQ2⟩ := binit_fill_filled hmk hF0
      (Nat.mul_le_mul_right n (Nat.le_succ m)) hle (binit_head_quiet m hQ1)
    refine ⟨L1, hF1, ?_, hQ2, rfl, ?_, fun h0 => absurd h0 (Nat.succ_ne_zero m)⟩
    · intro i hi
      rw [hL1 i (by omega)]
      exact hE i (by omega)
    · intro _
      simp only [binit_round]
      rw [Nat.max_eq_right (Nat.mul_le_mul_right n (Nat.le_succ m))]

theorem State.zero_quiet (disk : Nat → Nat → Data) : Quiet (State.zero disk) :=
  ⟨fun _ => rfl, fun _ => rfl, rfl⟩

/-- After `binit` the lists are well formed, no buffer is referenced and no
content lock is held. -/
theorem binit_ok {P : Param} {disk : Nat → Nat → Data} {s : State}
    (h : binit P (State.zero disk) = some s) : ListsOk P s ∧ Quiet s := by
  unfold binit at h
  simp only at h
  obtain ⟨hh, hQ⟩ := binit_heads P.nbuckets (State.zero disk) (State.zero_quiet disk)
  have hn : (P.nbuckets - 1) * (P.nbuf / P.nbuckets) ≤ P.nbuf := by
    calc (P.nbuckets - 1) * (P.nbuf / P.nbuckets)
        ≤ P.nbuckets * (P.nbuf / P.nbuckets) := Nat.mul_le_mul_right _ (Nat.sub_le _ _)
      _ ≤ P.nbuf := Nat.mul_div_le _ _
  obtain ⟨L, hF, hE, hQ1, hcur, hb, hb0⟩ := binit_rounds (P.nbuf / P.nbuckets) hn _ hQ hh
    (P.nbuckets - 1) (le_refl _)
  generalize (List.range (P.nbuckets - 1)).foldl (binit_round (P.nbuf / P.nbuckets))
    ((List.range P.nbuckets).foldl (fun s i => binit_head i s) (State.zero disk), none, 0)
    = acc at h hF hE hQ1 hcur hb hb0
  by_cases hz : P.nbuckets - 1 = 0
  · rw [hb0 hz] at h
    cases h
  · rw [hb (by omega)] at h
    simp only [Option.some.injEq] at h
    rw [hcur] at h
    obtain ⟨L1, hF1, _, hQ2⟩ := binit_fill_filled (k := P.nbuckets - 1) (by omega) hF hn
      (le_refl _) hQ1
    rw [h] at hF1 hQ2
    exact ⟨(ListsOk.of_rings (by omega) hF1.1 hF1.2.2).1, hQ2⟩

end Bio

namespace Bio

/-! ## Stability of the first match -/

theorem find?_erase_ne {p : Node → Bool} {l : List Node} {x b : Node}
    (h : l.find? p = some x) (hxb : x ≠ b) : (l.erase b).find? p = some x := by
  induction l with
  | nil => cases h
  | cons y l ih =>
    by_cases hyb : y = b
    · subst hyb
      rw [List.erase_cons_head]
      rw [List.find?_cons] at h
      cases hp : p y with
      | true => rw [hp] at h; cases h; exact absurd rfl hxb
      | false => rw [hp] at h; exact h
    · rw [List.erase_cons_tail (by simpa using hyb)]
      rw [List.find?_cons] at h ⊢
      cases hp : p y with
      | true => rw [hp] at h; exact h
      | false => rw [hp] at h; exact ih h

theorem find?_congr_mem {p q : Node → Bool} {l : List Node} (h : ∀ y ∈ l, q y = p y) :
    l.find? q = l.find? p := by
  induction l with
  | nil => rfl
  | cons y l ih =>
    rw [List.find?_cons, List.find?_cons, h y (by simp),
      ih (fun z hz => h z (List.mem_cons_of_mem _ hz))]

theorem find?_change_one {p q : Node → Bool} {l : List Node} {x b : Node}
    (h : l.find? p = some x) (hxb : x ≠ b) (hq : ∀ y, y ≠ b → q y = p y) (hb : q b = false) :
    l.find? q = some x := by
  induction l with
  | nil => cases h
  | cons y l ih =>
    rw [List.find?_cons] at h ⊢
    by_cases hyb : y = b
    · subst hyb
      rw [hb]
      cases hp : p y with
      | true => rw [hp] at h; cases h; exact absurd rfl hxb
      | false => rw [hp] at h; exact ih h
    · rw [hq y hyb]
      cases hp : p y with
      | true => rw [hp] at h; exact h
      | false => rw [hp] at h; exact ih h

/-- A first match survives the move of another buffer whose (new) key is a
different one. -/
theorem hitOf_keep_moved {P : Param} {s M : State} {dk bk k : Nat} {x b : Node}
    (hL : ListsOk P s) (h : hitOf P s dk bk = some x) (hxb : x ≠ b)
    (hkeys : ∀ y, y ≠ b → M.dev y = s.dev y ∧ M.blockno y = s.blockno y)
    (hbk : ¬ (M.dev b = dk ∧ M.blockno b = bk))
    (hl : bucket P M (bk % P.nbuckets) = moved (bucket P s) b k (bk % P.nbuckets)) :
    hitOf P M dk bk = some x := by
  unfold hitOf at h ⊢
  have hnd := hL.2.1.2.2.1 _ (hL.home_lt bk)
  have hagree : ∀ y ∈ (bucket P s (bk % P.nbuckets)).erase b,
      decide (M.dev y = dk ∧ M.blockno y = bk) = decide (s.dev y = dk ∧ s.blockno y = bk) := by
    intro y hy
    have hyb : y ≠ b := (hnd.mem_erase_iff.mp hy).1
    rw [(hkeys y hyb).1, (hkeys y hyb).2]
  have hfind := find?_erase_ne (b := b) h hxb
  rw [hl]
  unfold moved
  split
  · rw [List.find?_cons]
    have : decide (M.dev b = dk ∧ M.blockno b = bk) = false := by simpa using hbk
    rw [this, find?_congr_mem hagree]
    exact hfind
  · rw [find?_congr_mem hagree]
    exact hfind

/-- A first match survives a change of the key of another buffer in place. -/
theorem hitOf_keep_same {P : Param} {s M : State} {dk bk : Nat} {x b : Node}
    (h : hitOf P s dk bk = some x) (hxb : x ≠ b)
    (hkeys : ∀ y, y ≠ b → M.dev y = s.dev y ∧ M.blockno y = s.blockno y)
    (hbk : ¬ (M.dev b = dk ∧ M.blockno b = bk))
    (hl : bucket P M (bk % P.nbuckets) = bucket P s (bk % P.nbuckets)) :
    hitOf P M dk bk = some x := by
  unfold hitOf at h ⊢
  rw [hl]
  refine find?_change_one h hxb ?_ (by simpa using hbk)
  intro y hyb
  rw [(hkeys y hyb).1, (hkeys y hyb).2]

theorem FirstMatch.first_congr {P : Param} {s s1 : State} (h : FirstMatch P s)
    (hd : s1.dev = s.dev) (hb : s1.blockno = s.blockno) (hn : s1.next = s.next)
    (hr : ∀ x, 0 < s1.refcnt x → 0 < s.refcnt x) : FirstMatch P s1 := by
  intro x hx
  rw [hd, hb]
  rw [hitOf_congr _ _ hd hb (bucket_congr P hn _)]
  exact h x (hr x hx)

/-- The memory `bget` builds keeps every referenced buffer the first match of
its key. -/
theorem FirstMatch.keep_bgetMem {P : Param} {s M : State} {dev blockno : Nat} {lg : List Event}
    {b : Node} (hF : FirstMatch P s) (hL : ListsOk P s)
    (hM : BgetMem P s dev blockno lg b M) : FirstMatch P M := by
  intro x hx
  by_cases hxb : x = b
  · subst hxb
    rw [hM.key.1, hM.key.2]
    exact hM.hit_after hL
  · have hr : M.refcnt x = s.refcnt x := by rw [hM.refcnt, upd_other _ _ _ _ hxb]
    rw [hr] at hx
    have hx0 := hF x hx
    obtain ⟨f1, f2, _⟩ := hM.others x hxb
    rw [f1, f2]
    have hkeys : ∀ y, y ≠ b → M.dev y = s.dev y ∧ M.blockno y = s.blockno y :=
      fun y hy => ⟨(hM.others y hy).1, (hM.others y hy).2.1⟩
    cases hM with
    | hit h => exact hx0
    | recycle h1 h2 =>
      refine hitOf_keep_same hx0 hxb hkeys ?_ (bucket_congr P rfl _)
      intro hk
      simp only [claimMem, upd_same] at hk
      rw [hk.1, hk.2, hx0] at h1
      cases h1
    | steal d h1 h2 hd1 hd2 h3 h4 =>
      have hm := hL.lists_move (stealMem s dev blockno (blockno % P.nbuckets) b lg)
        (Nat.mod_lt _ hL.1) (freeIn_some h3).1 (hL.home_lt blockno) rfl rfl
      refine hitOf_keep_moved hL hx0 hxb hkeys ?_ (hm.2 _ (hL.home_lt _))
      intro hk
      simp only [stealMem, claimMem, upd_same] at hk
      rw [hk.1, hk.2, hx0] at h1
      cases h1

/-- Releasing a buffer keeps every referenced buffer the first match of its
key. -/
theorem FirstMatch.keep_relMem {P : Param} {s : State} {b : Node} (hF : FirstMatch P s)
    (hL : ListsOk P s) (hb : 0 < s.refcnt b) {i0 : Nat} (hi0 : i0 < P.nbuckets)
    (hbm : b ∈ bucket P s i0) : FirstMatch P (relMem P s b) := by
  obtain ⟨_, hmv, hsame⟩ := relMem_lists hL hi0 hbm
  intro x hx
  have hd : (Bio.relMem P s b).dev = s.dev := rfl
  have hbn : (Bio.relMem P s b).blockno = s.blockno := rfl
  rw [hd, hbn]
  by_cases hz : s.refcnt b - 1 = 0
  · have hxb : x ≠ b := by
      intro e
      subst e
      simp [Bio.relMem, hz] at hx
    have hr : (Bio.relMem P s b).refcnt x = s.refcnt x := by
      simp [Bio.relMem, upd_other _ _ _ _ hxb]
    rw [hr] at hx
    have hx0 := hF x hx
    refine hitOf_keep_moved hL hx0 hxb (fun _ _ => ⟨rfl, rfl⟩) ?_ (hmv hz _ (hL.home_lt _))
    intro hk
    rw [hd, hbn] at hk
    have hb0 := hF b hb
    rw [hk.1, hk.2, hx0] at hb0
    cases hb0
    exact hxb rfl
  · have hx1 : 0 < s.refcnt x := by
      by_cases hxb : x = b
      · rw [hxb]; exact hb
      · have hr : (Bio.relMem P s b).refcnt x = s.refcnt x := by
          simp [Bio.relMem, upd_other _ _ _ _ hxb]
        rw [hr] at hx
        exact hx
    rw [hitOf_congr _ _ hd hbn (hsame hz _)]
    exact hF x hx1

end Bio

namespace Bio

/-! ## The invariant of the reachable states -/

theorem acquiresleep_blocked {pid : Nat} {b c : Node} {M s1 : State}
    (h : acquiresleep pid b M = Result.blocked c s1) :
    c = b ∧ M.lock b ≠ none ∧ s1 = { M with log := Event.acquiresleep b :: M.log } := by
  unfold acquiresleep at h
  simp only at h
  split at h
  · cases h
  · rename_i o hl
    cases h
    refine ⟨rfl, ?_, rfl⟩
    intro e
    rw [e] at hl
    cases hl

/-- Changes that touch neither keys, pointers, reference counts nor content
locks keep the invariant. -/
theorem Inv.of_same {P : Param} {y : Sys} {s1 : State} (hI : Inv P y)
    (hd : s1.dev = y.st.dev) (hb : s1.blockno = y.st.blockno) (hn : s1.next = y.st.next)
    (hp : s1.prev = y.st.prev) (hr : s1.refcnt = y.st.refcnt) (hl : s1.lock = y.st.lock) :
    Inv P { y with st := s1 } := by
  obtain ⟨hL, hC, hF⟩ := hI
  refine ⟨hL.lists_congr hn hp, ?_, hF.first_congr hd hb hn (fun x hx => by rw [hr] at hx; exact hx)⟩
  intro x
  show s1.refcnt x = (if s1.lock x = none then 0 else 1) + y.waits x + y.pins x
  rw [hr, hl]
  exact hC x

theorem bread_fill_same (b : Node) (s : State) :
    (bread_fill b s).dev = s.dev ∧ (bread_fill b s).blockno = s.blockno ∧
    (bread_fill b s).next = s.next ∧ (bread_fill b s).prev = s.prev ∧
    (bread_fill b s).refcnt = s.refcnt ∧ (bread_fill b s).lock = s.lock := by
  unfold bread_fill
  split <;> exact ⟨rfl, rfl, rfl, rfl, rfl, rfl⟩

theorem Inv.keep_bget_ok {P : Param} {y : Sys} {pid dev blockno : Nat} {b : Node} {s1 : State}
    (hI : Inv P y) (h : bget P pid dev blockno y.st = Result.ok b s1) :
    Inv P { y with st := s1 } := by
  obtain ⟨hL, hC, hF⟩ := hI
  rcases bget_state hL pid dev blockno with ⟨c, M, evs, _, hM, hres⟩ | ⟨evs, hres⟩
  · rw [hres] at h
    obtain ⟨rfl, hfree, rfl⟩ := acquiresleep_ok h
    refine ⟨(hM.lists hL).1.lists_congr rfl rfl, ?_,
      (hF.keep_bgetMem hL hM).first_congr rfl rfl rfl
      (fun x hx => hx)⟩
    intro x
    have hCx := hC x
    have hlk : M.lock = y.st.lock := hM.same.1
    show M.refcnt x = (if upd M.lock b (some pid) x = none then 0 else 1)
      + y.waits x + y.pins x
    rw [hM.refcnt, hlk]
    by_cases hxb : x = b
    · subst hxb
      rw [hlk] at hfree
      rw [hfree] at hCx
      simp only [upd_same] at hCx ⊢
      simp at hCx ⊢
      omega
    · rw [upd_other _ _ _ _ hxb, upd_other _ _ _ _ hxb]
      exact hCx
  · rw [hres] at h
    cases h

theorem Inv.keep_bget_blocked {P : Param} {y : Sys} {pid dev blockno : Nat} {b : Node}
    {s1 : State} (hI : Inv P y) (h : bget P pid dev blockno y.st = Result.blocked b s1) :
    Inv P { y with st := s1, waits := upd y.waits b (y.waits b + 1) } := by
  obtain ⟨hL, hC, hF⟩ := hI
  rcases bget_state hL pid dev blockno with ⟨c, M, evs, _, hM, hres⟩ | ⟨evs, hres⟩
  · rw [hres] at h
    obtain ⟨rfl, hheld, rfl⟩ := acquiresleep_blocked h
    refine ⟨(hM.lists hL).1.lists_congr rfl rfl, ?_,
      (hF.keep_bgetMem hL hM).first_congr rfl rfl rfl
      (fun x hx => hx)⟩
    intro x
    have hCx := hC x
    have hlk : M.lock = y.st.lock := hM.same.1
    show M.refcnt x = (if M.lock x = none then 0 else 1)
      + upd y.waits b (y.waits b + 1) x + y.pins x
    rw [hM.refcnt, hlk]
    by_cases hxb : x = b
    · subst hxb
      rw [hlk] at hheld
      simp only [upd_same]
      simp only [hheld, if_false] at hCx ⊢
      omega
    · rw [upd_other _ _ _ _ hxb, upd_other _ _ _ _ hxb]
      exact hCx
  · rw [hres] at h
    cases h

theorem Inv.keep_bget_panic {P : Param} {y : Sys} {pid dev blockno : Nat} {msg : String}
    {s1 : State} (hI : Inv P y) (h : bget P pid dev blockno y.st = Result.panic msg s1) :
    Inv P { y with st := s1 } := by
  rcases bget_state hI.1 pid dev blockno with ⟨c, M, evs, _, hM, hres⟩ | ⟨evs, hres⟩
  · rw [hres] at h
    exact absurd h (acquiresleep_not_panic _ _ _ _ _)
  · rw [hres] at h
    cases h
    exact hI.of_same rfl rfl rfl rfl rfl rfl

theorem bread_ok_inv {P : Param} {s s1 : State} {pid dev blockno : Nat} {b : Node}
    (h : bread P pid dev blockno s = Result.ok b s1) :
    ∃ sb, bget P pid dev blockno s = Result.ok b sb ∧ s1 = bread_fill b sb := by
  unfold bread at h
  cases hg : bget P pid dev blockno s with
  | ok c sb =>
    rw [hg] at h
    simp only at h
    cases h
    exact ⟨sb, rfl, rfl⟩
  | panic msg sb => rw [hg] at h; cases h
  | blocked c sb => rw [hg] at h; cases h
  | timeout sb => rw [hg] at h; cases h

theorem Inv.keep_wake {P : Param} {y : Sys} (hI : Inv P y) (pid : Nat) {b : Node}
    (hw : 0 < y.waits b) (hl : y.st.lock b = none) :
    Inv P { y with st := grantsleep pid b y.st, waits := upd y.waits b (y.waits b - 1) } := by
  obtain ⟨hL, hC, hF⟩ := hI
  refine ⟨hL.lists_congr rfl rfl, ?_, hF.first_congr rfl rfl rfl (fun x hx => hx)⟩
  intro x
  have hCx := hC x
  show y.st.refcnt x = (if upd y.st.lock b (some pid) x = none then 0 else 1)
    + upd y.waits b (y.waits b - 1) x + y.pins x
  by_cases hxb : x = b
  · subst hxb
    rw [hl] at hCx
    simp only [upd_same]
    simp at hCx ⊢
    omega
  · rw [upd_other _ _ _ _ hxb, upd_other _ _ _ _ hxb]
    exact hCx

/-- A held content lock means a reference. -/
theorem Counted.held {y : Sys} (hC : Counted y) {b : Node} {pid : Nat}
    (h : y.st.lock b = some pid) : 0 < y.st.refcnt b := by
  have := hC b
  rw [h] at this
  simp at this
  omega

/-- A referenced buffer is in the shard of its block number. -/
theorem FirstMatch.home {P : Param} {s : State} (hF : FirstMatch P s) {b : Node}
    (hb : 0 < s.refcnt b) : b ∈ bucket P s (s.blockno b % P.nbuckets) :=
  (hitOf_some (hF b hb)).1

theorem brelse_ok_held {P : Param} {s s1 : State} {pid : Nat} {b : Node}
    (h : brelse P pid b s = Result.ok () s1) : s.lock b = some pid := by
  unfold brelse at h
  by_cases hh : holdingsleep pid b s = false
  · rw [if_pos hh] at h
    cases h
  · simpa [holdingsleep] using hh

theorem Inv.keep_brelse {P : Param} {y : Sys} {pid : Nat} {b : Node} {s1 : State}
    (hI : Inv P y) (h : brelse P pid b y.st = Result.ok () s1) :
    Inv P { y with st := s1 } := by
  obtain ⟨hL, hC, hF⟩ := hI
  have hheld := brelse_ok_held h
  have hb := hC.held hheld
  have hbm := hF.home hb
  have hkey := hL.home_lt (y.st.blockno b)
  rw [brelse_eq hL hheld hkey hbm] at h
  cases h
  refine ⟨(relMem_lists hL hkey hbm).1, ?_, hF.keep_relMem hL hb hkey hbm⟩
  intro x
  have hCx := hC x
  show upd y.st.refcnt b (y.st.refcnt b - 1) x =
    (if upd y.st.lock b none x = none then 0 else 1) + y.waits x + y.pins x
  by_cases hxb : x = b
  · subst hxb
    rw [hheld] at hCx
    simp only [upd_same]
    simp at hCx ⊢
    omega
  · rw [upd_other _ _ _ _ hxb, upd_other _ _ _ _ hxb]
    exact hCx

theorem Inv.keep_bpin {P : Param} {y : Sys} (hI : Inv P y) {b : Node} (h : 0 < y.st.refcnt b) :
    Inv P { y with st := bpin P b y.st, pins := upd y.pins b (y.pins b + 1) } := by
  obtain ⟨hL, hC, hF⟩ := hI
  refine ⟨hL.lists_congr rfl rfl, ?_, hF.first_congr rfl rfl rfl ?_⟩
  · intro x
    have hCx := hC x
    show upd y.st.refcnt b (y.st.refcnt b + 1) x =
      (if y.st.lock x = none then 0 else 1) + y.waits x + upd y.pins b (y.pins b + 1) x
    by_cases hxb : x = b
    · subst hxb
      simp only [upd_same]
      omega
    · rw [upd_other _ _ _ _ hxb, upd_other _ _ _ _ hxb]
      exact hCx
  · intro x hx
    by_cases hxb : x = b
    · rw [hxb]; exact h
    · have : (Bio.bpin P b y.st).refcnt x = y.st.refcnt x := by
        simp [Bio.bpin, acquire, release, upd_other _ _ _ _ hxb]
      rw [this] at hx
      exact hx

theorem Inv.keep_bunpin {P : Param} {y : Sys} (hI : Inv P y) {b : Node} (h : 0 < y.pins b) :
    Inv P { y with st := bunpin P b y.st, pins := upd y.pins b (y.pins b - 1) } := by
  obtain ⟨hL, hC, hF⟩ := hI
  refine ⟨hL.lists_congr rfl rfl, ?_, hF.first_congr rfl rfl rfl ?_⟩
  · intro x
    have hCx := hC x
    show upd y.st.refcnt b (y.st.refcnt b - 1) x =
      (if y.st.lock x = none then 0 else 1) + y.waits x + upd y.pins b (y.pins b - 1) x
    by_cases hxb : x = b
    · subst hxb
      simp only [upd_same]
      omega
    · rw [upd_other _ _ _ _ hxb, upd_other _ _ _ _ hxb]
      exact hCx
  · intro x hx
    by_cases hxb : x = b
    · subst hxb
      have : (Bio.bunpin P x y.st).refcnt x = y.st.refcnt x - 1 := by
        simp [Bio.bunpin, acquire, release]
      rw [this] at hx
      omega
    · have : (Bio.bunpin P b y.st).refcnt x = y.st.refcnt x := by
        simp [Bio.bunpin, acquire, release, upd_other _ _ _ _ hxb]
      rw [this] at hx
      exact hx

theorem bwrite_ok_same {s s1 : State} {pid : Nat} {b : Node}
    (h : bwrite pid b s = Result.ok () s1) :
    s1.dev = s.dev ∧ s1.blockno = s.blockno ∧ s1.next = s.next ∧ s1.prev = s.prev ∧
    s1.refcnt = s.refcnt ∧ s1.lock = s.lock ∧ s1.valid = s.valid ∧ s1.data = s.data := by
  unfold bwrite at h
  split at h
  · cases h
  · cases h
    simp [virtio_disk_rw]

/-- Every reachable state satisfies the invariant. -/
theorem Reachable.inv {P : Param} {y : Sys} (h : Reachable P y) : Inv P y := by
  induction h with
  | init disk s h =>
    obtain ⟨hL, hQ⟩ := binit_ok h
    refine ⟨hL, ?_, ?_⟩
    · intro x
      show s.refcnt x = (if s.lock x = none then 0 else 1) + 0 + 0
      rw [hQ.1 x, hQ.2.1 x]
      rfl
    · intro x hx
      rw [hQ.1 x] at hx
      exact absurd hx (Nat.lt_irrefl 0)
  | bget_ok y pid dev blockno b s1 _ h ih => exact ih.keep_bget_ok h
  | bget_blocked y pid dev blockno b s1 _ h ih => exact ih.keep_bget_blocked h
  | bget_panic y pid dev blockno msg s1 _ h ih => exact ih.keep_bget_panic h
  | bread_ok y pid dev blockno b s1 _ h ih =>
    obtain ⟨sb, hg, rfl⟩ := bread_ok_inv h
    have h1 := ih.keep_bget_ok hg
    obtain ⟨e1, e2, e3, e4, e5, e6⟩ := bread_fill_same b sb
    exact h1.of_same  e1 e2 e3 e4 e5 e6
  | wake y pid b fill _ hw hl ih =>
    have h1 := ih.keep_wake pid hw hl
    cases fill with
    | false => exact h1
    | true =>
      obtain ⟨e1, e2, e3, e4, e5, e6⟩ := bread_fill_same b (grantsleep pid b y.st)
      exact h1.of_same e1 e2 e3 e4 e5 e6
  | bwrite y pid b s1 _ h ih =>
    obtain ⟨e1, e2, e3, e4, e5, e6, _, _⟩ := bwrite_ok_same h
    exact ih.of_same e1 e2 e3 e4 e5 e6
  | brelse y pid b s1 _ h ih => exact ih.keep_brelse h
  | bpin y b _ h ih => exact ih.keep_bpin h
  | bunpin y b _ h ih => exact ih.keep_bunpin h

/-- Reachable states are well formed. -/
theorem Reachable.wellFormed {P : Param} {y : Sys} (h : Reachable P y) : WellFormed P y.st := by
  obtain ⟨hL, hC, _⟩ := h.inv
  refine ⟨hL, ?_⟩
  intro j _ h0
  have := hC (Node.buf j)
  rw [h0] at this
  by_contra hc
  simp only [hc, if_false] at this
  omega

end Bio

namespace Bio

/-- C1. For a well-formed cache state, when `bget` returns buffer `b`: `b`
carries exactly the key `(dev, blockno)`, its `refcnt` is one more than
before the call, and is `1` when no buffer of the home shard carried the key
(the slot is freshly claimed), the content lock of `b` is held by the caller,
and the `refcnt` of every other buffer is unchanged. -/
theorem bget_contract (P : Param) (s : State) (pid dev blockno : Nat) (b : Node) (s1 : State)
    (hW : WellFormed P s) (h : bget P pid dev blockno s = Result.ok b s1) :
    s1.dev b = dev ∧ s1.blockno b = blockno ∧
    s1.refcnt b = s.refcnt b + 1 ∧
    ((∀ x ∈ bucket P s (blockno % P.nbuckets), ¬ hasKey s dev blockno x) → s1.refcnt b = 1) ∧
    s1.lock b = some pid ∧ holdingsleep pid b s1 = true ∧
    (∀ x, x ≠ b → s1.refcnt x = s.refcnt x) := by
  rcases bget_cases hW.1 pid dev blockno with ⟨c, M, evs, _, hM, hres⟩ | ⟨_, _, evs, _, hres⟩
  · rw [hres] at h
    obtain ⟨rfl, hfree, rfl⟩ := acquiresleep_ok h
    have hk := hM.key
    have hr := hM.refcnt
    refine ⟨hk.1, hk.2, ?_, ?_, ?_, ?_, ?_⟩
    · simp [grantsleep, hr]
    · intro hno
      exact (hM.fresh (hitOf_none.mpr hno)).2.2
    · simp [grantsleep]
    · simp [holdingsleep, grantsleep]
    · intro x hx
      simp [grantsleep, hr, upd_other _ _ _ _ hx]
  · rw [hres] at h
    cases h

set_option maxRecDepth 100000 in
/-- C1, instance: in the pool of the kernel after `binit`, process 1 asks for
block 13 of device 7; buffer 0 of shard 0 is freshly claimed for it. -/
theorem bget_contract_witness :
    WellFormed xv6 kern0 ∧
    (bget xv6 1 7 13 kern0).state.dev (Node.buf 0) = 7 ∧
    (bget xv6 1 7 13 kern0).state.blockno (Node.buf 0) = 13 ∧
    (bget xv6 1 7 13 kern0).state.refcnt (Node.buf 0) = kern0.refcnt (Node.buf 0) + 1 ∧
    (bget xv6 1 7 13 kern0).state.lock (Node.buf 0) = some 1 :=
  have h := bget_contract xv6 kern0 1 7 13 (Node.buf 0) (bget xv6 1 7 13 kern0).state
    (by decide) rfl
  ⟨by decide, h.1, h.2.1, h.2.2.1, h.2.2.2.2.1⟩

end Bio

namespace Bio

/-- C2. In a well-formed cache state: a buffer that `bget` returns without a
cache hit had `refcnt == 0`; every buffer with `refcnt > 0` keeps its `dev`,
`blockno`, valid flag, payload and shard through a call of `bget`, whatever
its outcome; after `bpin(b)` no sequence of `bget` calls changes the key, the
valid flag, the payload or the shard of `b`; and when every other buffer is
referenced too, a `bget` for a key that is not cached in its home shard
panics. -/
theorem bget_never_evicts_referenced (P : Param) (s : State) (hW : WellFormed P s) :
    (∀ pid dev blockno b s1, bget P pid dev blockno s = Result.ok b s1 →
      (∀ x ∈ bucket P s (blockno % P.nbuckets), ¬ hasKey s dev blockno x) →
      s.refcnt b = 0) ∧
    (∀ pid dev blockno x, 0 < s.refcnt x →
      (bget P pid dev blockno s).state.dev x = s.dev x ∧
      (bget P pid dev blockno s).state.blockno x = s.blockno x ∧
      (bget P pid dev blockno s).state.valid x = s.valid x ∧
      (bget P pid dev blockno s).state.data x = s.data x ∧
      (∀ i, i < P.nbuckets →
        (x ∈ bucket P (bget P pid dev blockno s).state i ↔ x ∈ bucket P s i))) ∧
    (∀ b reqs,
      (bgets P reqs (bpin P b s)).dev b = s.dev b ∧
      (bgets P reqs (bpin P b s)).blockno b = s.blockno b ∧
      (bgets P reqs (bpin P b s)).valid b = s.valid b ∧
      (bgets P reqs (bpin P b s)).data b = s.data b ∧
      (∀ i, i < P.nbuckets →
        (b ∈ bucket P (bgets P reqs (bpin P b s)) i ↔ b ∈ bucket P s i))) ∧
    (∀ b pid dev blockno,
      (∀ j, j < P.nbuf → Node.buf j ≠ b → s.refcnt (Node.buf j) ≠ 0) →
      (∀ x ∈ bucket P (bpin P b s) (blockno % P.nbuckets),
        ¬ hasKey (bpin P b s) dev blockno x) →
      ∃ s1, bget P pid dev blockno (bpin P b s) = Result.panic "bget: no buffers" s1) := by
  refine ⟨?_, ?_, ?_, ?_⟩
  · intro pid dev blockno b s1 h hno
    rcases bget_cases hW.1 pid dev blockno with ⟨c, M, evs, _, hM, hres⟩ | ⟨_, _, evs, _, hres⟩
    · rw [hres] at h
      obtain ⟨rfl, _, _⟩ := acquiresleep_ok h
      exact (hM.fresh (hitOf_none.mpr hno)).1
    · rw [hres] at h
      cases h
  · intro pid dev blockno x hx
    obtain ⟨f1, f2, f3, f4, f5, _⟩ := bget_frame hW.1 pid dev blockno x hx
    exact ⟨f1, f2, f3, f4, f5⟩
  · intro b reqs
    have hx : 0 < (bpin P b s).refcnt b := by simp [bpin, acquire, release]
    obtain ⟨f1, f2, f3, f4, f5, _⟩ := bgets_frame reqs (bpin_wf hW b) b hx
    refine ⟨f1, f2, f3, f4, ?_⟩
    intro i hi
    rw [f5 i hi]
    exact Iff.of_eq (congrArg (fun l => b ∈ l) (bucket_congr P rfl i))
  · intro b pid dev blockno hall hno
    have hW1 := bpin_wf hW b
    rcases bget_cases hW1.1 pid dev blockno with ⟨c, M, evs, _, hM, hres⟩ | ⟨_, _, evs, _, hres⟩
    · exfalso
      have hz := (hM.fresh (hitOf_none.mpr hno)).1
      obtain ⟨i, hi, hci⟩ := hM.mem hW1.1
      obtain ⟨j, hj, rfl⟩ := hW1.1.lt_nbuf hi hci
      by_cases hjb : Node.buf j = b
      · rw [hjb] at hz
        simp [bpin, acquire, release] at hz
      · apply hall j hj hjb
        simpa [bpin, acquire, release, upd_other _ _ _ _ hjb] using hz
    · exact ⟨_, hres⟩

/-- C2, instance: the small pool after `binit`; buffer 1 is pinned and four
lookups for other blocks follow (the last one finds no free buffer). -/
theorem bget_never_evicts_referenced_witness :
    WellFormed small small0 ∧
    (bgets small [(1, 0, 2), (1, 0, 4), (1, 0, 6), (1, 0, 8)]
      (bpin small (Node.buf 1) small0)).blockno (Node.buf 1) = small0.blockno (Node.buf 1) :=
  ⟨by decide,
    ((bget_never_evicts_referenced small small0 (by decide)).2.2.1 (Node.buf 1)
      [(1, 0, 2), (1, 0, 4), (1, 0, 6), (1, 0, 8)]).2.1⟩

/-- C4. In a well-formed cache state `bget` panics with "bget: no buffers"
exactly when the home shard holds no buffer with the key and no buffer of any
shard has `refcnt == 0`; it panics with no other message; at the panic every
field of every buffer and every list pointer is as before the call; and with
a pool of 4 buffers, all referenced and none carrying the key, it panics. -/
theorem bget_panic_iff (P : Param) (s : State) (pid dev blockno : Nat)
    (hW : WellFormed P s) :
    ((∃ s1, bget P pid dev blockno s = Result.panic "bget: no buffers" s1) ↔
      ((∀ x ∈ bucket P s (blockno % P.nbuckets), ¬ hasKey s dev blockno x) ∧
        ∀ i, i < P.nbuckets → ∀ x ∈ bucket P s i, s.refcnt x ≠ 0)) ∧
    (∀ msg s1, bget P pid dev blockno s = Result.panic msg s1 →
      msg = "bget: no buffers" ∧ s1.dev = s.dev ∧ s1.blockno = s.blockno ∧
      s1.valid = s.valid ∧ s1.refcnt = s.refcnt ∧ s1.lock = s.lock ∧ s1.data = s.data ∧
      s1.next = s.next ∧ s1.prev = s.prev ∧ ∀ i, bucket P s1 i = bucket P s i) ∧
    (P.nbuf = 4 →
      (∀ j, j < 4 → 0 < s.refcnt (Node.buf j) ∧ ¬ hasKey s dev blockno (Node.buf j)) →
      ∃ s1, bget P pid dev blockno s = Result.panic "bget: no buffers" s1) := by
  have hiff : (∃ s1, bget P pid dev blockno s = Result.panic "bget: no buffers" s1) ↔
      ((∀ x ∈ bucket P s (blockno % P.nbuckets), ¬ hasKey s dev blockno x) ∧
        ∀ i, i < P.nbuckets → ∀ x ∈ bucket P s i, s.refcnt x ≠ 0) := by
    constructor
    · rintro ⟨s1, h⟩
      rcases bget_cases hW.1 pid dev blockno with
        ⟨c, M, evs, _, hM, hres⟩ | ⟨hh, hf, evs, _, hres⟩
      · rw [hres] at h
        exact absurd h (acquiresleep_not_panic _ _ _ _ _)
      · exact ⟨hitOf_none.mp hh, fun i hi => freeIn_none.mp (hf i hi)⟩
    · rintro ⟨hno, hfull⟩
      rcases bget_cases hW.1 pid dev blockno with
        ⟨c, M, evs, _, hM, hres⟩ | ⟨hh, hf, evs, _, hres⟩
      · exfalso
        have hz := (hM.fresh (hitOf_none.mpr hno)).1
        obtain ⟨i, hi, hci⟩ := hM.mem hW.1
        exact hfull i hi c hci hz
      · exact ⟨_, hres⟩
  refine ⟨hiff, ?_, ?_⟩
  · intro msg s1 h
    rcases bget_cases hW.1 pid dev blockno with
      ⟨c, M, evs, _, hM, hres⟩ | ⟨hh, hf, evs, _, hres⟩
    · rw [hres] at h
      exact absurd h (acquiresleep_not_panic _ _ _ _ _)
    · rw [hres] at h
      cases h
      exact ⟨rfl, rfl, rfl, rfl, rfl, rfl, rfl, rfl, rfl, fun i => bucket_congr P rfl i⟩
  · intro h4 hall
    apply hiff.mpr
    have hpool : ∀ i, i < P.nbuckets → ∀ x ∈ bucket P s i,
        0 < s.refcnt x ∧ ¬ hasKey s dev blockno x := by
      intro i hi x hx
      obtain ⟨j, hj, rfl⟩ := hW.1.lt_nbuf hi hx
      exact hall j (by omega)
    refine ⟨fun x hx => (hpool _ (hW.1.home_lt blockno) x hx).2, ?_⟩
    intro i hi x hx
    have := (hpool i hi x hx).1
    omega

/-- C4, instance: the small pool with all four buffers referenced; a request
for a fifth block panics. -/
theorem bget_panic_iff_witness :
    WellFormed small small4 ∧
    ∃ s1, bget small 1 0 8 small4 = Result.panic "bget: no buffers" s1 :=
  ⟨by decide, (bget_panic_iff small small4 1 0 8 (by decide)).2.2 rfl (by decide)⟩

/-- C5. When `bget` returns buffer `b` in memory `sb`, `bread` returns the
same buffer with `valid` set; its log is the log of `bget` extended by exactly
one storage read of `b` when `valid` was clear after `bget`, and by nothing
when it was set; and no `refcnt` differs from the one `bget` left. -/
theorem bread_contract (P : Param) (s : State) (pid dev blockno : Nat) (b : Node) (sb : State)
    (h : bget P pid dev blockno s = Result.ok b sb) :
    ∃ s1, bread P pid dev blockno s = Result.ok b s1 ∧ s1.valid b = true ∧
      (sb.valid b = false → s1.log = Event.disk_rw (sb.dev b) b 0 :: sb.log) ∧
      (sb.valid b = true → s1.log = sb.log) ∧
      s1.refcnt = sb.refcnt := by
  refine ⟨bread_fill b sb, ?_, ?_, ?_, ?_, ?_⟩
  · simp only [bread, h]
  · unfold bread_fill
    by_cases hv : sb.valid b = false
    · simp [hv]
    · simp only [hv, if_false]
      simpa using hv
  · intro hv
    simp [bread_fill, hv, virtio_disk_rw]
  · intro hv
    simp [bread_fill, hv]
  · unfold bread_fill
    by_cases hv : sb.valid b = false
    · simp [hv, virtio_disk_rw]
    · simp [hv]

set_option maxRecDepth 100000 in
/-- C5, instance: the first read of block 13 of device 7 in the pool of the
kernel. -/
theorem bread_contract_witness :
    ∃ s1, bread xv6 1 7 13 kern0 = Result.ok (Node.buf 0) s1 ∧
      s1.valid (Node.buf 0) = true :=
  have h := bread_contract xv6 kern0 1 7 13 (Node.buf 0) (bget xv6 1 7 13 kern0).state rfl
  h.imp (fun _ hs => ⟨hs.1, hs.2.1⟩)

/-- C6. In a well-formed cache state, when no buffer of the home shard carries
the key and `bget` returns buffer `b`: `b` has `valid` clear, the key
`(dev, blockno)` and `refcnt == 1`, whatever it held before; and `bread`
returns it with `valid` set only after one storage read for `b` on device
`dev`, logged right after the calls of `bget`. -/
theorem recycle_overwrite (P : Param) (s : State) (pid dev blockno : Nat) (b : Node)
    (sb : State) (hW : WellFormed P s)
    (hno : ∀ x ∈ bucket P s (blockno % P.nbuckets), ¬ hasKey s dev blockno x)
    (h : bget P pid dev blockno s = Result.ok b sb) :
    sb.valid b = false ∧ sb.dev b = dev ∧ sb.blockno b = blockno ∧ sb.refcnt b = 1 ∧
    ∃ s1, bread P pid dev blockno s = Result.ok b s1 ∧ s1.valid b = true ∧
      s1.log = Event.disk_rw dev b 0 :: sb.log := by
  rcases bget_cases hW.1 pid dev blockno with ⟨c, M, evs, _, hM, hres⟩ | ⟨_, _, evs, _, hres⟩
  · have h0 := h
    rw [hres] at h
    obtain ⟨hbc, hfree, hsb⟩ := acquiresleep_ok h
    subst hbc
    have hk := hM.key
    have hf := hM.fresh (hitOf_none.mpr hno)
    have hv : sb.valid b = false := by rw [hsb]; exact hf.2.1
    have hd : sb.dev b = dev := by rw [hsb]; exact hk.1
    have hbn : sb.blockno b = blockno := by rw [hsb]; exact hk.2
    refine ⟨hv, hd, hbn, by rw [hsb]; exact hf.2.2, bread_fill b sb, ?_, ?_, ?_⟩
    · simp only [bread, h0]
    · simp [bread_fill, hv]
    · simp [bread_fill, hv, virtio_disk_rw, hd]
  · rw [hres] at h
    cases h

set_option maxRecDepth 100000 in
/-- C6, instance: block 13 of device 7 is not cached in the pool of the kernel
after `binit`; the buffer claimed for it has `valid` clear. -/
theorem recycle_overwrite_witness :
    (bget xv6 1 7 13 kern0).state.valid (Node.buf 0) = false ∧
    (bget xv6 1 7 13 kern0).state.refcnt (Node.buf 0) = 1 :=
  have h := recycle_overwrite xv6 kern0 1 7 13 (Node.buf 0) (bget xv6 1 7 13 kern0).state
    (by decide) (by decide) rfl
  ⟨h.1, h.2.2.2.1⟩

end Bio

namespace Bio

/-- The free buffer found from the least recently used end is the last free
one in `head.next` order. -/
theorem freeIn_split {P : Param} {s : State} {i : Nat} {b : Node}
    (h : freeIn P s i = some b) :
    ∃ l₁ l₂, bucket P s i = l₁ ++ b :: l₂ ∧ s.refcnt b = 0 ∧ ∀ x ∈ l₂, s.refcnt x ≠ 0 := by
  unfold freeIn at h
  obtain ⟨hp, as, bs, hsplit, has⟩ := List.find?_eq_some.mp h
  refine ⟨bs.reverse, as.reverse, ?_, by simpa using hp, ?_⟩
  · have := congrArg List.reverse hsplit
    simpa using this
  · intro x hx
    have := has x (List.mem_reverse.mp hx)
    simpa using this

/-- C9. In a well-formed cache state whose home shard holds neither a buffer
with the key nor a free buffer, while another shard holds a free buffer,
`bget` returns. The buffer `b` it returns comes from the shard at the least
cyclic distance `d` (`1 ≤ d < NBUCKETS`, so never the home shard) that has a
free buffer, and is the free buffer of that shard nearest the `head.prev`
end. On return `b` is gone from that shard's list, is `head.next` of the home
shard, and the order of the other buffers in both lists, and every other
list, is unchanged. -/
theorem bget_steals (P : Param) (s : State) (pid dev blockno : Nat) (hW : WellFormed P s)
    (hno : ∀ x ∈ bucket P s (blockno % P.nbuckets), ¬ hasKey s dev blockno x)
    (hfull : ∀ x ∈ bucket P s (blockno % P.nbuckets), s.refcnt x ≠ 0)
    (hfree : ∃ i, i < P.nbuckets ∧ i ≠ blockno % P.nbuckets ∧
      ∃ x ∈ bucket P s i, s.refcnt x = 0) :
    ∃ b s1 d, bget P pid dev blockno s = Result.ok b s1 ∧
      1 ≤ d ∧ d < P.nbuckets ∧
      (blockno % P.nbuckets + d) % P.nbuckets ≠ blockno % P.nbuckets ∧
      (∀ e, 1 ≤ e → e < d →
        ∀ x ∈ bucket P s ((blockno % P.nbuckets + e) % P.nbuckets), s.refcnt x ≠ 0) ∧
      (∃ l₁ l₂, bucket P s ((blockno % P.nbuckets + d) % P.nbuckets) = l₁ ++ b :: l₂ ∧
        s.refcnt b = 0 ∧ ∀ x ∈ l₂, s.refcnt x ≠ 0) ∧
      bucket P s1 ((blockno % P.nbuckets + d) % P.nbuckets) =
        (bucket P s ((blockno % P.nbuckets + d) % P.nbuckets)).erase b ∧
      bucket P s1 (blockno % P.nbuckets) = b :: bucket P s (blockno % P.nbuckets) ∧
      s1.next (Node.head (blockno % P.nbuckets)) = b ∧
      (∀ i, i < P.nbuckets → i ≠ blockno % P.nbuckets →
        i ≠ (blockno % P.nbuckets + d) % P.nbuckets → bucket P s1 i = bucket P s i) := by
  have hkey := hW.1.home_lt blockno
  rcases bget_cases hW.1 pid dev blockno with
    ⟨c, M, evs, _, hM, hres⟩ | ⟨hh, hf, evs, _, hres⟩
  · cases hM with
    | hit h => exact absurd (hitOf_some h) (fun h1 => hno c h1.1 h1.2)
    | recycle h1 h2 => exact absurd (freeIn_some h2) (fun h => hfull c h.1 h.2)
    | steal d h1 h2 hd1 hd2 h3 h4 =>
      have hi : (blockno % P.nbuckets + d) % P.nbuckets < P.nbuckets := Nat.mod_lt _ hW.1.1
      have hne := @cyc_ne P.nbuckets (blockno % P.nbuckets) d hd1 hd2
      obtain ⟨hcm, hc0⟩ := freeIn_some h3
      obtain ⟨j, hj, rfl⟩ := hW.1.lt_nbuf hi hcm
      have hlock : (stealMem s dev blockno (blockno % P.nbuckets) (Node.buf j)
          (evs ++ s.log)).lock (Node.buf j) = none := hW.2 j hj hc0
      rw [acquiresleep_free hlock] at hres
      have hmv := hW.1.lists_move
        (stealMem s dev blockno (blockno % P.nbuckets) (Node.buf j) (evs ++ s.log))
        hi hcm hkey rfl rfl
      have hbk : ∀ i, bucket P (grantsleep pid (Node.buf j)
          { stealMem s dev blockno (blockno % P.nbuckets) (Node.buf j) (evs ++ s.log) with
            log := Event.acquiresleep (Node.buf j) ::
              (stealMem s dev blockno (blockno % P.nbuckets) (Node.buf j) (evs ++ s.log)).log }) i
          = bucket P (stealMem s dev blockno (blockno % P.nbuckets) (Node.buf j)
              (evs ++ s.log)) i := fun i => bucket_congr P rfl i
      have hnothome : Node.buf j ∉ bucket P s (blockno % P.nbuckets) := by
        intro hm
        exact hne (hW.1.2.1.2.2.2 _ hi _ hkey _ hcm hm)
      refine ⟨Node.buf j, _, d, hres, hd1, hd2, hne, ?_, freeIn_split h3, ?_, ?_, ?_, ?_⟩
      · intro e he1 he2
        exact freeIn_none.mp (h4 e he1 he2)
      · rw [hbk, hmv.2 _ hi]
        unfold moved
        rw [if_neg hne]
      · rw [hbk, hmv.2 _ hkey]
        unfold moved
        rw [if_pos rfl, List.erase_of_not_mem hnothome]
      · simp [grantsleep, stealMem, insertNx]
      · intro i hi1 hi2 hi3
        rw [hbk, hmv.2 _ hi1]
        have : Node.buf j ∉ bucket P s i := by
          intro hm
          exact hi3 (hW.1.2.1.2.2.2 _ hi1 _ hi _ hm hcm)
        unfold moved
        rw [if_neg hi2, List.erase_of_not_mem this]
  · exfalso
    obtain ⟨i, hi, _, x, hx, hx0⟩ := hfree
    exact freeIn_none.mp (hf i hi) x hx hx0

/-- C9, instance: two shards of two buffers; after reads of blocks 0 and 2 of
device 0 both buffers of shard 0 are in use, and the request for block 4
takes buffer 2 from shard 1. -/
theorem bget_steals_witness :
    bucket small small2 0 = [Node.buf 1, Node.buf 0] ∧
    bucket small small2 1 = [Node.buf 3, Node.buf 2] ∧
    ∃ b s1 d, bget small 1 0 4 small2 = Result.ok b s1 ∧ 1 ≤ d ∧ d < 2 ∧
      bucket small s1 ((4 % 2 + d) % 2) = (bucket small small2 ((4 % 2 + d) % 2)).erase b ∧
      bucket small s1 (4 % 2) = b :: bucket small small2 (4 % 2) :=
  have h := bget_steals small small2 1 0 4 (by decide) (by decide) (by decide) (by decide)
  ⟨by decide, by decide,
    h.imp (fun _ h1 => h1.imp (fun _ h2 => h2.imp (fun _ h3 =>
      ⟨h3.1, h3.2.1, h3.2.2.1, h3.2.2.2.2.2.2.1, h3.2.2.2.2.2.2.2.1⟩)))⟩

end Bio

namespace Bio

/-- C10. In a well-formed cache state, when `bread(dev, blockno)` returns
buffer `b` and the caller releases it with `brelse`: `brelse` keeps the valid
flag and the payload of `b`, and the next `bget` or `bread` of the same key,
by any process, finds `b` in the hit scan and returns `b`; it changes no key,
no valid flag, no payload and no list pointer, raises only the `refcnt` of
`b`, and logs no storage call. -/
theorem relookup_hits (P : Param) (s : State) (pid dev blockno : Nat) (b : Node) (s1 : State)
    (hW : WellFormed P s) (h1 : bread P pid dev blockno s = Result.ok b s1) :
    ∃ s2, brelse P pid b s1 = Result.ok () s2 ∧
      s2.valid b = s1.valid b ∧ s2.data b = s1.data b ∧
      ∀ pid2, hitOf P s2 dev blockno = some b ∧
        ∃ s3, bget P pid2 dev blockno s2 = Result.ok b s3 ∧
          bread P pid2 dev blockno s2 = Result.ok b s3 ∧
          s3.valid b = true ∧ s3.valid = s2.valid ∧ s3.data = s2.data ∧
          s3.dev = s2.dev ∧ s3.blockno = s2.blockno ∧
          s3.next = s2.next ∧ s3.prev = s2.prev ∧
          s3.refcnt = upd s2.refcnt b (s2.refcnt b + 1) ∧
          ∃ evs, s3.log = evs ++ s2.log ∧ ∀ e ∈ evs, Event.isDisk e = false := by
  obtain ⟨hW1, hhit, hlock, hvalid, hdev, hblk, _, i0, hi0, hb⟩ := bread_ok hW h1
  have hrel := brelse_eq hW1.1 hlock hi0 hb
  obtain ⟨hL2, hmv, hsame⟩ := relMem_lists hW1.1 hi0 hb
  have hkey := hW1.1.home_lt blockno
  have hhome := (hitOf_some hhit).1
  have hhit2 : hitOf P (relMem P s1 b) dev blockno = some b := by
    by_cases hz : s1.refcnt b - 1 = 0
    · have hl := hmv hz _ hkey
      unfold moved at hl
      rw [hblk, if_pos rfl] at hl
      exact hitOf_front hl hdev hblk
    · rw [← hhit]
      exact hitOf_congr dev blockno rfl rfl (hsame hz _)
  refine ⟨relMem P s1 b, hrel, rfl, rfl, ?_⟩
  intro pid2
  refine ⟨hhit2, ?_⟩
  have hget := bget_hit_eq hL2 pid2 dev blockno hhit2
  have hfree : (hitMem (relMem P s1 b) b
      (Event.release (blockno % P.nbuckets) :: Event.acquire (blockno % P.nbuckets) ::
        (relMem P s1 b).log)).lock b = none := by
    simp [hitMem, relMem]
  rw [acquiresleep_free hfree] at hget
  have hv3 : (grantsleep pid2 b
      { hitMem (relMem P s1 b) b
          (Event.release (blockno % P.nbuckets) :: Event.acquire (blockno % P.nbuckets) ::
            (relMem P s1 b).log) with
        log := Event.acquiresleep b ::
          (hitMem (relMem P s1 b) b
            (Event.release (blockno % P.nbuckets) :: Event.acquire (blockno % P.nbuckets) ::
              (relMem P s1 b).log)).log }).valid b = true := hvalid
  refine ⟨_, hget, ?_, hv3, rfl, rfl, rfl, rfl, rfl, rfl, rfl, ?_⟩
  · simp only [bread, hget, bread_fill, hv3]
    simp
  · refine ⟨[Event.acquiresleep b, Event.release (blockno % P.nbuckets),
      Event.acquire (blockno % P.nbuckets)], rfl, ?_⟩
    intro e he
    simp at he
    rcases he with h | h | h <;> simp [h, Event.isDisk]

set_option maxRecDepth 100000 in
/-- C10, instance: in the pool of the kernel block 13 of device 7 is read,
released and read again by another process. -/
theorem relookup_hits_witness :
    ∃ s2, brelse xv6 1 (Node.buf 0) kern1 = Result.ok () s2 ∧
      ∃ s3, bread xv6 2 7 13 s2 = Result.ok (Node.buf 0) s3 ∧
        ∃ evs, s3.log = evs ++ s2.log ∧ ∀ e ∈ evs, Event.isDisk e = false :=
  have h := relookup_hits xv6 kern0 1 7 13 (Node.buf 0) kern1 (by decide) rfl
  h.imp (fun _ h2 => ⟨h2.1, (h2.2.2.2 2).2.imp (fun _ h3 =>
    ⟨h3.2.1, h3.2.2.2.2.2.2.2.2.2.2⟩)⟩)

end Bio

namespace Bio

set_option maxRecDepth 100000 in
theorem kernSys1_reachable : Reachable xv6 kernSys1 :=
  Reachable.bread_ok ⟨kern0, fun _ => 0, fun _ => 0⟩ 1 7 13 (Node.buf 0) kern1
    (Reachable.init (fun _ _ => []) kern0 rfl) rfl

set_option maxRecDepth 100000 in
theorem kernSys3_reachable : Reachable xv6 kernSys3 :=
  Reachable.brelse ⟨kern2, fun _ => 0, fun _ => 0⟩ 1 (Node.buf 1) kern3
    (Reachable.bread_ok ⟨kern1, fun _ => 0, fun _ => 0⟩ 1 7 26 (Node.buf 1) kern2
      kernSys1_reachable rfl) rfl

/-- C3. Key uniqueness: in every state reachable from `binit` under the
protocol, two buffers that both have `refcnt > 0` and carry the same key
`(dev, blockno)` are the same buffer. -/
theorem key_uniqueness (P : Param) (y : Sys) (hy : Reachable P y) (dev blockno : Nat)
    (x1 x2 : Node) (r1 : 0 < y.st.refcnt x1) (k1 : hasKey y.st dev blockno x1)
    (r2 : 0 < y.st.refcnt x2) (k2 : hasKey y.st dev blockno x2) : x1 = x2 := by
  obtain ⟨_, _, hF⟩ := hy.inv
  have h1 := hF x1 r1
  have h2 := hF x2 r2
  rw [k1.1, k1.2] at h1
  rw [k2.1, k2.2, h1] at h2
  cases h2
  rfl

/-- C3, instance: the pool of the kernel after the first read; buffer 0 is
referenced and carries the key `(7, 13)`. -/
theorem key_uniqueness_witness :
    0 < kernSys1.st.refcnt (Node.buf 0) ∧ hasKey kernSys1.st 7 13 (Node.buf 0) ∧
    Node.buf 0 = Node.buf 0 :=
  ⟨by decide, by decide,
    key_uniqueness xv6 kernSys1 kernSys1_reachable 7 13 (Node.buf 0) (Node.buf 0)
      (by decide) (by decide) (by decide) (by decide)⟩

/-- C7. In a reachable state, when the caller holds the content lock of `b`,
`brelse(b)` returns; it frees the content lock and lowers the `refcnt` of `b`
by exactly one, and changes no other `refcnt` or lock and no key, valid flag
or payload. `b` is in the list of some shard `k`; when its `refcnt` reaches
`0` it becomes `head.next` of that same shard, the other buffers of the shard
keep their order and every other list is unchanged; when its `refcnt` stays
positive no list pointer changes. -/
theorem brelse_contract (P : Param) (y : Sys) (hy : Reachable P y) (pid : Nat) (b : Node)
    (hheld : y.st.lock b = some pid) :
    ∃ s2, brelse P pid b y.st = Result.ok () s2 ∧
      s2.lock b = none ∧ s2.refcnt b + 1 = y.st.refcnt b ∧
      (∀ x, x ≠ b → s2.refcnt x = y.st.refcnt x ∧ s2.lock x = y.st.lock x) ∧
      s2.dev = y.st.dev ∧ s2.blockno = y.st.blockno ∧ s2.valid = y.st.valid ∧
      s2.data = y.st.data ∧
      ∃ k, k < P.nbuckets ∧ b ∈ bucket P y.st k ∧
        (s2.refcnt b = 0 →
          s2.next (Node.head k) = b ∧
          bucket P s2 k = b :: (bucket P y.st k).erase b ∧
          ∀ i, i < P.nbuckets → i ≠ k → bucket P s2 i = bucket P y.st i) ∧
        (0 < s2.refcnt b → s2.next = y.st.next ∧ s2.prev = y.st.prev) := by
  obtain ⟨hL, hC, hF⟩ := hy.inv
  have hb := hC.held hheld
  have hbm := hF.home hb
  have hkey := hL.home_lt (y.st.blockno b)
  obtain ⟨_, hmv, _⟩ := relMem_lists hL hkey hbm
  refine ⟨relMem P y.st b, brelse_eq hL hheld hkey hbm, by simp [relMem], ?_, ?_, rfl, rfl, rfl,
    rfl, y.st.blockno b % P.nbuckets, hkey, hbm, ?_, ?_⟩
  · simp only [relMem, upd_same]
    omega
  · intro x hx
    simp [relMem, upd_other _ _ _ _ hx]
  · intro h0
    have hz : y.st.refcnt b - 1 = 0 := by simpa [relMem] using h0
    refine ⟨by simp [relMem, hz, insertNx], ?_, ?_⟩
    · rw [hmv hz _ hkey]
      unfold moved
      rw [if_pos rfl]
    · intro i hi hik
      rw [hmv hz i hi]
      unfold moved
      rw [if_neg hik]
      apply List.erase_of_not_mem
      intro hm
      exact hik (hL.2.1.2.2.2 i hi _ hkey b hm hbm)
  · intro hpos
    have hz : y.st.refcnt b - 1 ≠ 0 := by
      intro e
      simp [relMem, e] at hpos
    simp [relMem, hz]

/-- C7, instance: process 1 releases buffer 0 after the first read in the
pool of the kernel. -/
theorem brelse_contract_witness :
    kernSys1.st.lock (Node.buf 0) = some 1 ∧
    ∃ s2, brelse xv6 1 (Node.buf 0) kernSys1.st = Result.ok () s2 ∧
      s2.lock (Node.buf 0) = none ∧ s2.refcnt (Node.buf 0) + 1 = kernSys1.st.refcnt (Node.buf 0) :=
  have h := brelse_contract xv6 kernSys1 kernSys1_reachable 1 (Node.buf 0) (by decide)
  ⟨by decide, h.imp (fun _ h2 => ⟨h2.1, h2.2.1, h2.2.2.1⟩)⟩

set_option maxRecDepth 100000 in
/-- C8 as stated fails. In the pool of the kernel (13 shards, 30 buffers)
process 1 reads blocks 13 and 26 of device 7 (buffers 0 and 1 of shard 0),
releases buffer 1 and then buffer 0. Right after the release of buffer 0 both
are free, buffer 0 is `head.next` of shard 0, and the next `bget` that has to
recycle in shard 0 (block 39 of device 7, not cached) selects buffer 1, the
one released earlier, not buffer 0. -/
theorem mru_preference_counterexample :
    Reachable xv6 kernSys3 ∧
    kernSys3.st.lock (Node.buf 0) = some 1 ∧
    brelse xv6 1 (Node.buf 0) kernSys3.st = Result.ok () kern4 ∧
    kern4.refcnt (Node.buf 0) = 0 ∧ kern4.refcnt (Node.buf 1) = 0 ∧
    bucket xv6 kern4 0 = [Node.buf 0, Node.buf 1] ∧
    39 % xv6.nbuckets = 0 ∧ kern4.blockno (Node.buf 0) % xv6.nbuckets = 0 ∧
    (∀ x ∈ bucket xv6 kern4 0, ¬ hasKey kern4 7 39 x) ∧
    (bget xv6 1 7 39 kern4 = Result.ok (Node.buf 1) (bget xv6 1 7 39 kern4).state) ∧
    Node.buf 1 ≠ Node.buf 0 :=
  ⟨kernSys3_reachable, by decide, rfl, by decide, by decide, by decide, by decide, by decide,
    by decide, rfl, by decide⟩

/-- C8, amended. In a reachable state, when `brelse(b)` by the holder of the
content lock drops the `refcnt` of `b` to zero, `b` is `head.next` of its
shard; the next `bget` for a key of that shard that is not cached there
returns the free buffer of the shard nearest the `head.prev` end, and this is
`b` exactly when no other buffer of the shard is free. -/
theorem recycle_after_release (P : Param) (y : Sys) (hy : Reachable P y) (pid : Nat) (b : Node)
    (hheld : y.st.lock b = some pid) (hlast : y.st.refcnt b = 1) :
    ∃ s2 rest, brelse P pid b y.st = Result.ok () s2 ∧ s2.refcnt b = 0 ∧
      bucket P s2 (y.st.blockno b % P.nbuckets) = b :: rest ∧
      ∀ pid2 dev blockno, blockno % P.nbuckets = y.st.blockno b % P.nbuckets →
        (∀ x ∈ bucket P s2 (blockno % P.nbuckets), ¬ hasKey s2 dev blockno x) →
        ∃ c s3, bget P pid2 dev blockno s2 = Result.ok c s3 ∧
          (∃ l₁ l₂, bucket P s2 (blockno % P.nbuckets) = l₁ ++ c :: l₂ ∧
            s2.refcnt c = 0 ∧ ∀ x ∈ l₂, s2.refcnt x ≠ 0) ∧
          (c = b ↔ ∀ x ∈ rest, s2.refcnt x ≠ 0) := by
  obtain ⟨hL, hC, hF⟩ := hy.inv
  have hb : 0 < y.st.refcnt b := by omega
  have hbm := hF.home hb
  have hkey := hL.home_lt (y.st.blockno b)
  have hrel := brelse_eq hL hheld hkey hbm
  have hW2 : WellFormed P (relMem P y.st b) := (Reachable.brelse y pid b _ hy hrel).wellFormed
  have hz : y.st.refcnt b - 1 = 0 := by omega
  obtain ⟨_, hmv, _⟩ := relMem_lists hL hkey hbm
  have hlist : bucket P (relMem P y.st b) (y.st.blockno b % P.nbuckets) =
      b :: (bucket P y.st (y.st.blockno b % P.nbuckets)).erase b := by
    rw [hmv hz _ hkey]
    unfold moved
    rw [if_pos rfl]
  have hb0 : (relMem P y.st b).refcnt b = 0 := by simp [relMem, hz]
  refine ⟨relMem P y.st b, _, hrel, hb0, hlist, ?_⟩
  intro pid2 dev blockno hshard hno
  have hnd := hW2.1.2.1.2.2.1 _ hkey
  rw [hlist] at hnd
  rcases bget_cases hW2.1 pid2 dev blockno with
    ⟨c, M, evs, _, hM, hres⟩ | ⟨_, hf, evs, _, hres⟩
  · cases hM with
    | hit h => exact absurd (hitOf_some h) (fun h1 => hno c h1.1 h1.2)
    | recycle h1 h2 =>
      obtain ⟨hcm, hc0⟩ := freeIn_some h2
      obtain ⟨j, hj, rfl⟩ := hW2.1.lt_nbuf (hW2.1.home_lt blockno) hcm
      have hlock : (claimMem (relMem P y.st b) dev blockno (Node.buf j)
          (evs ++ (relMem P y.st b).log)).lock (Node.buf j) = none := hW2.2 j hj hc0
      rw [acquiresleep_free hlock] at hres
      obtain ⟨l₁, l₂, hsplit, hfree, hbusy⟩ := freeIn_split h2
      refine ⟨Node.buf j, _, hres, ⟨l₁, l₂, hsplit, hfree, hbusy⟩, ?_⟩
      rw [hshard, hlist] at hsplit hcm
      constructor
      · intro e x hx
        rw [e] at hsplit
        cases l₁ with
        | nil =>
          simp only [List.nil_append, List.cons.injEq, true_and] at hsplit
          rw [hsplit] at hx
          exact hbusy x hx
        | cons z l₁ =>
          simp only [List.cons_append, List.cons.injEq] at hsplit
          exfalso
          apply (List.nodup_cons.mp hnd).1
          rw [hsplit.2]
          simp
      · intro hall
        rcases List.mem_cons.mp hcm with e | e
        · exact e
        · exact absurd hc0 (hall _ e)
    | steal d h1 h2 hd1 hd2 h3 h4 =>
      exfalso
      rw [hshard] at h2
      have := freeIn_none.mp h2 b (by rw [hlist]; simp)
      exact this hb0
  · exfalso
    have := freeIn_none.mp (hf _ hkey) b (by rw [hlist]; simp)
    exact this hb0

/-- C8 amended, instance: buffer 0 is released in the pool of the kernel
while buffer 1 of the same shard is free. -/
theorem recycle_after_release_witness :
    kernSys3.st.lock (Node.buf 0) = some 1 ∧ kernSys3.st.refcnt (Node.buf 0) = 1 ∧
    ∃ s2 rest, brelse xv6 1 (Node.buf 0) kernSys3.st = Result.ok () s2 ∧
      s2.refcnt (Node.buf 0) = 0 ∧
      bucket xv6 s2 (kernSys3.st.blockno (Node.buf 0) % xv6.nbuckets) = Node.buf 0 :: rest :=
  have h := recycle_after_release xv6 kernSys3 kernSys3_reachable 1 (Node.buf 0)
    (by decide) (by decide)
  ⟨by decide, by decide, h.imp (fun _ h2 => h2.imp (fun _ h3 => ⟨h3.1, h3.2.1, h3.2.2.1⟩))⟩

end Bio

namespace Bio

/-! ## Inverse pointers and the size of the pool -/

/-- In a ring `next` and `prev` are inverse on the sentinel and on every
node of the list. -/
theorem Ring.inverse {nx pv : Node → Node} {h : Node} {l : List Node}
    (hr : Ring nx pv h l) : ∀ x ∈ h :: l, pv (nx x) = x ∧ nx (pv x) = x := by
  have hhead : nx h = l.headD h := hr.1.first
  have hlast : pv h = l.getLastD h := by rw [hr.2.first, headD_reverse]
  intro x hx
  rcases List.mem_cons.mp hx with e | e
  · subst e
    cases l with
    | nil =>
      simp only [List.headD_nil, List.getLastD_nil] at hhead hlast
      rw [hhead, hlast]
      exact ⟨rfl, hhead⟩
    | cons y l =>
      constructor
      · rw [hhead, List.headD_cons]
        have hy : Ring nx pv x ([] ++ y :: l) := hr
        exact hy.neighbours.2
      · obtain ⟨l₁, z, hz⟩ : ∃ l₁ z, y :: l = l₁ ++ [z] :=
          ⟨(y :: l).dropLast, (y :: l).getLast (by simp),
            (List.dropLast_append_getLast (by simp)).symm⟩
        rw [hz] at hlast hr
        have hl : (l₁ ++ [z]).getLastD x = z := by
          rw [List.getLastD_eq_getLast?]
          simp
        rw [hlast, hl]
        have hn := hr.neighbours.1
        simpa using hn
  · obtain ⟨l₁, l₂, hsplit⟩ := List.append_of_mem e
    rw [hsplit] at hr hhead hlast
    obtain ⟨hn, hp⟩ := hr.neighbours
    constructor
    · rw [hn]
      cases l₂ with
      | nil =>
        simp only [List.headD_nil]
        rw [hlast, List.getLastD_eq_getLast?]
        simp
      | cons y l₂ =>
        simp only [List.headD_cons]
        have hy : Ring nx pv h ((l₁ ++ [x]) ++ y :: l₂) := by
          simpa using hr
        rw [hy.neighbours.2, List.getLastD_eq_getLast?]
        simp
    · rw [hp]
      rcases List.eq_nil_or_concat l₁ with e1 | ⟨l₀, z, e1⟩
      · subst e1
        simp only [List.getLastD_nil]
        rw [hhead]
        simp
      · subst e1
        rw [List.concat_eq_append] at hr hp ⊢
        have hl : (l₀ ++ [z]).getLastD h = z := by
          rw [List.getLastD_eq_getLast?]
          simp
        rw [hl]
        have hz : Ring nx pv h (l₀ ++ z :: (x :: l₂)) := by
          simpa using hr
        simpa using hz.neighbours.1

/-- The shard lists together hold each pool buffer once, so their lengths
add up to `NBUF`. -/
theorem ListsOk.poolCount_eq {P : Param} {s : State} (hL : ListsOk P s) :
    poolCount P s = P.nbuf := by
  obtain ⟨_, hR, hC⟩ := hL
  have hlen : poolCount P s = ((List.range P.nbuckets).flatMap (bucket P s)).length := by
    unfold poolCount
    rw [List.length_flatMap]
    rfl
  have hnd : ((List.range P.nbuckets).flatMap (bucket P s)).Nodup := by
    rw [List.nodup_flatMap]
    constructor
    · intro i hi
      exact hR.2.2.1 i (List.mem_range.mp hi)
    · have hp := List.pairwise_lt_range P.nbuckets
      have hmem : ∀ i ∈ List.range P.nbuckets, i < P.nbuckets :=
        fun i hi => List.mem_range.mp hi
      refine List.Pairwise.imp_of_mem ?_ hp
      intro a b ha hb hab
      show List.Disjoint (bucket P s a) (bucket P s b)
      intro x hxa hxb
      have := hR.2.2.2 a (hmem a ha) b (hmem b hb) x hxa hxb
      omega
  have hnd2 : ((List.range P.nbuf).map Node.buf).Nodup := by
    apply List.Nodup.map
    · intro a b e
      cases e
      rfl
    · exact List.nodup_range P.nbuf
  have hsub1 : (List.range P.nbuckets).flatMap (bucket P s) ⊆ (List.range P.nbuf).map Node.buf := by
    intro x hx
    obtain ⟨i, hi, hxi⟩ := List.mem_flatMap.mp hx
    obtain ⟨j, hj, rfl⟩ := hR.2.1 i (List.mem_range.mp hi) x hxi
    exact List.mem_map.mpr ⟨j, List.mem_range.mpr hj, rfl⟩
  have hsub2 : (List.range P.nbuf).map Node.buf ⊆ (List.range P.nbuckets).flatMap (bucket P s) := by
    intro x hx
    obtain ⟨j, hj, rfl⟩ := List.mem_map.mp hx
    obtain ⟨i, hi, hm⟩ := hC j (List.mem_range.mp hj)
    exact List.mem_flatMap.mpr ⟨i, List.mem_range.mpr hi, hm⟩
  have h1 := (hnd.subperm hsub1).length_le
  have h2 := (hnd2.subperm hsub2).length_le
  rw [hlen]
  simp only [List.length_map, List.length_range] at h1 h2
  omega

/-- Every pool buffer is in exactly one shard list, exactly once. -/
theorem ListsOk.unique_shard {P : Param} {s : State} (hL : ListsOk P s) {j : Nat}
    (hj : j < P.nbuf) :
    ∃ i, i < P.nbuckets ∧ Node.buf j ∈ bucket P s i ∧
      (bucket P s i).count (Node.buf j) = 1 ∧
      ∀ k, k < P.nbuckets → Node.buf j ∈ bucket P s k → k = i := by
  obtain ⟨i, hi, hm⟩ := hL.2.2 j hj
  refine ⟨i, hi, hm, List.count_eq_one_of_mem (hL.2.1.2.2.1 i hi) hm, ?_⟩
  intro k hk hmk
  exact hL.2.1.2.2.2 k hk i hi _ hmk hm

end Bio

namespace Bio

/-- C11. Structural invariant: in the state produced by `binit` and in every
state reached from it under the protocol, every one of the `NBUF` buffers is
in exactly one shard list and occurs in it exactly once, every shard list is
a ring through its sentinel that holds pool buffers only, `next` and `prev`
are inverse on the sentinel and on every buffer of the list, and the lengths
of the shard lists add up to `NBUF`. -/
theorem structural_invariant (P : Param) (y : Sys) (hy : Reachable P y) :
    (∀ j, j < P.nbuf → ∃ i, i < P.nbuckets ∧ Node.buf j ∈ bucket P y.st i ∧
      (bucket P y.st i).count (Node.buf j) = 1 ∧
      ∀ k, k < P.nbuckets → Node.buf j ∈ bucket P y.st k → k = i) ∧
    (∀ i, i < P.nbuckets →
      Ring y.st.next y.st.prev (Node.head i) (bucket P y.st i) ∧
      (bucket P y.st i).Nodup ∧
      (∀ x ∈ bucket P y.st i, ∃ j, j < P.nbuf ∧ x = Node.buf j) ∧
      ∀ x ∈ Node.head i :: bucket P y.st i,
        y.st.prev (y.st.next x) = x ∧ y.st.next (y.st.prev x) = x) ∧
    poolCount P y.st = P.nbuf := by
  have hL := hy.inv.1
  refine ⟨fun j hj => hL.unique_shard hj, ?_, hL.poolCount_eq⟩
  intro i hi
  exact ⟨hL.2.1.1 i hi, hL.2.1.2.2.1 i hi, hL.2.1.2.1 i hi, (hL.2.1.1 i hi).inverse⟩

/-- C11, instance: the pool of the kernel after the first read. -/
theorem structural_invariant_witness : poolCount xv6 kernSys1.st = 30 :=
  (structural_invariant xv6 kernSys1 kernSys1_reachable).2.2

/-- C12. In every cache state: `bwrite(b)` panics exactly when the caller does
not hold the content lock of `b`, with message "bwrite" and in the unchanged
memory (nothing is logged); when the caller holds the lock it returns after
logging exactly one storage write of `b` for `b->dev`, which leaves the
payload of `b` in block `b->blockno` of that device, and every `refcnt`,
valid flag, key, content lock, payload and list pointer is unchanged.
`brelse(b)` panics exactly when the caller does not hold the content lock of
`b`, with message "brelse" and in the unchanged memory. -/
theorem bwrite_brelse_guard (P : Param) (s : State) (pid : Nat) (b : Node) :
    ((∃ msg s1, bwrite pid b s = Result.panic msg s1) ↔ s.lock b ≠ some pid) ∧
    (s.lock b ≠ some pid → bwrite pid b s = Result.panic "bwrite" s) ∧
    (s.lock b = some pid →
      ∃ s1, bwrite pid b s = Result.ok () s1 ∧
        s1.log = Event.disk_rw (s.dev b) b 1 :: s.log ∧
        s1.disk (s.dev b) (s.blockno b) = s.data b ∧
        s1.refcnt = s.refcnt ∧ s1.valid = s.valid ∧ s1.dev = s.dev ∧
        s1.blockno = s.blockno ∧ s1.lock = s.lock ∧ s1.data = s.data ∧
        s1.next = s.next ∧ s1.prev = s.prev) ∧
    ((∃ msg s1, brelse P pid b s = Result.panic msg s1) ↔ s.lock b ≠ some pid) ∧
    (s.lock b ≠ some pid → brelse P pid b s = Result.panic "brelse" s) := by
  have hw1 : s.lock b ≠ some pid → bwrite pid b s = Result.panic "bwrite" s := by
    intro h
    simp [bwrite, holdingsleep, h]
  have hw2 : s.lock b = some pid →
      bwrite pid b s = Result.ok () (virtio_disk_rw (s.dev b) b 1 s) := by
    intro h
    simp [bwrite, holdingsleep, h]
  have hr1 : s.lock b ≠ some pid → brelse P pid b s = Result.panic "brelse" s := by
    intro h
    simp [brelse, holdingsleep, h]
  refine ⟨?_, hw1, ?_, ?_, hr1⟩
  · constructor
    · rintro ⟨msg, s1, h⟩ hl
      rw [hw2 hl] at h
      cases h
    · intro h
      exact ⟨_, _, hw1 h⟩
  · intro h
    refine ⟨_, hw2 h, ?_⟩
    simp [virtio_disk_rw]
  · constructor
    · rintro ⟨msg, s1, h⟩ hl
      have hh : holdingsleep pid b s = true := by simp [holdingsleep, hl]
      simp [brelse, hh] at h
    · intro h
      exact ⟨_, _, hr1 h⟩

/-- C13. In every cache state: `bpin(b)` raises the `refcnt` of `b` by exactly
one, `bunpin(b)` lowers it by one (exactly one less when it was at least 1);
both leave every other `refcnt`, every key, valid flag, payload, content
lock and list pointer, hence every shard list, unchanged; and `bunpin(b)`
after `bpin(b)` gives back the original memory, up to the four spin lock
calls added to the log. -/
theorem pin_unpin_frame (P : Param) (s : State) (b : Node) :
    ((bpin P b s).refcnt b = s.refcnt b + 1 ∧
      (∀ x, x ≠ b → (bpin P b s).refcnt x = s.refcnt x) ∧
      (bpin P b s).valid = s.valid ∧ (bpin P b s).dev = s.dev ∧
      (bpin P b s).blockno = s.blockno ∧ (bpin P b s).lock = s.lock ∧
      (bpin P b s).data = s.data ∧ (bpin P b s).disk = s.disk ∧
      (bpin P b s).next = s.next ∧ (bpin P b s).prev = s.prev ∧
      ∀ i, bucket P (bpin P b s) i = bucket P s i) ∧
    ((bunpin P b s).refcnt b = s.refcnt b - 1 ∧
      (1 ≤ s.refcnt b → (bunpin P b s).refcnt b + 1 = s.refcnt b) ∧
      (∀ x, x ≠ b → (bunpin P b s).refcnt x = s.refcnt x) ∧
      (bunpin P b s).valid = s.valid ∧ (bunpin P b s).dev = s.dev ∧
      (bunpin P b s).blockno = s.blockno ∧ (bunpin P b s).lock = s.lock ∧
      (bunpin P b s).data = s.data ∧ (bunpin P b s).disk = s.disk ∧
      (bunpin P b s).next = s.next ∧ (bunpin P b s).prev = s.prev ∧
      ∀ i, bucket P (bunpin P b s) i = bucket P s i) ∧
    bunpin P b (bpin P b s) =
      { s with log :=
        Event.release (s.blockno b % P.nbuckets) :: Event.acquire (s.blockno b % P.nbuckets) ::
        Event.release (s.blockno b % P.nbuckets) :: Event.acquire (s.blockno b % P.nbuckets) ::
        s.log } := by
  refine ⟨⟨?_, ?_, rfl, rfl, rfl, rfl, rfl, rfl, rfl, rfl, fun i => bucket_congr P rfl i⟩,
    ⟨?_, ?_, ?_, rfl, rfl, rfl, rfl, rfl, rfl, rfl, rfl, fun i => bucket_congr P rfl i⟩, ?_⟩
  · simp [bpin, acquire, release]
  · intro x hx
    simp [bpin, acquire, release, upd_other _ _ _ _ hx]
  · simp [bunpin, acquire, release]
  · intro h
    simp only [bunpin, acquire, release, upd_same]
    omega
  · intro x hx
    simp [bunpin, acquire, release, upd_other _ _ _ _ hx]
  · have hf : upd (upd s.refcnt b (s.refcnt b + 1)) b (s.refcnt b + 1 - 1) = s.refcnt := by
      funext x
      by_cases hx : x = b
      · subst hx
        simp
      · simp [upd_other _ _ _ _ hx]
    ext1 <;> simp [bunpin, bpin, acquire, release]
    exact hf

end Bio

namespace Bio

/-! ## The exact lists of `binit` -/

/-- The loop `for(b = &buf[lo]; b < &buf[hi]; b++)` of `binit` puts the
buffers `lo, lo+1, ...` in front of list `k`, the last one first. -/
theorem Filled.fill_lists {P : Param} {k : Nat} (hk : k < P.nbuckets) :
    ∀ (m lo : Nat) (s : State) (L : Nat → List Node), Filled P s.next s.prev L lo →
      lo + m ≤ P.nbuf → Quiet s →
      ∃ L1, Filled P
          ((List.range' lo m).foldl (fun s j => binit_link k (Node.buf j) s) s).next
          ((List.range' lo m).foldl (fun s j => binit_link k (Node.buf j) s) s).prev
          L1 (lo + m) ∧
        (∀ i, L1 i =
          if i = k then ((List.range' lo m).map Node.buf).reverse ++ L i else L i) ∧
        Quiet ((List.range' lo m).foldl (fun s j => binit_link k (Node.buf j) s) s) := by
  intro m
  induction m with
  | zero =>
    intro lo s L hF _ hQ
    refine ⟨L, by simpa using hF, ?_, by simpa using hQ⟩
    intro i
    simp
  | succ m ih =>
    intro lo s L hF hle hQ
    have h1 := hF.link (k := k) (by omega) hk
    obtain ⟨L1, hF1, hL1, hQ1⟩ := ih (lo + 1) (binit_link k (Node.buf lo) s) _ h1 (by omega)
      (binit_link_quiet k _ hQ)
    refine ⟨L1, ?_, ?_, ?_⟩
    · simp only [List.range'_succ, List.foldl_cons]
      have e : lo + (m + 1) = lo + 1 + m := by omega
      rw [e]
      exact hF1
    · intro i
      rw [hL1 i]
      by_cases hik : i = k
      · simp [hik, List.range'_succ]
      · simp [hik]
    · simp only [List.range'_succ, List.foldl_cons]
      exact hQ1

theorem binit_fill_lists {P : Param} {k lo hi : Nat} {s : State} {L : Nat → List Node}
    (hk : k < P.nbuckets) (hF : Filled P s.next s.prev L lo) (hlo : lo ≤ hi)
    (hhi : hi ≤ P.nbuf) (hQ : Quiet s) :
    ∃ L1, Filled P (binit_fill k lo hi s).next (binit_fill k lo hi s).prev L1 hi ∧
      (∀ i, L1 i =
        if i = k then ((List.range' lo (hi - lo)).map Node.buf).reverse ++ L i else L i) ∧
      Quiet (binit_fill k lo hi s) := by
  have := Filled.fill_lists hk (hi - lo) lo s L hF (by omega) hQ
  have e : lo + (hi - lo) = hi := by omega
  rw [e] at this
  exact this

/-- After `m` rounds of the loop over the shards of `binit`, each of the
first `m` shards holds its `n` buffers and the other lists are empty. -/
theorem binit_rounds_lists {P : Param} (n : Nat) (hn : (P.nbuckets - 1) * n ≤ P.nbuf)
    (s : State) (hQ : Quiet s)
    (hh : ∀ i, i < P.nbuckets →
      s.next (Node.head i) = Node.head i ∧ s.prev (Node.head i) = Node.head i) :
    ∀ m, m ≤ P.nbuckets - 1 →
      ∃ L, Filled P ((List.range m).foldl (binit_round n) (s, none, 0)).1.next
          ((List.range m).foldl (binit_round n) (s, none, 0)).1.prev L (m * n) ∧
        (∀ i, L i = if i < m then ((List.range' (i * n) n).map Node.buf).reverse else []) ∧
        Quiet ((List.range m).foldl (binit_round n) (s, none, 0)).1 ∧
        ((List.range m).foldl (binit_round n) (s, none, 0)).2.2 = m ∧
        (1 ≤ m → ((List.range m).foldl (binit_round n) (s, none, 0)).2.1 = some (m * n)) := by
  intro m
  induction m with
  | zero =>
    intro _
    refine ⟨fun _ => [], ⟨⟨?_, ?_, ?_, ?_⟩, ?_, ?_⟩, fun _ => by simp, by simpa using hQ, rfl, ?_⟩
    · intro i hi
      exact ⟨(hh i hi).1, (hh i hi).2⟩
    · intro i _ x hx; cases hx
    · intro i _; exact List.nodup_nil
    · intro i _ k _ x hx; cases hx
    · intro i _ x hx; cases hx
    · intro j hj; simp at hj
    · intro h; omega
  | succ m ih =>
    intro hm
    obtain ⟨L, hF, hE, hQ1, hcur, hb⟩ := ih (by omega)
    rw [List.range_succ, List.foldl_append]
    simp only [List.foldl_cons, List.foldl_nil]
    generalize (List.range m).foldl (binit_round n) (s, none, 0) = acc at hF hE hQ1 hcur hb
    have hmk : m < P.nbuckets := by omega
    have hring := hF.1.1 m hmk
    have hLm : L m = [] := by rw [hE m]; simp
    rw [hLm] at hring
    obtain ⟨e1, e2⟩ := binit_head_empty (s := acc.1) hring.1 hring.2
    have hF0 : Filled P (binit_head m acc.1).next (binit_head m acc.1).prev L (m * n) := by
      rw [e1, e2]; exact hF
    have hle : (m + 1) * n ≤ P.nbuf := by
      have : (m + 1) * n ≤ (P.nbuckets - 1) * n := Nat.mul_le_mul_right n (by omega)
      omega
    obtain ⟨L1, hF1, hL1, hQ2⟩ := binit_fill_lists hmk hF0
      (Nat.mul_le_mul_right n (Nat.le_succ m)) hle (binit_head_quiet m hQ1)
    refine ⟨L1, hF1, ?_, hQ2, rfl, ?_⟩
    · intro i
      rw [hL1 i]
      have hcnt : (m + 1) * n - m * n = n := by
        rw [Nat.add_mul, Nat.one_mul]
        omega
      by_cases him : i = m
      · subst him
        simp [hLm, hcnt]
      · rw [if_neg him, hE i]
        by_cases hlt : i < m
        · rw [if_pos hlt, if_pos (by omega)]
        · rw [if_neg hlt, if_neg (by omega)]
    · intro _
      simp only [binit_round]
      rw [Nat.max_eq_right (Nat.mul_le_mul_right n (Nat.le_succ m))]

/-- With at least two shards `binit` returns, and the shard lists are the
lists `binitList`. -/
theorem binit_lists {P : Param} (hnb : 2 ≤ P.nbuckets) (disk : Nat → Nat → Data) :
    ∃ s, binit P (State.zero disk) = some s ∧ ListsOk P s ∧ Quiet s ∧
      ∀ i, i < P.nbuckets → bucket P s i = binitList P i := by
  obtain ⟨hh, hQ⟩ := binit_heads P.nbuckets (State.zero disk) (State.zero_quiet disk)
  have hn : (P.nbuckets - 1) * (P.nbuf / P.nbuckets) ≤ P.nbuf := by
    calc (P.nbuckets - 1) * (P.nbuf / P.nbuckets)
        ≤ P.nbuckets * (P.nbuf / P.nbuckets) := Nat.mul_le_mul_right _ (Nat.sub_le _ _)
      _ ≤ P.nbuf := Nat.mul_div_le _ _
  obtain ⟨L, hF, hE, hQ1, hcur, hb⟩ := binit_rounds_lists (P.nbuf / P.nbuckets) hn _ hQ hh
    (P.nbuckets - 1) (le_refl _)
  have hbin : binit P (State.zero disk) = some (binit_fill (P.nbuckets - 1)
      ((P.nbuckets - 1) * (P.nbuf / P.nbuckets)) P.nbuf
      ((List.range (P.nbuckets - 1)).foldl (binit_round (P.nbuf / P.nbuckets))
        ((List.range P.nbuckets).foldl (fun s i => binit_head i s) (State.zero disk),
          none, 0)).1) := by
    unfold binit
    simp only
    rw [hb (by omega), hcur]
  generalize (List.range (P.nbuckets - 1)).foldl (binit_round (P.nbuf / P.nbuckets))
    ((List.range P.nbuckets).foldl (fun s i => binit_head i s) (State.zero disk), none, 0)
    = acc at hbin hF hE hQ1 hcur hb
  obtain ⟨L1, hF1, hL1, hQ2⟩ := binit_fill_lists (k := P.nbuckets - 1) (by omega) hF hn
    (le_refl _) hQ1
  obtain ⟨hok, hbk⟩ := ListsOk.of_rings (by omega) hF1.1 hF1.2.2
  refine ⟨_, hbin, hok, hQ2, ?_⟩
  intro i hi
  rw [hbk i hi, hL1 i, hE i]
  unfold binitList
  by_cases hlast : i = P.nbuckets - 1
  · subst hlast
    have h1 : ¬ (P.nbuckets - 1 + 1 < P.nbuckets) := by omega
    have h2 : P.nbuckets - 1 + 1 = P.nbuckets := by omega
    simp [h1, h2]
  · have h1 : i + 1 < P.nbuckets := by omega
    have h2 : i < P.nbuckets - 1 := by omega
    simp [hlast, h1, h2]

end Bio

namespace Bio

/-- C14. For every pool size and at least two shards `binit` returns, and in
the memory it leaves: every shard list is a ring through its sentinel (the
list `binitList` of consecutive buffers); each shard before the last holds
exactly `NBUF / NBUCKETS` buffers and the last shard the remaining
`NBUF - (NBUCKETS-1) * (NBUF / NBUCKETS)`; every buffer is in exactly one
shard; and nothing has been logged, so no storage I/O has been done. -/
theorem binit_distribution (P : Param) (hnb : 2 ≤ P.nbuckets) (disk : Nat → Nat → Data) :
    ∃ s, binit P (State.zero disk) = some s ∧
      (∀ i, i < P.nbuckets → Ring s.next s.prev (Node.head i) (bucket P s i) ∧
        bucket P s i = binitList P i) ∧
      (∀ i, i + 1 < P.nbuckets → (bucket P s i).length = P.nbuf / P.nbuckets) ∧
      (bucket P s (P.nbuckets - 1)).length =
        P.nbuf - (P.nbuckets - 1) * (P.nbuf / P.nbuckets) ∧
      (∀ j, j < P.nbuf → ∃ i, i < P.nbuckets ∧ Node.buf j ∈ bucket P s i ∧
        ∀ k, k < P.nbuckets → Node.buf j ∈ bucket P s k → k = i) ∧
      s.log = [] ∧ (∀ e ∈ s.log, Event.isDisk e = false) := by
  obtain ⟨s, hbin, hL, hQ, hlists⟩ := binit_lists hnb disk
  refine ⟨s, hbin, ?_, ?_, ?_, ?_, hQ.2.2, ?_⟩
  · intro i hi
    exact ⟨hL.2.1.1 i hi, hlists i hi⟩
  · intro i hi
    rw [hlists i (by omega)]
    unfold binitList
    simp [hi]
  · rw [hlists _ (by omega)]
    unfold binitList
    have h1 : ¬ (P.nbuckets - 1 + 1 < P.nbuckets) := by omega
    have h2 : P.nbuckets - 1 + 1 = P.nbuckets := by omega
    simp [h1, h2]
  · intro j hj
    obtain ⟨i, hi, hm, _, hu⟩ := hL.unique_shard hj
    exact ⟨i, hi, hm, hu⟩
  · intro e he
    rw [hQ.2.2] at he
    cases he

/-- C14, instance: with `NBUF = 30` and `NBUCKETS = 13` the first twelve
shards hold 2 buffers each and the last shard holds 6. -/
theorem binit_distribution_witness :
    ∃ s, binit xv6 (State.zero (fun _ _ => [])) = some s ∧
      (∀ i, i + 1 < 13 → (bucket xv6 s i).length = 2) ∧
      (bucket xv6 s 12).length = 6 :=
  (binit_distribution xv6 (by decide) (fun _ _ => [])).imp
    (fun _ h => ⟨h.1, h.2.2.1, h.2.2.2.1⟩)

/-- C16. In a well-formed cache state whose home shard holds no buffer with
the key but at least one buffer with `refcnt == 0`, `bget` returns the free
buffer of the home shard that is last in `head.next` order, which is the
first free one met from `head.prev`. No list pointer changes, so the buffer
is not moved and every shard list is as before; only the home spin lock is
taken; and no field of another buffer changes. -/
theorem local_recycle_lru (P : Param) (s : State) (pid dev blockno : Nat)
    (hW : WellFormed P s)
    (hno : ∀ x ∈ bucket P s (blockno % P.nbuckets), ¬ hasKey s dev blockno x)
    (hfree : ∃ x ∈ bucket P s (blockno % P.nbuckets), s.refcnt x = 0) :
    ∃ b s1, bget P pid dev blockno s = Result.ok b s1 ∧
      (∃ l₁ l₂, bucket P s (blockno % P.nbuckets) = l₁ ++ b :: l₂ ∧
        s.refcnt b = 0 ∧ ∀ x ∈ l₂, s.refcnt x ≠ 0) ∧
      (bucket P s (blockno % P.nbuckets)).reverse.find? (fun x => decide (s.refcnt x = 0))
        = some b ∧
      s1.next = s.next ∧ s1.prev = s.prev ∧ (∀ i, bucket P s1 i = bucket P s i) ∧
      (∀ x, x ≠ b → s1.dev x = s.dev x ∧ s1.blockno x = s.blockno x ∧
        s1.valid x = s.valid x ∧ s1.refcnt x = s.refcnt x ∧ s1.lock x = s.lock x) ∧
      s1.data = s.data ∧
      s1.log = Event.acquiresleep b :: Event.release (blockno % P.nbuckets) ::
        Event.acquire (blockno % P.nbuckets) :: s.log := by
  have hkey := hW.1.home_lt blockno
  have hh : hitOf P s dev blockno = none := hitOf_none.mpr hno
  cases hf : freeIn P s (blockno % P.nbuckets) with
  | none =>
    obtain ⟨x, hx, hx0⟩ := hfree
    exact absurd hx0 (freeIn_none.mp hf x hx)
  | some b =>
    obtain ⟨hbm, hb0⟩ := freeIn_some hf
    obtain ⟨j, hj, rfl⟩ := hW.1.lt_nbuf hkey hbm
    have hres := bget_local_eq hW.1 pid dev blockno hh hf
    have hlock : (claimMem s dev blockno (Node.buf j)
        (Event.release (blockno % P.nbuckets) :: Event.acquire (blockno % P.nbuckets) ::
          s.log)).lock (Node.buf j) = none := hW.2 j hj hb0
    rw [acquiresleep_free hlock] at hres
    refine ⟨Node.buf j, _, hres, freeIn_split hf, hf, rfl, rfl,
      fun i => bucket_congr P rfl i, ?_, rfl, rfl⟩
    intro x hx
    simp [grantsleep, claimMem, upd_other _ _ _ _ hx]

/-- C16, instance: in the pool of the kernel after `binit`, block 13 of device
7 is not cached; shard 0 is `[buf 1, buf 0]` and the buffer at the
`head.prev` end, buffer 0, is returned. -/
theorem local_recycle_lru_witness :
    bucket xv6 kern0 0 = [Node.buf 1, Node.buf 0] ∧
    ∃ b s1, bget xv6 1 7 13 kern0 = Result.ok b s1 ∧
      (bucket xv6 kern0 (13 % xv6.nbuckets)).reverse.find?
        (fun x => decide (kern0.refcnt x = 0)) = some b ∧
      s1.next = kern0.next :=
  have h := local_recycle_lru xv6 kern0 1 7 13 (by decide) (by decide) (by decide)
  ⟨by decide, h.imp (fun _ h1 => h1.imp (fun _ h2 => ⟨h2.1, h2.2.2.1, h2.2.2.2.1⟩))⟩

end Bio

namespace Bio

theorem bread_state_next (P : Param) (pid dev blockno : Nat) (s : State) :
    (bread P pid dev blockno s).state.next = (bget P pid dev blockno s).state.next := by
  unfold bread
  cases bget P pid dev blockno s with
  | ok b sb => exact (bread_fill_same b sb).2.2.1
  | panic msg sb => rfl
  | blocked b sb => rfl
  | timeout sb => rfl

theorem bwrite_state_next (pid : Nat) (b : Node) (s : State) :
    (bwrite pid b s).state.next = s.next := by
  unfold bwrite
  split
  · rfl
  · simp [Result.state, virtio_disk_rw]

/-- Membership in the moved lists, for a buffer that sits in list `k`. -/
theorem mem_moved_home {P : Param} {s : State} (hL : ListsOk P s) {b : Node} {k : Nat}
    (hk : k < P.nbuckets) (hb : b ∈ bucket P s k) {i : Nat} (hi : i < P.nbuckets) (x : Node) :
    x ∈ moved (bucket P s) b k i ↔ x ∈ bucket P s i := by
  by_cases hx : x = b
  · subst hx
    unfold moved
    by_cases hik : i = k
    · subst hik
      simp [hb]
    · rw [if_neg hik]
      constructor
      · intro h
        exact List.mem_of_mem_erase h
      · intro h
        exact absurd (hL.2.1.2.2.2 i hi k hk x h hb) hik
  · exact mem_moved hx

/-- C17. In a reachable state shard membership changes only by stealing. A
`bget` whose home shard holds a buffer with the key or a free buffer leaves
every shard list as it is; a `bget` whose home shard holds neither leaves
every list as it is (it panics) or moves exactly one buffer `b` from one other
shard `k` to the front of the home shard, all other lists unchanged. The
storage read of `bread`, `bwrite`, `bpin` and `bunpin` change no list, and
`brelse` leaves the set of buffers of every shard unchanged. -/
theorem membership_only_by_stealing (P : Param) (y : Sys) (hy : Reachable P y) :
    (∀ pid dev blockno,
      (((∃ x ∈ bucket P y.st (blockno % P.nbuckets), hasKey y.st dev blockno x) ∨
          (∃ x ∈ bucket P y.st (blockno % P.nbuckets), y.st.refcnt x = 0)) →
        ∀ i, bucket P (bget P pid dev blockno y.st).state i = bucket P y.st i) ∧
      ((∀ x ∈ bucket P y.st (blockno % P.nbuckets), ¬ hasKey y.st dev blockno x) →
        (∀ x ∈ bucket P y.st (blockno % P.nbuckets), y.st.refcnt x ≠ 0) →
        (∀ i, bucket P (bget P pid dev blockno y.st).state i = bucket P y.st i) ∨
        ∃ b k, k < P.nbuckets ∧ k ≠ blockno % P.nbuckets ∧ b ∈ bucket P y.st k ∧
          bucket P (bget P pid dev blockno y.st).state k = (bucket P y.st k).erase b ∧
          bucket P (bget P pid dev blockno y.st).state (blockno % P.nbuckets) =
            b :: bucket P y.st (blockno % P.nbuckets) ∧
          ∀ i, i < P.nbuckets → i ≠ k → i ≠ blockno % P.nbuckets →
            bucket P (bget P pid dev blockno y.st).state i = bucket P y.st i) ∧
      ∀ i, bucket P (bread P pid dev blockno y.st).state i =
        bucket P (bget P pid dev blockno y.st).state i) ∧
    (∀ b s i, bucket P (bread_fill b s) i = bucket P s i) ∧
    (∀ pid b i, bucket P (bwrite pid b y.st).state i = bucket P y.st i) ∧
    (∀ pid b i, i < P.nbuckets →
      ∀ x, x ∈ bucket P (brelse P pid b y.st).state i ↔ x ∈ bucket P y.st i) ∧
    (∀ b i, bucket P (bpin P b y.st) i = bucket P y.st i) ∧
    (∀ b i, bucket P (bunpin P b y.st) i = bucket P y.st i) := by
  obtain ⟨hL, hC, hF⟩ := hy.inv
  refine ⟨?_, ?_, ?_, ?_, fun b i => bucket_congr P rfl i, fun b i => bucket_congr P rfl i⟩
  · intro pid dev blockno
    have hkey := hL.home_lt blockno
    have hcases := bget_state hL pid dev blockno
    refine ⟨?_, ?_, fun i => bucket_congr P (bread_state_next P pid dev blockno y.st) i⟩
    · intro hor i
      rcases hcases with ⟨b, M, evs, _, hM, hres⟩ | ⟨evs, hres⟩
      · rw [hres, bucket_congr P (acquiresleep_state pid b M).2.2.2.2.1 i]
        cases hM with
        | hit h => exact bucket_congr P rfl i
        | recycle h1 h2 => exact bucket_congr P rfl i
        | steal d h1 h2 hd1 hd2 h3 h4 =>
          exfalso
          rcases hor with ⟨x, hx, hk⟩ | ⟨x, hx, h0⟩
          · exact hitOf_none.mp h1 x hx hk
          · exact freeIn_none.mp h2 x hx h0
      · rw [hres]
        exact bucket_congr P rfl i
    · intro hno hfull
      rcases hcases with ⟨b, M, evs, _, hM, hres⟩ | ⟨evs, hres⟩
      · have hbk : ∀ i, bucket P (bget P pid dev blockno y.st).state i = bucket P M i := by
          intro i
          rw [hres]
          exact bucket_congr P (acquiresleep_state pid b M).2.2.2.2.1 i
        cases hM with
        | hit h => exact absurd (hitOf_some h) (fun h1 => hno b h1.1 h1.2)
        | recycle h1 h2 => exact absurd (freeIn_some h2) (fun h => hfull b h.1 h.2)
        | steal d h1 h2 hd1 hd2 h3 h4 =>
          right
          have hi : (blockno % P.nbuckets + d) % P.nbuckets < P.nbuckets :=
            Nat.mod_lt _ hL.1
          have hne := @cyc_ne P.nbuckets (blockno % P.nbuckets) d hd1 hd2
          obtain ⟨hbm, _⟩ := freeIn_some h3
          have hmv := hL.lists_move
            (stealMem y.st dev blockno (blockno % P.nbuckets) b (evs ++ y.st.log))
            hi hbm hkey rfl rfl
          have hnothome : b ∉ bucket P y.st (blockno % P.nbuckets) := by
            intro hm
            exact hne (hL.2.1.2.2.2 _ hi _ hkey _ hbm hm)
          refine ⟨b, _, hi, hne, hbm, ?_, ?_, ?_⟩
          · rw [hbk, hmv.2 _ hi]
            unfold moved
            rw [if_neg hne]
          · rw [hbk, hmv.2 _ hkey]
            unfold moved
            rw [if_pos rfl, List.erase_of_not_mem hnothome]
          · intro i hi1 hi2 hi3
            rw [hbk, hmv.2 _ hi1]
            have : b ∉ bucket P y.st i := by
              intro hm
              exact hi2 (hL.2.1.2.2.2 _ hi1 _ hi _ hm hbm)
            unfold moved
            rw [if_neg hi3, List.erase_of_not_mem this]
      · left
        intro i
        rw [hres]
        exact bucket_congr P rfl i
  · intro b s i
    exact bucket_congr P (bread_fill_same b s).2.2.1 i
  · intro pid b i
    exact bucket_congr P (bwrite_state_next pid b y.st) i
  · intro pid b i hi x
    by_cases hheld : y.st.lock b = some pid
    · have hb := hC.held hheld
      have hbm := hF.home hb
      have hkey := hL.home_lt (y.st.blockno b)
      rw [brelse_eq hL hheld hkey hbm]
      obtain ⟨_, hmv, hsame⟩ := relMem_lists hL hkey hbm
      show x ∈ bucket P (relMem P y.st b) i ↔ x ∈ bucket P y.st i
      by_cases hz : y.st.refcnt b - 1 = 0
      · rw [hmv hz i hi]
        exact mem_moved_home hL hkey hbm hi x
      · rw [hsame hz i]
    · have hp : brelse P pid b y.st = Result.panic "brelse" y.st := by
        simp [brelse, holdingsleep, hheld]
      rw [hp]
      exact Iff.rfl

/-- C17, instance: the pool of the kernel after the first read; a lookup of
the cached block 13 of device 7 leaves shard 0 as it is. -/
theorem membership_only_by_stealing_witness :
    bucket xv6 (bget xv6 2 7 13 kernSys1.st).state 0 = bucket xv6 kernSys1.st 0 :=
  ((membership_only_by_stealing xv6 kernSys1 kernSys1_reachable).1 2 7 13).1
    (Or.inl (by decide)) 0

/-- C19. Home-shard invariant: in every reachable state every buffer with
`refcnt > 0` is in the list of shard `blockno mod NBUCKETS` and in no other
shard list; so the shard that `brelse` (called by the holder of the content
lock), `bpin` (called on a referenced buffer) and `bunpin` (undoing a pin)
compute from `b->blockno` is the shard whose list holds `b`. -/
theorem home_shard_invariant (P : Param) (y : Sys) (hy : Reachable P y) :
    (∀ x, 0 < y.st.refcnt x →
      x ∈ bucket P y.st (y.st.blockno x % P.nbuckets) ∧
      ∀ i, i < P.nbuckets → x ∈ bucket P y.st i → i = y.st.blockno x % P.nbuckets) ∧
    (∀ pid b, y.st.lock b = some pid → b ∈ bucket P y.st (y.st.blockno b % P.nbuckets)) ∧
    (∀ b, 0 < y.pins b → b ∈ bucket P y.st (y.st.blockno b % P.nbuckets)) := by
  obtain ⟨hL, hC, hF⟩ := hy.inv
  refine ⟨?_, ?_, ?_⟩
  · intro x hx
    refine ⟨hF.home hx, ?_⟩
    intro i hi hm
    exact hL.2.1.2.2.2 i hi _ (hL.home_lt _) x hm (hF.home hx)
  · intro pid b hheld
    exact hF.home (hC.held hheld)
  · intro b hp
    apply hF.home
    have := hC b
    omega

/-- C19, instance: in the pool of the kernel after the first read, buffer 0
is referenced and sits in shard `13 mod 13 = 0`; buffer 2 is free, has block
number 0 and sits in shard 1. -/
theorem home_shard_invariant_witness :
    0 < kernSys1.st.refcnt (Node.buf 0) ∧
    Node.buf 0 ∈ bucket xv6 kernSys1.st (kernSys1.st.blockno (Node.buf 0) % xv6.nbuckets) ∧
    kernSys1.st.refcnt (Node.buf 2) = 0 ∧
    Node.buf 2 ∉ bucket xv6 kernSys1.st (kernSys1.st.blockno (Node.buf 2) % xv6.nbuckets) :=
  ⟨by decide,
    ((home_shard_invariant xv6 kernSys1 kernSys1_reachable).1 (Node.buf 0) (by decide)).1,
    by decide, by decide⟩

/-- C20. In every reachable state a buffer whose content lock is held has
`refcnt >= 1`. Hence a `brelse` that passes the content lock check lowers a
`refcnt` of at least 1 by exactly one, a `bunpin` that undoes a pin does the
same, and a buffer whose content lock is held is never the free buffer that
the recycling scans of `bget` find in a shard, nor the buffer that a `bget`
without a cache hit returns. -/
theorem refcnt_no_underflow (P : Param) (y : Sys) (hy : Reachable P y) :
    (∀ b pid, y.st.lock b = some pid → 1 ≤ y.st.refcnt b) ∧
    (∀ pid b s2, brelse P pid b y.st = Result.ok () s2 →
      1 ≤ y.st.refcnt b ∧ s2.refcnt b + 1 = y.st.refcnt b) ∧
    (∀ b, 0 < y.pins b →
      1 ≤ y.st.refcnt b ∧ (bunpin P b y.st).refcnt b + 1 = y.st.refcnt b) ∧
    (∀ b pid i, y.st.lock b = some pid → freeIn P y.st i ≠ some b) ∧
    (∀ pid dev blockno c s1, bget P pid dev blockno y.st = Result.ok c s1 →
      (∀ x ∈ bucket P y.st (blockno % P.nbuckets), ¬ hasKey y.st dev blockno x) →
      y.st.refcnt c = 0 ∧ y.st.lock c = none) := by
  obtain ⟨hL, hC, hF⟩ := hy.inv
  refine ⟨fun b pid h => hC.held h, ?_, ?_, ?_, ?_⟩
  · intro pid b s2 h
    have hheld := brelse_ok_held h
    have hb := hC.held hheld
    have hbm := hF.home hb
    rw [brelse_eq hL hheld (hL.home_lt _) hbm] at h
    cases h
    refine ⟨hb, ?_⟩
    simp only [relMem, upd_same]
    omega
  · intro b hp
    have := hC b
    have hb : 1 ≤ y.st.refcnt b := by omega
    refine ⟨hb, ?_⟩
    simp only [bunpin, acquire, release, upd_same]
    omega
  · intro b pid i hheld hfree
    have := (freeIn_some hfree).2
    have := hC.held hheld
    omega
  · intro pid dev blockno c s1 h hno
    rcases bget_cases hL pid dev blockno with ⟨b, M, evs, _, hM, hres⟩ | ⟨_, _, evs, _, hres⟩
    · rw [hres] at h
      obtain ⟨rfl, hfree, _⟩ := acquiresleep_ok h
      refine ⟨(hM.fresh (hitOf_none.mpr hno)).1, ?_⟩
      rw [← hM.same.1]
      exact hfree
    · rw [hres] at h
      cases h

/-- C20, instance: in the pool of the kernel after the first read, process 1
holds the content lock of buffer 0, whose `refcnt` is 1. -/
theorem refcnt_no_underflow_witness :
    kernSys1.st.lock (Node.buf 0) = some 1 ∧ 1 ≤ kernSys1.st.refcnt (Node.buf 0) :=
  ⟨by decide,
    (refcnt_no_underflow xv6 kernSys1 kernSys1_reachable).1 (Node.buf 0) 1 (by decide)⟩

end Bio

namespace Bio

/-! ## Lock discipline -/

theorem lockrun_append (held : List Nat) (a b : List Event) :
    lockrun held (a ++ b) = (lockrun held a).bind (fun h1 => lockrun h1 b) := by
  induction a generalizing held with
  | nil => rfl
  | cons e a ih =>
    cases e with
    | acquire i => simp only [List.cons_append, lockrun]; exact ih _
    | release i =>
      simp only [List.cons_append, lockrun]
      split
      · exact ih _
      · rfl
    | acquiresleep b =>
      simp only [List.cons_append, lockrun]
      split
      · exact ih _
      · rfl
    | releasesleep b => simp only [List.cons_append, lockrun]; exact ih _
    | disk_rw d b w =>
      simp only [List.cons_append, lockrun]
      split
      · exact ih _
      · rfl

theorem Held.start (s : State) : Held s.log s [] :=
  ⟨[], rfl, rfl⟩

/-- One more logged call. -/
theorem Held.step {lg0 : List Event} {s s1 : State} {held held1 : List Nat} (e : Event)
    (h : Held lg0 s held) (he : lockrun held [e] = some held1) (hlog : s1.log = e :: s.log) :
    Held lg0 s1 held1 := by
  obtain ⟨evs, h1, h2⟩ := h
  refine ⟨e :: evs, by rw [hlog, h1]; rfl, ?_⟩
  rw [List.reverse_cons, lockrun_append, h2]
  exact he

theorem Held.same_log {lg0 : List Event} {s s1 : State} {held : List Nat}
    (h : Held lg0 s held) (hlog : s1.log = s.log) : Held lg0 s1 held := by
  obtain ⟨evs, h1, h2⟩ := h
  exact ⟨evs, by rw [hlog, h1], h2⟩

theorem Held.acquire {lg0 : List Event} {s : State} {held : List Nat} (i : Nat)
    (h : Held lg0 s held) : Held lg0 (Bio.acquire i s) (i :: held) :=
  h.step (Event.acquire i) rfl rfl

theorem Held.release {lg0 : List Event} {s : State} {held : List Nat} (i : Nat)
    (h : Held lg0 s held) (hi : i ∈ held) : Held lg0 (Bio.release i s) (held.erase i) :=
  h.step (Event.release i) (by simp [lockrun, hi]) rfl

/-- The call of `acquiresleep` with no spin lock held. -/
theorem Held.acquiresleep {lg0 : List Event} {M : State} (pid : Nat) (b : Node)
    (h : Held lg0 M []) : Held lg0 (Bio.acquiresleep pid b M).state [] := by
  refine h.step (Event.acquiresleep b) (by simp [lockrun]) ?_
  exact (acquiresleep_state pid b M).2.2.2.2.2.2.2.2.1

theorem bget_take_log (dev blockno key i : Nat) (b : Node) (s : State) :
    (bget_take dev blockno key i b s).log = Event.release key :: Event.release i :: s.log :=
  rfl

/-- The steal loop, entered with the home lock held, ends with no spin lock
held unless the model runs out of fuel. -/
theorem bget_steal_held (P : Param) (pid dev blockno key : Nat) (lg0 : List Event) :
    ∀ (fuel i : Nat) (s : State), Held lg0 s [key] →
      (∃ t, bget_steal P pid dev blockno key fuel i s = Result.timeout t) ∨
      Held lg0 (bget_steal P pid dev blockno key fuel i s).state [] := by
  intro fuel
  induction fuel with
  | zero =>
    intro i s _
    exact Or.inl ⟨s, rfl⟩
  | succ fuel ih =>
    intro i s h
    by_cases hik : i = key
    · right
      simp only [bget_steal, hik, if_true, Result.state]
      have := h.release key (by simp)
      simpa using this
    · simp only [bget_steal, hik, if_false]
      have h1 := h.acquire i
      cases hscan : scan (Bio.acquire i s).prev
          (fun b => decide ((Bio.acquire i s).refcnt b = 0)) (Node.head i) (P.nbuf + 1)
          ((Bio.acquire i s).prev (Node.head i)) with
      | none => exact Or.inl ⟨_, rfl⟩
      | some o =>
        cases o with
        | none =>
          simp only
          apply ih
          have := h1.release i (by simp)
          simpa using this
        | some b =>
          simp only
          right
          apply Held.acquiresleep
          have h2 : Held lg0 (Bio.release i (Bio.acquire i s)) [key] := by
            have := h1.release i (by simp)
            simpa using this
          have h3 : Held lg0 (Bio.release key (Bio.release i (Bio.acquire i s))) [] := by
            have := h2.release key (by simp)
            simpa using this
          exact h3.same_log rfl

/-- Every run of `bget` that ends respects the lock discipline. -/
theorem bget_held (P : Param) (pid dev blockno : Nat) (s : State) :
    (∃ t, bget P pid dev blockno s = Result.timeout t) ∨
    Held s.log (bget P pid dev blockno s).state [] := by
  have h1 := (Held.start s).acquire (blockno % P.nbuckets)
  unfold bget
  simp only
  cases hscan : scan (Bio.acquire (blockno % P.nbuckets) s).next
      (fun b => decide ((Bio.acquire (blockno % P.nbuckets) s).dev b = dev ∧
        (Bio.acquire (blockno % P.nbuckets) s).blockno b = blockno))
      (Node.head (blockno % P.nbuckets)) (P.nbuf + 1)
      ((Bio.acquire (blockno % P.nbuckets) s).next (Node.head (blockno % P.nbuckets))) with
  | none => exact Or.inl ⟨_, rfl⟩
  | some o =>
    cases o with
    | some b =>
      simp only
      right
      apply Held.acquiresleep
      have := h1.release (blockno % P.nbuckets) (by simp)
      have h2 : Held s.log (Bio.release (blockno % P.nbuckets)
          (Bio.acquire (blockno % P.nbuckets) s)) [] := by simpa using this
      exact h2.same_log rfl
    | none =>
      simp only
      cases hscan2 : scan (Bio.acquire (blockno % P.nbuckets) s).prev
          (fun b => decide ((Bio.acquire (blockno % P.nbuckets) s).refcnt b = 0))
          (Node.head (blockno % P.nbuckets)) (P.nbuf + 1)
          ((Bio.acquire (blockno % P.nbuckets) s).prev (Node.head (blockno % P.nbuckets))) with
      | none => exact Or.inl ⟨_, rfl⟩
      | some o2 =>
        cases o2 with
        | some b =>
          simp only
          right
          apply Held.acquiresleep
          have := h1.release (blockno % P.nbuckets) (by simp)
          have h2 : Held s.log (Bio.release (blockno % P.nbuckets)
              (Bio.acquire (blockno % P.nbuckets) s)) [] := by simpa using this
          exact h2.same_log rfl
        | none =>
          simp only
          exact bget_steal_held P pid dev blockno _ s.log _ _ _ h1

/-- On well-formed lists the scans of the model never run out of fuel. -/
theorem bget_ends {P : Param} {s : State} (hL : ListsOk P s) (pid dev blockno : Nat)
    (t : State) : bget P pid dev blockno s ≠ Result.timeout t := by
  intro h
  rcases bget_state hL pid dev blockno with ⟨b, M, evs, _, _, hres⟩ | ⟨evs, hres⟩
  · rw [hres] at h
    unfold Bio.acquiresleep at h
    simp only at h
    split at h <;> cases h
  · rw [hres] at h
    cases h

theorem bread_fill_held {lg0 : List Event} {s : State} (b : Node) (h : Held lg0 s []) :
    Held lg0 (bread_fill b s) [] := by
  unfold bread_fill
  split
  · exact h.step (Event.disk_rw (s.dev b) b 0) (by simp [lockrun]) (by simp [virtio_disk_rw])
  · exact h

/-- Every run of `bread` that ends respects the lock discipline. -/
theorem bread_held (P : Param) (pid dev blockno : Nat) (s : State) :
    (∃ t, bread P pid dev blockno s = Result.timeout t) ∨
    Held s.log (bread P pid dev blockno s).state [] := by
  have hg := bget_held P pid dev blockno s
  unfold bread
  cases hr : bget P pid dev blockno s with
  | ok b sb =>
    right
    rw [hr] at hg
    rcases hg with ⟨t, ht⟩ | hg
    · cases ht
    · exact bread_fill_held b hg
  | panic msg sb =>
    rw [hr] at hg
    rcases hg with ⟨t, ht⟩ | hg
    · cases ht
    · exact Or.inr hg
  | blocked b sb =>
    rw [hr] at hg
    rcases hg with ⟨t, ht⟩ | hg
    · cases ht
    · exact Or.inr hg
  | timeout sb => exact Or.inl ⟨sb, rfl⟩

end Bio

namespace Bio

theorem bread_ends {P : Param} {s : State} (hL : ListsOk P s) (pid dev blockno : Nat)
    (t : State) : bread P pid dev blockno s ≠ Result.timeout t := by
  intro h
  unfold bread at h
  cases hr : bget P pid dev blockno s with
  | ok b sb => rw [hr] at h; cases h
  | panic msg sb => rw [hr] at h; cases h
  | blocked b sb => rw [hr] at h; cases h
  | timeout sb => exact bget_ends hL pid dev blockno sb hr

theorem brelse_state_log (P : Param) (pid : Nat) (b : Node) (s : State) :
    (brelse P pid b s).state.log = s.log ∨
    (brelse P pid b s).state.log = Event.release (s.blockno b % P.nbuckets) ::
      Event.acquire (s.blockno b % P.nbuckets) :: Event.releasesleep b :: s.log := by
  unfold brelse
  split
  · exact Or.inl rfl
  · right
    simp only [Result.state, release, acquire, releasesleep]
    split <;> rfl

/-- C18. Lock discipline of each single operation. The calls that an
operation adds to the log, read in the order in which they were made, never
release a spin lock that is not held, never call `acquiresleep` or
`virtio_disk_rw` while a spin lock is held, and leave no spin lock held at
the end. This holds for `bget` and `bread` on every path on which the run of
the model ends, whether they return, panic or are suspended in
`acquiresleep` (on well-formed lists the run always ends), and for `bwrite`,
`brelse`, `bpin` and `bunpin` in every state. -/
theorem lock_discipline (P : Param) (s : State) (pid dev blockno : Nat) (b : Node) :
    ((∀ t, bget P pid dev blockno s ≠ Result.timeout t) →
      Disciplined s (bget P pid dev blockno s).state) ∧
    ((∀ t, bread P pid dev blockno s ≠ Result.timeout t) →
      Disciplined s (bread P pid dev blockno s).state) ∧
    (ListsOk P s → ∀ t, bget P pid dev blockno s ≠ Result.timeout t ∧
      bread P pid dev blockno s ≠ Result.timeout t) ∧
    Disciplined s (bwrite pid b s).state ∧
    Disciplined s (brelse P pid b s).state ∧
    Disciplined s (bpin P b s) ∧
    Disciplined s (bunpin P b s) := by
  refine ⟨?_, ?_, ?_, ?_, ?_, ?_, ?_⟩
  · intro hne
    rcases bget_held P pid dev blockno s with ⟨t, ht⟩ | h
    · exact absurd ht (hne t)
    · exact h
  · intro hne
    rcases bread_held P pid dev blockno s with ⟨t, ht⟩ | h
    · exact absurd ht (hne t)
    · exact h
  · intro hL t
    exact ⟨bget_ends hL pid dev blockno t, bread_ends hL pid dev blockno t⟩
  · unfold bwrite
    split
    · exact Held.start s
    · exact (Held.start s).step (Event.disk_rw (s.dev b) b 1) (by simp [lockrun])
        (by simp [Result.state, virtio_disk_rw])
  · rcases brelse_state_log P pid b s with h | h
    · exact ⟨[], by rw [h]; rfl, rfl⟩
    · exact ⟨[Event.release (s.blockno b % P.nbuckets),
        Event.acquire (s.blockno b % P.nbuckets), Event.releasesleep b], by rw [h]; rfl,
        by simp [lockrun]⟩
  · exact ⟨[Event.release (s.blockno b % P.nbuckets),
      Event.acquire (s.blockno b % P.nbuckets)], rfl, by simp [lockrun]⟩
  · exact ⟨[Event.release (s.blockno b % P.nbuckets),
      Event.acquire (s.blockno b % P.nbuckets)], rfl, by simp [lockrun]⟩

set_option maxRecDepth 100000 in
/-- C18, instance: the steal of the small pool (two shards of two buffers,
third request for shard 0) logs `acquire 0, acquire 1, release 1, release 0,
acquiresleep, virtio_disk_rw` in this order. -/
theorem lock_discipline_witness :
    small3.log.take 6 = [Event.disk_rw 0 (Node.buf 2) 0, Event.acquiresleep (Node.buf 2),
      Event.release 0, Event.release 1, Event.acquire 1, Event.acquire 0] ∧
    Disciplined small2 small3 :=
  ⟨by decide,
    (lock_discipline small small2 1 0 4 (Node.buf 0)).2.1
      (bread_ends (by decide) 1 0 4)⟩

end Bio
